import Mathlib

/-!
# Loomify core — a shallow embedding

This file embeds the core of the Loomify repository in Lean 4 and proves
properties of it:

* the job data model (`src/services/pipeline/types.ts`),
* the job queue / scheduler / merge coordinator
  (`src/services/pipeline/job-store.ts`): `submit`, `submitMerge`,
  `processQueue`, `runJob`, `runMergeChild`, `checkMergeCompletion`,
  `getJob`, `getAllJobs`,
* the stage pipeline (`src/services/pipeline/index.ts`):
  `processLoomVideo`, `downloadAndTranscribe`,
* the bounded polling loops (`src/services/gamma/generator.ts`
  `pollForCompletion`, `src/services/gemini/transcriber.ts`
  `transcribeVideo`).

Modelling conventions:

* Job ids are `Nat` (the source uses random UUID strings; ids are opaque,
  only equality is used). `createdAt` is a `Nat` tick; the store assigns
  creation times in increasing order, as `new Date()` does up to clock
  resolution.
* The remote collaborators (yt-dlp download, Gemini transcription, Gamma
  generation, file cleanup) are oracles: each job id is mapped to the
  outcomes its external calls will have. Errors are carried as the message
  string of the thrown `ProcessingError`/`Error`.
* JavaScript is single threaded: an async function runs atomically between
  `await` points. The scheduler is embedded as a state machine whose steps
  are exactly these atomic blocks; the nondeterministic interleaving of the
  event loop is the choice of which suspended task resumes next (an `Act`
  list). A promise-resolution microtask chain that performs no intermediate
  observable mutation of the job table is folded into the resuming block.
* `Math.round(x)` for the nonnegative rationals that occur here is
  round-half-up, `⌊x + 1/2⌋`; progress arithmetic is exact at the stage
  weights used by the source, so `Nat` arithmetic is faithful.
-/

namespace Loomify

/-- JavaScript `a || b` on strings: `""` is falsy. -/
def jsOr (a b : String) : String := if a = "" then b else a

/-- `Math.round (num / den)` for nonnegative values: `⌊num/den + 1/2⌋`.
(`roundDiv num den = (2*num + den) / (2*den)`; for `den = 0` the source
would produce `NaN`, which never occurs on reachable inputs.) -/
def roundDiv (num den : Nat) : Nat := (2 * num + den) / (2 * den)

/-- `Math.round (base + (p / 100) * weight)` — the per-stage overall
progress formula of `runJob` / `runMergeChild` in `job-store.ts`. -/
def stageProgress (base weight p : Nat) : Nat :=
  roundDiv (base * 100 + p * weight) 100

/-- `JobStatus` of `types.ts`. -/
inductive JobStatus where
  | queued | downloading | transcribing | generating | completed | failed
  deriving DecidableEq, Repr

/-- `JobMode` of `types.ts`. -/
inductive JobMode where
  | individual | mergeParent | mergeChild
  deriving DecidableEq, Repr

/-- `ApiKeys` of `types.ts` (with the `numCards` option the batch route
adds to the bag). -/
structure ApiKeys where
  geminiKey : String
  gammaKey : String
  gammaTemplateId : Option String := none
  numCards : Option Nat := none
  deriving DecidableEq, Repr

/-- The `result` field of a `Job`. -/
structure JobResult where
  transcript : String
  presentationUrl : String
  deriving DecidableEq, Repr

/-- `Job` of `types.ts`. -/
structure Job where
  id : Nat
  url : String
  keys : ApiKeys
  mode : JobMode
  parentJobId : Option Nat := none
  childJobIds : Option (List Nat) := none
  status : JobStatus
  progress : Nat
  message : String
  result : Option JobResult := none
  error : Option String := none
  createdAt : Nat
  deriving DecidableEq, Repr

/-- `JobSummary` of `types.ts`: a `Job` without `keys`, and with `result`
narrowed to the presentation URL alone (so the summary `result` is embedded
as that URL). -/
structure JobSummary where
  id : Nat
  url : String
  mode : JobMode
  parentJobId : Option Nat
  childJobIds : Option (List Nat)
  status : JobStatus
  progress : Nat
  message : String
  result : Option String
  error : Option String
  createdAt : Nat
  deriving DecidableEq, Repr

/-- An in-flight status: `downloading | transcribing | generating`. -/
def JobStatus.isActive : JobStatus → Bool
  | .downloading | .transcribing | .generating => true
  | _ => false

/-! ## `getAllJobs` (job-store.ts lines 86–93)

`Array.from(this.jobs.values()).sort((a, b) => b.createdAt - a.createdAt)`
sorts the jobs newest first; the `.map` strips `keys` and narrows `result`
to `{ presentationUrl }`. The job table is embedded as a `List Job` in
insertion order; the sort is embedded as a stable insertion sort by
descending `createdAt` (ECMAScript `sort` is a stable sort under the
total preorder the comparator induces). -/

/-- Insert a job into a list already sorted by descending `createdAt`,
before the first entry that is not strictly newer. -/
def insertByCreatedAt (x : Job) : List Job → List Job
  | [] => [x]
  | y :: ys =>
    if y.createdAt ≤ x.createdAt then x :: y :: ys
    else y :: insertByCreatedAt x ys

/-- Sort newest-first by `createdAt` (the comparator
`(a, b) => b.createdAt - a.createdAt`). -/
def sortByCreatedAtDesc (l : List Job) : List Job :=
  l.foldr insertByCreatedAt []

/-- The per-job summary projection of `getAllJobs`:
`({ keys: _keys, ...job }) => ({ ...job, result: job.result ? { presentationUrl: job.result.presentationUrl } : undefined })`. -/
def toSummary (j : Job) : JobSummary where
  id := j.id
  url := j.url
  mode := j.mode
  parentJobId := j.parentJobId
  childJobIds := j.childJobIds
  status := j.status
  progress := j.progress
  message := j.message
  result := j.result.map JobResult.presentationUrl
  error := j.error
  createdAt := j.createdAt

/-- `getAllJobs` of `job-store.ts`. -/
def getAllJobs (jobs : List Job) : List JobSummary :=
  (sortByCreatedAtDesc jobs).map toSummary

/-! ## The combined-transcript document (job-store.ts lines 234–239)

`checkMergeCompletion` builds the synthesis input from the children in
`childJobIds` order:

```
children.map((child, i) => {
  const videoId =
    child.url.match(/loom\.com\/(?:share|embed)\/([a-zA-Z0-9]+)/)?.[1]
    || `Video ${i + 1}`;
  return `--- Video ${i + 1} (${videoId}) ---\n${child.result!.transcript}`;
}).join('\n\n')
```
-/

/-- Drop an expected literal lead from a character list
(`none` when the list does not start with it). -/
def chopLead : List Char → List Char → Option (List Char)
  | [], cs => some cs
  | _ :: _, [] => none
  | p :: ps, c :: cs => if c = p then chopLead ps cs else none

/-- One attempted match of `loom\.com\/(?:share|embed)\/([a-zA-Z0-9]+)`
anchored at the head of the list: the alternation tries `share` then
`embed`, and the capture is the maximal nonempty ASCII-alphanumeric run. -/
def matchLoomIdHere (cs : List Char) : Option String :=
  let after :=
    match chopLead "loom.com/share/".toList cs with
    | some r => some r
    | none => chopLead "loom.com/embed/".toList cs
  match after with
  | none => none
  | some r =>
    let run := r.takeWhile fun c => c.isAlpha || c.isDigit
    if run.isEmpty then none else some (String.mk run)

/-- Unanchored regex search: first position where the pattern matches. -/
def findLoomId : List Char → Option String
  | [] => none
  | c :: cs =>
    match matchLoomIdHere (c :: cs) with
    | some v => some v
    | none => findLoomId cs

/-- `url.match(/loom\.com\/(?:share|embed)\/([a-zA-Z0-9]+)/)?.[1]`. -/
def loomVideoId (url : String) : Option String := findLoomId url.toList

/-- `child.result!.transcript`: on reachable inputs `result` is present;
JavaScript would interpolate a missing value as the string `undefined`. -/
def childTranscript (c : Job) : String :=
  (c.result.map JobResult.transcript).getD "undefined"

/-- The per-child labelled block, from the child's position `i` (0-based)
and the child job. -/
def mergeChildBlock (i : Nat) (c : Job) : String :=
  "--- Video " ++ toString (i + 1) ++ " ("
    ++ ((loomVideoId c.url).getD ("Video " ++ toString (i + 1)))
    ++ ") ---\n" ++ childTranscript c

/-- The combined document of `checkMergeCompletion`, over the children in
`childJobIds` order. -/
def combinedTranscript (children : List Job) : String :=
  String.intercalate "\n\n" (children.enum.map fun p => mergeChildBlock p.1 p.2)

/-- The same document as a function of the `(url, transcript)` pairs
alone, in list order — used to state that the combined document depends
on nothing else. -/
def combinedOfPairs (pairs : List (String × String)) : String :=
  String.intercalate "\n\n" (pairs.enum.map fun p =>
    "--- Video " ++ toString (p.1 + 1) ++ " ("
      ++ ((loomVideoId p.2.1).getD ("Video " ++ toString (p.1 + 1)))
      ++ ") ---\n" ++ p.2.2)

/-! ## The stage pipeline (pipeline/index.ts)

`processLoomVideo` and `downloadAndTranscribe` are embedded as functions
of an environment fixing the outcome of each external call (the thrown
`ProcessingError`'s message for a failure). Each returns the
`ProcessingResult` together with the number of times the scoped cleanup
action obtained from the download stage was invoked. -/

deriving instance DecidableEq for Except

/-- Outcomes of the external calls a single pipeline run makes. -/
structure StageEnv where
  download : Except String Unit
  transcribe : Except String String
  cleanup : Except String Unit
  generate : Except String String
  deriving DecidableEq, Repr

/-- `ProcessingResult` of `types.ts`. -/
structure ProcessingResult where
  success : Bool
  transcript : Option String := none
  presentationUrl : Option String := none
  error : Option String := none
  deriving DecidableEq, Repr

/-- `processLoomVideo` (pipeline/index.ts lines 8–109), with its cleanup
invocation count.

* download fails → the catch block runs with `downloadResult` unset, so no
  cleanup happens (0 calls);
* transcribe fails → the catch block awaits `cleanup()` once, swallowing
  its error (1 call);
* the post-transcription `await downloadResult.cleanup()` (line 59) is not
  guarded: if it throws, the catch block invokes cleanup again (swallowed)
  and the cleanup error becomes the returned failure (2 calls);
* generate fails → the catch block invokes cleanup a second time,
  swallowed (2 calls);
* full success → 1 call. -/
def processLoomVideo (env : StageEnv) : ProcessingResult × Nat :=
  match env.download with
  | .error e => ({ success := false, error := some e }, 0)
  | .ok _ =>
    match env.transcribe with
    | .error e => ({ success := false, error := some e }, 1)
    | .ok t =>
      match env.cleanup with
      | .error ce => ({ success := false, error := some ce }, 2)
      | .ok _ =>
        match env.generate with
        | .error e => ({ success := false, error := some e }, 2)
        | .ok url =>
          ({ success := true, transcript := some t,
             presentationUrl := some url }, 1)

/-- `downloadAndTranscribe` (pipeline/index.ts lines 112–146), the
transform-only child pipeline, with its cleanup invocation count. -/
def downloadAndTranscribe (env : StageEnv) : ProcessingResult × Nat :=
  match env.download with
  | .error e => ({ success := false, error := some e }, 0)
  | .ok _ =>
    match env.transcribe with
    | .error e => ({ success := false, error := some e }, 1)
    | .ok t =>
      match env.cleanup with
      | .error ce => ({ success := false, error := some ce }, 2)
      | .ok _ => ({ success := true, transcript := some t }, 1)

/-! ## Bounded polling: Gamma `pollForCompletion` (gamma/generator.ts 74–114)

The loop makes at most `MAX_POLLING_ATTEMPTS` status checks, each
non-terminal check followed by one `delay(POLLING_INTERVAL)` sleep. The
environment maps the attempt index to the outcome of
`client.get(/generations/{id})`. Each embedded wait returns its result
together with the number of `delay(POLLING_INTERVAL)` sleeps performed. -/

def MAX_POLLING_ATTEMPTS : Nat := 60

def POLLING_INTERVAL : Nat := 5000

/-- A classified `ProcessingError` (types.ts). -/
structure PErr where
  stage : String
  code : String
  message : String
  retryable : Bool
  deriving DecidableEq, Repr

/-- The response body fields `pollForCompletion` reads. -/
structure GammaData where
  status : Option String := none
  url : Option String := none
  gammaUrl : Option String := none
  error : Option String := none
  deriving DecidableEq, Repr

/-- A failure of `client.get`: an axios-style error with an optional HTTP
status and response message, or anything else. -/
inductive GammaHttpErr where
  | http (status : Option Nat) (dataMessage : Option String)
  | other (msg : String)
  deriving DecidableEq, Repr

/-- `PresentationResult` of `types.ts`. -/
structure PresentationResult where
  generationId : String
  gammaUrl : String
  deriving DecidableEq, Repr

/-- JavaScript truthiness of an optional string (`undefined` and `""` are
falsy). -/
def truthy : Option String → Bool
  | some s => !(s == "")
  | none => false

/-- `a || b` where `a` is an optional string. -/
def jsOrOpt (a : Option String) (b : String) : String :=
  match a with
  | some s => jsOr s b
  | none => b

/-- `handleGammaError` (gamma/generator.ts 116–169): classify a non-
`ProcessingError` failure; always throws a `ProcessingError`. -/
def handleGammaError : GammaHttpErr → PErr
  | .http status dataMessage =>
    if status = some 401 then
      ⟨"generate", "AUTH_FAILED",
        "Gamma API-Authentifizierung fehlgeschlagen. Bitte überprüfe den API-Key.",
        false⟩
    else if status = some 402 then
      ⟨"generate", "INSUFFICIENT_CREDITS", "Nicht genügend Gamma-Credits.", false⟩
    else if status = some 429 then
      ⟨"generate", "RATE_LIMITED",
        "Gamma API Rate-Limit erreicht. Bitte warte einen Moment.", true⟩
    else
      ⟨"generate", "API_ERROR",
        (match dataMessage with
         | some m => jsOr m ("Gamma API-Fehler (Status " ++ toString status ++ ")")
         | none => "Gamma API-Fehler (Status " ++ toString status ++ ")"),
        (match status with
         | some st => decide (500 ≤ st)
         | none => true)⟩
  | .other msg =>
    ⟨"generate", "UNKNOWN_ERROR", "Gamma-Fehler: " ++ msg, true⟩

/-- One terminal classification for attempt exhaustion (lines 108–113). -/
def gammaTimeoutErr : PErr :=
  ⟨"generate", "GENERATION_TIMEOUT",
    "Präsentationserstellung hat das Zeitlimit überschritten", true⟩

/-- `data.url || data.gammaUrl` (line 85). -/
def gammaUrlOf (d : GammaData) : Option String :=
  match d.url with
  | some s => if s = "" then d.gammaUrl else some s
  | none => d.gammaUrl

/-- The `while (attempts < MAX_POLLING_ATTEMPTS)` loop, with `fuel =
MAX_POLLING_ATTEMPTS - attempts`; `delays` counts the
`delay(POLLING_INTERVAL)` sleeps performed so far. -/
def pollGo (check : Nat → Except GammaHttpErr GammaData) (genId : String) :
    Nat → Nat → Nat → Except PErr PresentationResult × Nat
  | 0, _, delays => (.error gammaTimeoutErr, delays)
  | fuel + 1, attempts, delays =>
    match check attempts with
    | .error e => (.error (handleGammaError e), delays)
    | .ok data =>
      if data.status = some "completed" ∧ truthy (gammaUrlOf data) then
        (.ok ⟨genId, (gammaUrlOf data).getD ""⟩, delays)
      else if data.status = some "failed" then
        (.error ⟨"generate", "GENERATION_FAILED",
          jsOrOpt data.error "Gamma Präsentationserstellung fehlgeschlagen",
          true⟩, delays)
      else
        pollGo check genId fuel (attempts + 1) (delays + 1)

/-- `pollForCompletion` (gamma/generator.ts 74–114). -/
def pollForCompletion (generationId : String)
    (check : Nat → Except GammaHttpErr GammaData) :
    Except PErr PresentationResult × Nat :=
  pollGo check generationId MAX_POLLING_ATTEMPTS 0 0

/-! ## Bounded polling: the Gemini file-processing loop
(gemini/transcriber.ts 46–71)

`transcribeVideo` fetches the uploaded file's state once, then, while the
state is `PROCESSING` and attempts remain, sleeps `POLLING_INTERVAL` and
fetches again; a `FAILED` state is classified `PROCESSING_FAILED`
immediately, exhaustion while still `PROCESSING` is classified
`PROCESSING_TIMEOUT`. Only this bounded wait is embedded; the upload
before it and the generation after it are outside the loop. -/

/-- The SDK `FileState` values the loop distinguishes. -/
inductive GFileState where
  | processing | failed | active
  deriving DecidableEq, Repr

/-- The `while (file.state === PROCESSING && attempts < MAX)` loop:
returns the last fetched state and the number of sleeps. `getFile k` is
the state returned by the `k`-th fetch (`k = 0` before the loop). -/
def fileGo (getFile : Nat → GFileState) :
    Nat → Nat → Nat → GFileState → GFileState × Nat
  | 0, _, delays, f => (f, delays)
  | fuel + 1, attempts, delays, f =>
    if f = .processing then
      fileGo getFile fuel (attempts + 1) (delays + 1) (getFile (attempts + 1))
    else (f, delays)

/-- The bounded file-processing wait of `transcribeVideo`
(transcriber.ts 46–71), with its sleep count. -/
def fileProcessingWait (getFile : Nat → GFileState) :
    Except PErr GFileState × Nat :=
  let r := fileGo getFile MAX_POLLING_ATTEMPTS 0 0 (getFile 0)
  if r.1 = .failed then
    (.error ⟨"transcribe", "PROCESSING_FAILED",
      "Gemini konnte das Video nicht verarbeiten", true⟩, r.2)
  else if r.1 = .processing then
    (.error ⟨"transcribe", "PROCESSING_TIMEOUT",
      "Video-Verarbeitung hat das Zeitlimit überschritten", true⟩, r.2)
  else (.ok r.1, r.2)

/-! ## The job store (job-store.ts)

The `JobStore` singleton is embedded as a state machine. A state holds
the job table (in `Map` insertion order), the FIFO admission queue, the
active count, the suspended tasks (each async run of `runJob`,
`runMergeChild` or the tail of `checkMergeCompletion`, identified by its
job id and the `await` it is suspended at), and the fresh-id counter.
Remote outcomes come from an `Oracle` mapping each job id to its external
call results; the event-loop interleaving is an explicit `Act` list. -/

def MAX_CONCURRENT : Nat := 2

/-- The `await` a suspended async run sits at, with the values its local
variables hold. `ind*` phases belong to `runJob` / `processLoomVideo`,
`ch*` phases to `runMergeChild` / `downloadAndTranscribe`, and
`parentGenerate` to `checkMergeCompletion` awaiting `createPresentation`
with the combined document. -/
inductive TaskPhase where
  | indDownload
  | indTranscribe
  | indCleanupOk (transcript : String)
  | indCleanupErr (msg : String)
  | indCleanupTwice (msg : String)
  | indGenerate (transcript : String)
  | chDownload
  | chTranscribe
  | chCleanupOk (transcript : String)
  | chCleanupErr (msg : String)
  | chCleanupTwice (msg : String)
  | parentGenerate (combined : String)
  deriving DecidableEq, Repr

/-- A suspended async run, driving the job `jobId`. -/
structure Task where
  jobId : Nat
  phase : TaskPhase
  deriving DecidableEq, Repr

/-- The `JobStore` state. -/
structure StoreState where
  jobs : List Job
  queue : List Nat
  activeCount : Nat
  tasks : List Task
  nextId : Nat
  deriving DecidableEq, Repr

def initState : StoreState := ⟨[], [], 0, [], 0⟩

/-- `this.jobs.get(id)`. -/
def lookupJob (jobs : List Job) (i : Nat) : Option Job :=
  jobs.find? fun j => j.id == i

/-- Mutate the job record with id `i` in place. -/
def updateJob (jobs : List Job) (i : Nat) (f : Job → Job) : List Job :=
  jobs.map fun j => if j.id == i then f j else j

def setJob (s : StoreState) (i : Nat) (f : Job → Job) : StoreState :=
  { s with jobs := updateJob s.jobs i f }

/-- `ids.map(id => this.jobs.get(id)!)`: every id must resolve (the
source's non-null assertion; `none` on the unreachable missing case). -/
def lookupAll (jobs : List Job) : List Nat → Option (List Job)
  | [] => some []
  | i :: is =>
    match lookupJob jobs i, lookupAll jobs is with
    | some j, some js => some (j :: js)
    | _, _ => none

/-- One `onStatus` callback of `runJob` / `runMergeChild`: sets the
mapped status, the message, and the weighted progress. -/
def updStatus (st : JobStatus) (prog : Nat) (msg : String) (j : Job) : Job :=
  { j with status := st, progress := prog, message := msg }

/-! The callback batches an atomic block applies (progress values are
`stageProgress base weight p` with the weights of `runJob`:
download `[0,30]`, transcribe `[30,70]`, generate `[70,100]`; and of
`runMergeChild`: download `[0,50]`, transcribe `[50,100]`). -/

def indDispatch : Job → Job :=
  updStatus .downloading (stageProgress 0 30 0) "Starte Video-Download von Loom..."

def indDownloadDone : Job → Job :=
  updStatus .transcribing (stageProgress 30 40 30) "Video wird von Gemini verarbeitet..." ∘
    updStatus .transcribing (stageProgress 30 40 0) "Lade Video zu Gemini hoch..." ∘
      updStatus .downloading (stageProgress 0 30 100) "Video erfolgreich heruntergeladen"

def indTranscribeDone : Job → Job :=
  updStatus .transcribing (stageProgress 30 40 100) "Transkription abgeschlossen"

def indGenerateStart : Job → Job :=
  updStatus .generating (stageProgress 70 30 30) "Gamma generiert Präsentation..." ∘
    updStatus .generating (stageProgress 70 30 0) "Erstelle Präsentation mit Gamma..."

/-- The final `generate` callback followed by `runJob`'s success block. -/
def indComplete (t url : String) (j : Job) : Job :=
  let j1 := updStatus .generating (stageProgress 70 30 100)
    "Präsentation erfolgreich erstellt!" j
  { j1 with
    status := .completed
    progress := 100
    message := "Präsentation erstellt!"
    result := some ⟨t, url⟩ }

/-- `runJob`'s failure block. -/
def failIndividual (e : String) (j : Job) : Job :=
  { j with
    status := .failed
    error := some (jsOr e "Unbekannter Fehler")
    message := jsOr e "Verarbeitung fehlgeschlagen" }

def chDispatch : Job → Job :=
  updStatus .downloading (stageProgress 0 50 0) "Starte Video-Download von Loom..."

def chDownloadDone : Job → Job :=
  updStatus .transcribing (stageProgress 50 50 30) "Video wird von Gemini verarbeitet..." ∘
    updStatus .transcribing (stageProgress 50 50 0) "Lade Video zu Gemini hoch..." ∘
      updStatus .downloading (stageProgress 0 50 100) "Video erfolgreich heruntergeladen"

def chTranscribeDone : Job → Job :=
  updStatus .transcribing (stageProgress 50 50 100) "Transkription abgeschlossen"

/-- `runMergeChild`'s success block: transcript kept, empty artifact URL. -/
def chComplete (t : String) (j : Job) : Job :=
  { j with
    status := .completed
    progress := 100
    message := "Transkription abgeschlossen"
    result := some ⟨t, ""⟩ }

/-- `runMergeChild`'s failure block. -/
def failChild (e : String) (j : Job) : Job :=
  { j with
    status := .failed
    error := some (jsOr e "Unbekannter Fehler")
    message := jsOr e "Transkription fehlgeschlagen" }

/-- `checkMergeCompletion`'s success continuation after
`createPresentation` resolves. -/
def parentComplete (combined url : String) (p : Job) : Job :=
  { p with
    status := .completed
    progress := 100
    message := "Präsentation erstellt!"
    result := some ⟨combined, url⟩ }

/-- `checkMergeCompletion`'s catch block. -/
def parentFail (e : String) (p : Job) : Job :=
  { p with status := .failed, error := some e, message := e }

/-- The failed-child error line. -/
def childFailMsg (c : Job) : String :=
  "Video fehlgeschlagen: " ++ (c.error.getD "undefined")

/-- The synchronous prefix of `checkMergeCompletion` (job-store.ts
203–231), up to its only `await` (`createPresentation`); reaching that
`await` suspends a `parentGenerate` task holding the combined document. -/
def checkMergeCompletion (s : StoreState) (parentId : Nat) : StoreState :=
  match lookupJob s.jobs parentId with
  | none => s
  | some parent =>
    match parent.childJobIds with
    | none => s
    | some ids =>
      match lookupAll s.jobs ids with
      | none => s
      | some children =>
        match children.find? (fun c => c.status == .failed) with
        | some failedChild =>
          setJob s parentId fun p =>
            { p with
              status := .failed
              error := some (childFailMsg failedChild)
              message := childFailMsg failedChild }
        | none =>
          if !(children.all fun c => c.status == .completed) then
            let completedCount :=
              (children.filter fun c => c.status == .completed).length
            setJob s parentId fun p =>
              { p with
                progress := roundDiv (completedCount * 70) children.length
                message := "Transkription " ++ toString completedCount ++ "/"
                  ++ toString children.length ++ " fertig..." }
          else
            let combined := combinedTranscript children
            let s1 := setJob s parentId fun p =>
              { p with
                status := .generating
                progress := 75
                message := "Erstelle Präsentation aus allen Transkripten..." }
            { s1 with tasks := s1.tasks ++ [⟨parentId, .parentGenerate combined⟩] }

/-- Starting the async runner for a popped job: `activeCount++`, then the
runner's synchronous prefix (the first `download` callback) up to its
first `await`. -/
def dispatchJob (s : StoreState) (j : Job) : StoreState :=
  let s1 := setJob s j.id (if j.mode = .mergeChild then chDispatch else indDispatch)
  { s1 with
    activeCount := s1.activeCount + 1
    tasks := s1.tasks ++
      [⟨j.id, if j.mode = .mergeChild then .chDownload else .indDownload⟩] }

/-- The `while (activeCount < MAX_CONCURRENT && queue.length > 0)` loop
of `processQueue`, structurally recursive on the queue being consumed
(`q` is always the state's queue). -/
def processQueueGo : List Nat → StoreState → StoreState
  | [], s => s
  | i :: rest, s =>
    if s.activeCount < MAX_CONCURRENT then
      let s1 := { s with queue := rest }
      match lookupJob s1.jobs i with
      | none => processQueueGo rest s1
      | some job =>
        if job.mode = .mergeParent then processQueueGo rest s1
        else processQueueGo rest (dispatchJob s1 job)
    else s

/-- `processQueue` (job-store.ts 95–110). -/
def processQueue (s : StoreState) : StoreState := processQueueGo s.queue s

/-- A fresh `individual` job record as `submit` creates it. -/
def mkIndividualJob (id : Nat) (url : String) (keys : ApiKeys) : Job where
  id := id
  url := url
  keys := keys
  mode := .individual
  status := .queued
  progress := 0
  message := "In Warteschlange..."
  createdAt := id

/-- `submit` (job-store.ts 13–35). -/
def submit (s : StoreState) (urls : List String) (keys : ApiKeys) : StoreState :=
  processQueue (urls.foldl (fun st url =>
    { st with
      jobs := st.jobs ++ [mkIndividualJob st.nextId url keys]
      queue := st.queue ++ [st.nextId]
      nextId := st.nextId + 1 }) s)

/-- A fresh `merge-child` job record as `submitMerge` creates it. -/
def mkChildJob (id : Nat) (url : String) (keys : ApiKeys) (parentId : Nat) : Job where
  id := id
  url := url
  keys := keys
  mode := .mergeChild
  parentJobId := some parentId
  status := .queued
  progress := 0
  message := "In Warteschlange..."
  createdAt := id

/-- The `for (const url of urls)` child-creation loop of `submitMerge`:
one `merge-child` record per locator, ids assigned in order. -/
def mkChildren (keys : ApiKeys) (parentId : Nat) : Nat → List String → List Job
  | _, [] => []
  | id, url :: rest => mkChildJob id url keys parentId :: mkChildren keys parentId (id + 1) rest

/-- The `merge-parent` record `submitMerge` creates (holding
`childJobIds`, never enqueued). -/
def mkMergeParent (id : Nat) (urlCount : Nat) (keys : ApiKeys)
    (childIds : List Nat) : Job where
  id := id
  url := toString urlCount ++ " Videos zusammenführen"
  keys := keys
  mode := .mergeParent
  childJobIds := some childIds
  status := .queued
  progress := 0
  message := "Warte auf Transkriptionen..."
  createdAt := id

/-- `submitMerge` (job-store.ts 37–80): one child per locator, all
enqueued, plus the parent (holding `childJobIds`), not enqueued. -/
def submitMerge (s : StoreState) (urls : List String) (keys : ApiKeys) : StoreState :=
  let base := s.nextId
  let children := mkChildren keys (base + urls.length) base urls
  let parent : Job :=
    mkMergeParent (base + urls.length) urls.length keys (children.map Job.id)
  processQueue { s with
    jobs := s.jobs ++ children ++ [parent]
    queue := s.queue ++ children.map Job.id
    nextId := base + urls.length + 1 }

/-- Remote outcomes per job id (for a merge parent, only `generate` —
its `createPresentation` call — is consulted). -/
def Oracle : Type := Nat → StageEnv

/-- The transcript the transform stage of job `i` would produce. -/
def oracleTranscript (o : Oracle) (i : Nat) : String :=
  match (o i).transcribe with
  | .ok t => t
  | .error _ => ""

def continueTask (s : StoreState) (i : Nat) (ph : TaskPhase) : StoreState :=
  { s with tasks := s.tasks ++ [⟨i, ph⟩] }

/-- `runJob`'s `finally`: `activeCount--; this.processQueue()`, after the
terminal mutation `f` of the job. -/
def finishIndividual (s : StoreState) (i : Nat) (f : Job → Job) : StoreState :=
  let s1 := setJob s i f
  processQueue { s1 with activeCount := s1.activeCount - 1 }

/-- `runMergeChild`'s `finally`: `activeCount--;
this.checkMergeCompletion(job.parentJobId!); this.processQueue()` —
the merge check's synchronous prefix runs before the dispatch loop. -/
def finishMergeChild (s : StoreState) (i : Nat) (f : Job → Job) : StoreState :=
  let s1 := setJob s i f
  let s2 := { s1 with activeCount := s1.activeCount - 1 }
  let s3 := match (lookupJob s2.jobs i).bind Job.parentJobId with
    | some p => checkMergeCompletion s2 p
    | none => s2
  processQueue s3

/-- Resuming one suspended task (already removed from the task list):
the atomic block the event loop runs when the awaited promise of `t`
settles, with the outcome the oracle assigns. -/
def stepTask (o : Oracle) (s : StoreState) (t : Task) : StoreState :=
  let i := t.jobId
  match t.phase with
  | .indDownload =>
    match (o i).download with
    | .ok _ => continueTask (setJob s i indDownloadDone) i .indTranscribe
    | .error e => finishIndividual s i (failIndividual e)
  | .indTranscribe =>
    match (o i).transcribe with
    | .ok tr => continueTask (setJob s i indTranscribeDone) i (.indCleanupOk tr)
    | .error e => continueTask s i (.indCleanupErr e)
  | .indCleanupOk tr =>
    match (o i).cleanup with
    | .ok _ => continueTask (setJob s i indGenerateStart) i (.indGenerate tr)
    | .error ce => continueTask s i (.indCleanupTwice ce)
  | .indCleanupErr e => finishIndividual s i (failIndividual e)
  | .indCleanupTwice e => finishIndividual s i (failIndividual e)
  | .indGenerate tr =>
    match (o i).generate with
    | .ok url => finishIndividual s i (indComplete tr url)
    | .error e => continueTask s i (.indCleanupErr e)
  | .chDownload =>
    match (o i).download with
    | .ok _ => continueTask (setJob s i chDownloadDone) i .chTranscribe
    | .error e => finishMergeChild s i (failChild e)
  | .chTranscribe =>
    match (o i).transcribe with
    | .ok tr => continueTask (setJob s i chTranscribeDone) i (.chCleanupOk tr)
    | .error e => continueTask s i (.chCleanupErr e)
  | .chCleanupOk tr =>
    match (o i).cleanup with
    | .ok _ => finishMergeChild s i (chComplete tr)
    | .error ce => continueTask s i (.chCleanupTwice ce)
  | .chCleanupErr e => finishMergeChild s i (failChild e)
  | .chCleanupTwice e => finishMergeChild s i (failChild e)
  | .parentGenerate combined =>
    match (o i).generate with
    | .ok url => setJob s i (parentComplete combined url)
    | .error e => setJob s i (parentFail e)

/-- Resume the suspended task of job `i` (no-op when none exists). -/
def resumeTask (o : Oracle) (s : StoreState) (i : Nat) : StoreState :=
  match s.tasks.find? (fun t => t.jobId == i) with
  | none => s
  | some t => stepTask o { s with tasks := s.tasks.filter fun u => !(u.jobId == i) } t

/-- One event of an execution: an HTTP submission entering the store, or
one suspended task's awaited promise settling. -/
inductive Act where
  | submit (urls : List String) (keys : ApiKeys)
  | submitMerge (urls : List String) (keys : ApiKeys)
  | resume (i : Nat)
  deriving DecidableEq, Repr

def applyAct (o : Oracle) (s : StoreState) : Act → StoreState
  | .submit urls keys => submit s urls keys
  | .submitMerge urls keys => submitMerge s urls keys
  | .resume i => resumeTask o s i

/-- The state after an execution: an arbitrary interleaving of
submissions and promise resolutions, from the empty store. -/
def runStore (o : Oracle) (acts : List Act) : StoreState :=
  acts.foldl (applyAct o) initState

/-! ## State-machine invariants

`Inv` collects the facts that hold of every reachable store state; the
claim theorems about executions are read off it. -/

/-- A task suspended inside `checkMergeCompletion` (driving a parent)
rather than inside a `runJob` / `runMergeChild` worker. -/
def isParentPhase : TaskPhase → Bool
  | .parentGenerate _ => true
  | _ => false

/-- The tasks occupying a concurrency slot (each started by
`processQueue` with `activeCount++`, released in a `finally`). -/
def workerCount (tasks : List Task) : Nat :=
  (tasks.filter fun t => !(isParentPhase t.phase)).length

def removeTasks (tasks : List Task) (i : Nat) : List Task :=
  tasks.filter fun u => !(u.jobId == i)

/-- The number of completed children among `ids`. -/
def completedCount (jobs : List Job) (ids : List Nat) : Nat :=
  ((ids.filterMap (lookupJob jobs)).filter fun c => c.status == .completed).length

/-- What a task's suspension point says about the job record it drives:
its mode, the scheduler-visible status/progress the preceding atomic
block left, and the payload carried by the local variables. -/
def phaseOk (o : Oracle) (jobs : List Job) (j : Job) : TaskPhase → Prop
  | .indDownload => j.mode = .individual ∧ j.status = .downloading ∧ j.progress = 0
  | .indTranscribe => j.mode = .individual ∧ j.status = .transcribing ∧ j.progress = 42
  | .indCleanupOk tr => j.mode = .individual ∧ j.status = .transcribing
      ∧ j.progress = 70 ∧ tr = oracleTranscript o j.id
  | .indCleanupErr _ => j.mode = .individual ∧ j.status.isActive = true
  | .indCleanupTwice _ => j.mode = .individual ∧ j.status.isActive = true
  | .indGenerate tr => j.mode = .individual ∧ j.status = .generating
      ∧ j.progress = 79 ∧ tr = oracleTranscript o j.id
  | .chDownload => j.mode = .mergeChild ∧ j.status = .downloading ∧ j.progress = 0
  | .chTranscribe => j.mode = .mergeChild ∧ j.status = .transcribing ∧ j.progress = 65
  | .chCleanupOk tr => j.mode = .mergeChild ∧ j.status = .transcribing
      ∧ j.progress = 100 ∧ tr = oracleTranscript o j.id
  | .chCleanupErr _ => j.mode = .mergeChild ∧ j.status.isActive = true
  | .chCleanupTwice _ => j.mode = .mergeChild ∧ j.status.isActive = true
  | .parentGenerate combined => j.mode = .mergeParent ∧ j.status = .generating
      ∧ j.progress = 75
      ∧ ∃ ids children, j.childJobIds = some ids
        ∧ lookupAll jobs ids = some children
        ∧ (∀ c ∈ children, c.status = .completed
            ∧ c.result = some ⟨oracleTranscript o c.id, ""⟩)
        ∧ combined = combinedTranscript children

/-- The invariant bundle (except the failed-child/parent coupling, which
is broken transiently inside a child's completion block and restored by
the merge check running in the same block). -/
structure Inv0 (o : Oracle) (s : StoreState) : Prop where
  activeEq : s.activeCount = workerCount s.tasks
  taskNodup : (s.tasks.map Task.jobId).Nodup
  jobNodup : (s.jobs.map Job.id).Nodup
  idsLt : ∀ x ∈ s.jobs.map Job.id, x < s.nextId
  queueNodup : s.queue.Nodup
  queueOk : ∀ i ∈ s.queue, ∃ j, lookupJob s.jobs i = some j
    ∧ j.status = .queued ∧ j.progress = 0 ∧ j.mode ≠ .mergeParent
  taskOk : ∀ t ∈ s.tasks, ∃ j, lookupJob s.jobs t.jobId = some j
    ∧ phaseOk o s.jobs j t.phase
  flightTask : ∀ i j, lookupJob s.jobs i = some j → j.status.isActive = true →
    j.mode ≠ .mergeParent → ∃ t ∈ s.tasks, t.jobId = i ∧ isParentPhase t.phase = false
  childOk : ∀ i j, lookupJob s.jobs i = some j → j.mode = .mergeChild →
    ∃ p parent ids, j.parentJobId = some p ∧ lookupJob s.jobs p = some parent
      ∧ parent.mode = .mergeParent ∧ parent.childJobIds = some ids ∧ i ∈ ids
  parentOk : ∀ p parent, lookupJob s.jobs p = some parent →
    parent.mode = .mergeParent → ∃ ids, parent.childJobIds = some ids
      ∧ ids.Nodup ∧ ∀ i ∈ ids, ∃ c, lookupJob s.jobs i = some c
        ∧ c.mode = .mergeChild ∧ c.parentJobId = some p
  parentStatus : ∀ p parent, lookupJob s.jobs p = some parent →
    parent.mode = .mergeParent → parent.status = .queued
      ∨ parent.status = .generating ∨ parent.status = .completed
      ∨ parent.status = .failed
  parentAdvanced : ∀ p parent, lookupJob s.jobs p = some parent →
    parent.mode = .mergeParent →
    (parent.status = .generating ∨ parent.status = .completed) →
    ∀ ids, parent.childJobIds = some ids →
    ∀ i ∈ ids, ∃ c, lookupJob s.jobs i = some c ∧ c.status = .completed
  parentFailedReason : ∀ p parent, lookupJob s.jobs p = some parent →
    parent.mode = .mergeParent → parent.status = .failed →
    ∀ ids, parent.childJobIds = some ids →
    (∃ i ∈ ids, ∃ c, lookupJob s.jobs i = some c ∧ c.status = .failed)
    ∨ (∀ i ∈ ids, ∃ c, lookupJob s.jobs i = some c ∧ c.status = .completed)
  parentProgressBound : ∀ p parent, lookupJob s.jobs p = some parent →
    parent.mode = .mergeParent → parent.status = .queued →
    ∀ ids, parent.childJobIds = some ids →
    parent.progress ≤ roundDiv (completedCount s.jobs ids * 70) ids.length
  childCompleted : ∀ i j, lookupJob s.jobs i = some j → j.mode = .mergeChild →
    j.status = .completed → j.result = some ⟨oracleTranscript o i, ""⟩
      ∧ j.progress = 100
  completedP : ∀ i j, lookupJob s.jobs i = some j → j.status = .completed →
    j.progress = 100
  activeLe : s.activeCount ≤ MAX_CONCURRENT

/-- The parent at `p` has already failed, naming a failed child's error. -/
def CFPAt (s : StoreState) (p : Nat) : Prop :=
  ∃ parent, lookupJob s.jobs p = some parent ∧ parent.status = .failed
    ∧ ∃ ids, parent.childJobIds = some ids
      ∧ ∃ i' ∈ ids, ∃ c, lookupJob s.jobs i' = some c ∧ c.status = .failed
        ∧ parent.error = some (childFailMsg c)

/-- Fail-fast coupling: a failed merge child's parent is already failed,
with its error naming a failed child's error. -/
def ChildFailCoupling (s : StoreState) : Prop :=
  ∀ i j, lookupJob s.jobs i = some j → j.mode = .mergeChild →
    j.status = .failed → ∀ p, j.parentJobId = some p → CFPAt s p

/-- The reachable-state invariant. -/
def Inv (o : Oracle) (s : StoreState) : Prop :=
  Inv0 o s ∧ ChildFailCoupling s

/-- Per-step frame facts about one job record: identity fields are
immutable, progress never decreases, `completed` freezes the whole
record, `failed` is terminal. -/
def FrameJob (j j' : Job) : Prop :=
  j'.id = j.id ∧ j'.url = j.url ∧ j'.keys = j.keys ∧ j'.mode = j.mode
  ∧ j'.parentJobId = j.parentJobId ∧ j'.childJobIds = j.childJobIds
  ∧ j'.createdAt = j.createdAt ∧ j.progress ≤ j'.progress
  ∧ (j.status = .completed → j' = j) ∧ (j.status = .failed → j'.status = .failed)

/-- Frame facts between two states: every job persists and satisfies
`FrameJob`. -/
def StepFrame (s s' : StoreState) : Prop :=
  ∀ i j, lookupJob s.jobs i = some j →
    ∃ j', lookupJob s'.jobs i = some j' ∧ FrameJob j j'

/-- A job-record mutator that touches none of the identity fields (all
mutators of the store are of this kind). -/
def StructPres (f : Job → Job) : Prop :=
  ∀ j, (f j).id = j.id ∧ (f j).url = j.url ∧ (f j).keys = j.keys
    ∧ (f j).mode = j.mode ∧ (f j).parentJobId = j.parentJobId
    ∧ (f j).childJobIds = j.childJobIds ∧ (f j).createdAt = j.createdAt

/-- The number of jobs whose status is in-flight
(`downloading | transcribing | generating`), across all modes. -/
def inFlightCount (jobs : List Job) : Nat :=
  (jobs.filter fun j => j.status.isActive).length

/-- The number of in-flight jobs excluding merge parents (the jobs a
`runJob` / `runMergeChild` runner is driving). -/
def workersInFlight (jobs : List Job) : Nat :=
  (jobs.filter fun j => j.status.isActive && !(j.mode == JobMode.mergeParent)).length

/-! ## Lemmas about the sort used by `getAllJobs` -/

lemma insertByCreatedAt_pos {x z : Job} {zs : List Job}
    (h : z.createdAt ≤ x.createdAt) :
    insertByCreatedAt x (z :: zs) = x :: z :: zs := by
  simp [insertByCreatedAt, h]

lemma insertByCreatedAt_neg {x z : Job} {zs : List Job}
    (h : ¬ z.createdAt ≤ x.createdAt) :
    insertByCreatedAt x (z :: zs) = z :: insertByCreatedAt x zs := by
  simp [insertByCreatedAt, h]

lemma mem_insertByCreatedAt {x y : Job} {l : List Job} :
    y ∈ insertByCreatedAt x l ↔ y = x ∨ y ∈ l := by
  induction l with
  | nil => simp [insertByCreatedAt]
  | cons z zs ih =>
    by_cases h : z.createdAt ≤ x.createdAt
    · rw [insertByCreatedAt_pos h]
      simp
    · rw [insertByCreatedAt_neg h]
      simp [ih]
      tauto

lemma perm_insertByCreatedAt (x : Job) (l : List Job) :
    List.Perm (insertByCreatedAt x l) (x :: l) := by
  induction l with
  | nil => exact List.Perm.refl _
  | cons z zs ih =>
    by_cases h : z.createdAt ≤ x.createdAt
    · rw [insertByCreatedAt_pos h]
    · rw [insertByCreatedAt_neg h]
      exact (ih.cons z).trans (List.Perm.swap x z zs)

lemma perm_sortByCreatedAtDesc (l : List Job) :
    List.Perm (sortByCreatedAtDesc l) l := by
  induction l with
  | nil => rfl
  | cons x xs ih =>
    exact (perm_insertByCreatedAt x (sortByCreatedAtDesc xs)).trans (ih.cons x)

lemma pairwise_insertByCreatedAt {x : Job} {l : List Job}
    (h : l.Pairwise fun a b => b.createdAt ≤ a.createdAt) :
    (insertByCreatedAt x l).Pairwise fun a b => b.createdAt ≤ a.createdAt := by
  induction l with
  | nil => simp [insertByCreatedAt]
  | cons z zs ih =>
    rcases List.pairwise_cons.mp h with ⟨hz, hzs⟩
    by_cases hc : z.createdAt ≤ x.createdAt
    · rw [insertByCreatedAt_pos hc]
      refine List.pairwise_cons.mpr ⟨?_, h⟩
      intro b hb
      rcases List.mem_cons.mp hb with rfl | hb
      · exact hc
      · exact le_trans (hz b hb) hc
    · rw [insertByCreatedAt_neg hc]
      refine List.pairwise_cons.mpr ⟨?_, ih hzs⟩
      intro b hb
      rcases mem_insertByCreatedAt.mp hb with rfl | hb
      · exact le_of_not_le hc
      · exact hz b hb

lemma pairwise_sortByCreatedAtDesc (l : List Job) :
    (sortByCreatedAtDesc l).Pairwise fun a b => b.createdAt ≤ a.createdAt := by
  induction l with
  | nil => simp [sortByCreatedAtDesc]
  | cons x xs ih => exact pairwise_insertByCreatedAt ih

lemma insertByCreatedAt_map (f : Job → Job)
    (hf : ∀ j, (f j).createdAt = j.createdAt) (x : Job) (l : List Job) :
    insertByCreatedAt (f x) (l.map f) = (insertByCreatedAt x l).map f := by
  induction l with
  | nil => simp [insertByCreatedAt]
  | cons z zs ih =>
    by_cases h : z.createdAt ≤ x.createdAt
    · rw [insertByCreatedAt_pos h, List.map_cons,
        insertByCreatedAt_pos (by rw [hf, hf]; exact h)]
      simp
    · rw [insertByCreatedAt_neg h, List.map_cons, List.map_cons,
        insertByCreatedAt_neg (by rw [hf, hf]; exact h), ih]

lemma sortByCreatedAtDesc_cons (x : Job) (xs : List Job) :
    sortByCreatedAtDesc (x :: xs) = insertByCreatedAt x (sortByCreatedAtDesc xs) :=
  rfl

lemma sortByCreatedAtDesc_map (f : Job → Job)
    (hf : ∀ j, (f j).createdAt = j.createdAt) (l : List Job) :
    sortByCreatedAtDesc (l.map f) = (sortByCreatedAtDesc l).map f := by
  induction l with
  | nil => rfl
  | cons x xs ih =>
    rw [List.map_cons, sortByCreatedAtDesc_cons, sortByCreatedAtDesc_cons, ih,
      insertByCreatedAt_map f hf]

/-- Rewriting each job with a summary-invariant, `createdAt`-preserving
function does not change `getAllJobs` output. -/
lemma getAllJobs_map_invariant (f : Job → Job)
    (hf : ∀ j, (f j).createdAt = j.createdAt)
    (hs : ∀ j, toSummary (f j) = toSummary j) (l : List Job) :
    getAllJobs (l.map f) = getAllJobs l := by
  unfold getAllJobs
  rw [sortByCreatedAtDesc_map f hf, List.map_map]
  exact List.map_congr_left fun j _ => hs j

/-! ## Arithmetic facts about `Math.round` progress values -/

lemma roundDiv_le_roundDiv {a b den : Nat} (h : a ≤ b) :
    roundDiv a den ≤ roundDiv b den := by
  unfold roundDiv
  exact Nat.div_le_div_right (by omega)

lemma roundDiv_70_le {k n : Nat} (h : k ≤ n) (hn : 0 < n) :
    roundDiv (k * 70) n ≤ 70 := by
  unfold roundDiv
  have h2 : 0 < 2 * n := by omega
  have hlt : 2 * (k * 70) + n < 71 * (2 * n) := by nlinarith
  have := (Nat.div_lt_iff_lt_mul h2).mpr hlt
  omega

/-! ## Lemmas about the polling loops -/

/-- A status-check outcome on which the Gamma loop keeps polling: a
response that is neither a completed-with-URL success nor a reported
failure. -/
def pendingCheckB : Except GammaHttpErr GammaData → Bool
  | .ok d => !(d.status == some "completed" && truthy (gammaUrlOf d))
      && !(d.status == some "failed")
  | .error _ => false

lemma pollGo_step_pending {check : Nat → Except GammaHttpErr GammaData}
    {genId : String} {fuel attempts delays : Nat}
    (hp : pendingCheckB (check attempts) = true) :
    pollGo check genId (fuel + 1) attempts delays
      = pollGo check genId fuel (attempts + 1) (delays + 1) := by
  rcases h : check attempts with e | d
  · rw [h] at hp
    simp [pendingCheckB] at hp
  · rw [h] at hp
    simp only [pendingCheckB, Bool.and_eq_true, Bool.not_eq_true',
      Bool.and_eq_false_iff] at hp
    obtain ⟨h1, h2⟩ := hp
    have hnc : ¬(d.status = some "completed" ∧ truthy (gammaUrlOf d) = true) := by
      rintro ⟨hc, ht⟩
      rcases h1 with h1 | h1
      · simp [hc] at h1
      · rw [ht] at h1
        exact Bool.false_ne_true h1.symm
    have hff : ¬ d.status = some "failed" := by
      intro hf
      simp [hf] at h2
    simp only [pollGo, h, if_neg hnc, if_neg hff]

lemma pollGo_advance (check : Nat → Except GammaHttpErr GammaData)
    (genId : String) :
    ∀ (k attempts delays fuel : Nat), k ≤ fuel →
      (∀ j < k, pendingCheckB (check (attempts + j)) = true) →
      pollGo check genId fuel attempts delays
        = pollGo check genId (fuel - k) (attempts + k) (delays + k) := by
  intro k
  induction k with
  | zero => simp
  | succ k ih =>
    intro attempts delays fuel hk hp
    obtain ⟨fuel', rfl⟩ : ∃ f, fuel = f + 1 := ⟨fuel - 1, by omega⟩
    rw [pollGo_step_pending (by simpa using hp 0 (by omega))]
    rw [ih (attempts + 1) (delays + 1) fuel' (by omega)
      (fun j hj => by
        have := hp (j + 1) (by omega)
        simpa [Nat.add_assoc, Nat.add_comm 1 j] using this)]
    have e1 : attempts + 1 + k = attempts + (k + 1) := by omega
    have e2 : delays + 1 + k = delays + (k + 1) := by omega
    have e3 : fuel' - k = fuel' + 1 - (k + 1) := by omega
    rw [e1, e2, e3]

/-- Observing a reported failure at attempt `k` (after `k` pending
checks) fails the wait immediately with the `GENERATION_FAILED`
classification and exactly `k` interval sleeps. -/
lemma pollForCompletion_failed {check : Nat → Except GammaHttpErr GammaData}
    {genId : String} {k : Nat} {d : GammaData}
    (hk : k < MAX_POLLING_ATTEMPTS)
    (hp : ∀ j < k, pendingCheckB (check j) = true)
    (hd : check k = .ok d) (hf : d.status = some "failed") :
    pollForCompletion genId check
      = (.error ⟨"generate", "GENERATION_FAILED",
          jsOrOpt d.error "Gamma Präsentationserstellung fehlgeschlagen",
          true⟩, k) := by
  unfold pollForCompletion
  rw [pollGo_advance check genId k 0 0 MAX_POLLING_ATTEMPTS (by omega)
    (fun j hj => by simpa using hp j hj)]
  obtain ⟨m, hm⟩ : ∃ m, MAX_POLLING_ATTEMPTS - k = m + 1 :=
    ⟨MAX_POLLING_ATTEMPTS - k - 1, by unfold MAX_POLLING_ATTEMPTS at *; omega⟩
  rw [hm]
  have hnc : ¬(d.status = some "completed" ∧ truthy (gammaUrlOf d) = true) := by
    rintro ⟨hc, _⟩
    rw [hf] at hc
    simp at hc
  simp only [pollGo, Nat.zero_add, hd, if_neg hnc, if_pos hf]

/-- Exhausting all attempts while every check stays pending fails the
wait with the distinct `GENERATION_TIMEOUT` classification, after
`MAX_POLLING_ATTEMPTS` sleeps. -/
lemma pollForCompletion_timeout {check : Nat → Except GammaHttpErr GammaData}
    {genId : String}
    (hp : ∀ j < MAX_POLLING_ATTEMPTS, pendingCheckB (check j) = true) :
    pollForCompletion genId check = (.error gammaTimeoutErr, MAX_POLLING_ATTEMPTS) := by
  unfold pollForCompletion
  rw [pollGo_advance check genId MAX_POLLING_ATTEMPTS 0 0 MAX_POLLING_ATTEMPTS
    (le_refl _) (fun j hj => by simpa using hp j hj)]
  simp [pollGo]

lemma fileGo_advance (g : Nat → GFileState) :
    ∀ (k a d fuel : Nat), k ≤ fuel →
      (∀ j < k, g (a + j) = .processing) →
      fileGo g fuel a d (g a) = fileGo g (fuel - k) (a + k) (d + k) (g (a + k)) := by
  intro k
  induction k with
  | zero => simp
  | succ k ih =>
    intro a d fuel hk hp
    obtain ⟨fuel', rfl⟩ : ∃ f, fuel = f + 1 := ⟨fuel - 1, by omega⟩
    have hp0 : g a = .processing := by simpa using hp 0 (by omega)
    rw [show fileGo g (fuel' + 1) a d (g a)
        = fileGo g fuel' (a + 1) (d + 1) (g (a + 1)) by
      simp [fileGo, hp0]]
    rw [ih (a + 1) (d + 1) fuel' (by omega)
      (fun j hj => by
        have := hp (j + 1) (by omega)
        simpa [Nat.add_assoc, Nat.add_comm 1 j] using this)]
    have e1 : a + 1 + k = a + (k + 1) := by omega
    have e2 : d + 1 + k = d + (k + 1) := by omega
    have e3 : fuel' - k = fuel' + 1 - (k + 1) := by omega
    rw [e1, e2, e3]

/-- A `FAILED` file state observed at fetch `k` classifies
`PROCESSING_FAILED` after exactly `k` sleeps. -/
lemma fileProcessingWait_failed {g : Nat → GFileState} {k : Nat}
    (hk : k ≤ MAX_POLLING_ATTEMPTS)
    (hp : ∀ j < k, g j = .processing) (hf : g k = .failed) :
    fileProcessingWait g
      = (.error ⟨"transcribe", "PROCESSING_FAILED",
          "Gemini konnte das Video nicht verarbeiten", true⟩, k) := by
  unfold fileProcessingWait
  rw [fileGo_advance g k 0 0 MAX_POLLING_ATTEMPTS hk
    (fun j hj => by simpa using hp j hj)]
  rcases Nat.lt_or_ge k MAX_POLLING_ATTEMPTS with hlt | hge
  · obtain ⟨m, hm⟩ : ∃ m, MAX_POLLING_ATTEMPTS - k = m + 1 :=
      ⟨MAX_POLLING_ATTEMPTS - k - 1, by omega⟩
    rw [hm]
    simp [fileGo, hf]
  · have hke : k = MAX_POLLING_ATTEMPTS := by omega
    subst hke
    simp [fileGo, hf]

/-- Exhausting all attempts while the file stays `PROCESSING` classifies
with the distinct `PROCESSING_TIMEOUT`, after `MAX_POLLING_ATTEMPTS`
sleeps. -/
lemma fileProcessingWait_timeout {g : Nat → GFileState}
    (hp : ∀ j ≤ MAX_POLLING_ATTEMPTS, g j = .processing) :
    fileProcessingWait g
      = (.error ⟨"transcribe", "PROCESSING_TIMEOUT",
          "Video-Verarbeitung hat das Zeitlimit überschritten", true⟩,
        MAX_POLLING_ATTEMPTS) := by
  unfold fileProcessingWait
  rw [fileGo_advance g MAX_POLLING_ATTEMPTS 0 0 MAX_POLLING_ATTEMPTS (le_refl _)
    (fun j hj => by simpa using hp j (by omega))]
  simp [fileGo, hp MAX_POLLING_ATTEMPTS (le_refl _)]

/-! ## Claim C8 -/

/-- C8: for every job table, `getAllJobs` returns exactly one summary per
known job (a permutation of the per-job summaries), ordered newest-first
by `createdAt`; no summary depends on any job's credentials (replacing
every job's `keys` arbitrarily leaves the output literally unchanged, so
credentials are stripped), and no summary depends on any job's raw
transcript (replacing every transcript arbitrarily leaves the output
unchanged — the summary `result` carries the `presentationUrl` artifact
reference alone, which is exposed once present). -/
theorem claim_C8_listJobs :
    ∀ (jobs : List Job) (rekey : Job → ApiKeys) (retext : Job → String),
      List.Perm (getAllJobs jobs) (jobs.map toSummary)
      ∧ (getAllJobs jobs).Pairwise (fun a b => b.createdAt ≤ a.createdAt)
      ∧ getAllJobs (jobs.map fun j => { j with keys := rekey j }) = getAllJobs jobs
      ∧ getAllJobs (jobs.map fun j =>
          { j with result := j.result.map fun r => { r with transcript := retext j } })
          = getAllJobs jobs := by
  intro jobs rekey retext
  refine ⟨(perm_sortByCreatedAtDesc jobs).map toSummary, ?_, ?_, ?_⟩
  · exact List.pairwise_map.mpr (pairwise_sortByCreatedAtDesc jobs)
  · exact getAllJobs_map_invariant (fun j => { j with keys := rekey j })
      (fun j => rfl) (fun j => rfl) jobs
  · refine getAllJobs_map_invariant (fun j =>
      { j with result := j.result.map fun r => { r with transcript := retext j } })
      (fun j => rfl) (fun j => ?_) jobs
    cases h : j.result <;> simp [toSummary, h]

/-! ## Claim C5 -/

/-- C5 counterexample: the claim says the cleanup action is invoked
exactly once on exit of the transform stage and that a cleanup error is
swallowed and never becomes the run's outcome. Both parts fail on
`processLoomVideo`: with a successful download/transcribe and a failing
synthesis stage, cleanup is invoked twice (not once); and with the
cleanup action itself failing after a successful transcription, the
cleanup error becomes the run's returned failure (and cleanup again runs
twice). `downloadAndTranscribe` shows the same unswallowed cleanup error. -/
theorem claim_C5_cex :
    (processLoomVideo ⟨.ok (), .ok "T", .ok (), .error "GammaBoom"⟩).2 = 2
    ∧ (processLoomVideo ⟨.ok (), .ok "T", .ok (), .error "GammaBoom"⟩).2 ≠ 1
    ∧ processLoomVideo ⟨.ok (), .ok "T", .error "CleanupBoom", .ok "u"⟩
      = ({ success := false, error := some "CleanupBoom" }, 2)
    ∧ downloadAndTranscribe ⟨.ok (), .ok "T", .error "CleanupBoom", .ok "u"⟩
      = ({ success := false, error := some "CleanupBoom" }, 2) := by
  refine ⟨rfl, by decide, rfl, rfl⟩

/-- C5 (amended): when the resolve stage succeeded, the cleanup action is
invoked exactly once if the transform stage fails (its error swallowed,
the transform error is the outcome) and exactly once on a fully
successful run; but it is invoked twice whenever a failure occurs after
the first cleanup call — a synthesis failure, or the first cleanup call
itself throwing — and in the latter case the cleanup error is not
swallowed: it becomes the run's outcome. When resolve fails, cleanup is
never invoked. The same holds for `downloadAndTranscribe` (which has no
synthesis stage). -/
theorem claim_C5_cleanup (env : StageEnv) :
    (∀ e, env.download = .error e →
      processLoomVideo env = ({ success := false, error := some e }, 0)
      ∧ downloadAndTranscribe env = ({ success := false, error := some e }, 0))
    ∧ (∀ u e, env.download = .ok u → env.transcribe = .error e →
      processLoomVideo env = ({ success := false, error := some e }, 1)
      ∧ downloadAndTranscribe env = ({ success := false, error := some e }, 1))
    ∧ (∀ u t ce, env.download = .ok u → env.transcribe = .ok t →
        env.cleanup = .error ce →
      processLoomVideo env = ({ success := false, error := some ce }, 2)
      ∧ downloadAndTranscribe env = ({ success := false, error := some ce }, 2))
    ∧ (∀ u t c e, env.download = .ok u → env.transcribe = .ok t →
        env.cleanup = .ok c → env.generate = .error e →
      processLoomVideo env = ({ success := false, error := some e }, 2))
    ∧ (∀ u t c g, env.download = .ok u → env.transcribe = .ok t →
        env.cleanup = .ok c → env.generate = .ok g →
      processLoomVideo env
        = ({ success := true, transcript := some t, presentationUrl := some g }, 1)
      ∧ downloadAndTranscribe env = ({ success := true, transcript := some t }, 1)) := by
  refine ⟨?_, ?_, ?_, ?_, ?_⟩
  · intro e h
    constructor <;> simp [processLoomVideo, downloadAndTranscribe, h]
  · intro u e hd ht
    constructor <;> simp [processLoomVideo, downloadAndTranscribe, hd, ht]
  · intro u t ce hd ht hc
    constructor <;> simp [processLoomVideo, downloadAndTranscribe, hd, ht, hc]
  · intro u t c e hd ht hc hg
    simp [processLoomVideo, hd, ht, hc, hg]
  · intro u t c g hd ht hc hg
    constructor <;> simp [processLoomVideo, downloadAndTranscribe, hd, ht, hc, hg]

/-- C5 witness: the amended theorem applied at a concrete environment
whose transform stage fails. -/
theorem claim_C5_cleanup_check :
    processLoomVideo ⟨.ok (), .error "TransformBoom", .ok (), .ok "u"⟩
      = ({ success := false, error := some "TransformBoom" }, 1) :=
  ((claim_C5_cleanup ⟨.ok (), .error "TransformBoom", .ok (), .ok "u"⟩).2.1
    () "TransformBoom" rfl rfl).1

/-! ## Claim C7 -/

/-- C7: both bounded waits poll a status check with a fixed maximum
attempt count, sleeping one fixed `POLLING_INTERVAL` between successive
checks (the sleep count is returned and equals the number of pending
observations). A remote-reported failure is propagated immediately as a
classified error with no further polling (after `k` pending checks and a
failure at check `k`, exactly `k` sleeps happened, and the outcome does
not депend on any check after index `k`), and exhaustion while still
pending yields a timeout classification distinct from the
remote-reported-failure classification — `GENERATION_TIMEOUT` vs
`GENERATION_FAILED` for the Gamma wait, `PROCESSING_TIMEOUT` vs
`PROCESSING_FAILED` for the Gemini file wait. -/
theorem claim_C7_polling (genId : String)
    (check check' : Nat → Except GammaHttpErr GammaData) (d : GammaData)
    (k : Nat) (g : Nat → GFileState) :
    (k < MAX_POLLING_ATTEMPTS → (∀ j < k, pendingCheckB (check j) = true) →
      check k = .ok d → d.status = some "failed" →
      pollForCompletion genId check
        = (.error ⟨"generate", "GENERATION_FAILED",
            jsOrOpt d.error "Gamma Präsentationserstellung fehlgeschlagen",
            true⟩, k)
      ∧ ((∀ j ≤ k, check' j = check j) →
        pollForCompletion genId check' = pollForCompletion genId check))
    ∧ ((∀ j < MAX_POLLING_ATTEMPTS, pendingCheckB (check j) = true) →
      pollForCompletion genId check = (.error gammaTimeoutErr, MAX_POLLING_ATTEMPTS))
    ∧ gammaTimeoutErr.code = "GENERATION_TIMEOUT"
    ∧ "GENERATION_TIMEOUT" ≠ "GENERATION_FAILED"
    ∧ (k ≤ MAX_POLLING_ATTEMPTS → (∀ j < k, g j = .processing) → g k = .failed →
      fileProcessingWait g
        = (.error ⟨"transcribe", "PROCESSING_FAILED",
            "Gemini konnte das Video nicht verarbeiten", true⟩, k))
    ∧ ((∀ j ≤ MAX_POLLING_ATTEMPTS, g j = .processing) →
      fileProcessingWait g
        = (.error ⟨"transcribe", "PROCESSING_TIMEOUT",
            "Video-Verarbeitung hat das Zeitlimit überschritten", true⟩,
          MAX_POLLING_ATTEMPTS))
    ∧ "PROCESSING_TIMEOUT" ≠ "PROCESSING_FAILED" := by
  refine ⟨?_, pollForCompletion_timeout, rfl, by decide, fileProcessingWait_failed,
    fileProcessingWait_timeout, by decide⟩
  intro hk hp hd hf
  refine ⟨pollForCompletion_failed hk hp hd hf, ?_⟩
  intro hagree
  rw [pollForCompletion_failed hk hp hd hf,
    @pollForCompletion_failed check' genId k d hk
      (fun j hj => by rw [hagree j (by omega)]; exact hp j hj)
      (by rw [hagree k (le_refl _)]; exact hd) hf]

/-- C7 witness: the polling theorem applied at concrete environments —
two pending checks then a failure for Gamma, and one processing fetch
then a failure for Gemini. -/
theorem claim_C7_polling_check :
    pollForCompletion "gen1"
        (fun j => if j < 2 then .ok { status := some "pending" }
          else .ok { status := some "failed", error := some "remote broke" })
      = (.error ⟨"generate", "GENERATION_FAILED", "remote broke", true⟩, 2)
    ∧ fileProcessingWait (fun j => if j = 0 then .processing else .failed)
      = (.error ⟨"transcribe", "PROCESSING_FAILED",
          "Gemini konnte das Video nicht verarbeiten", true⟩, 1) := by
  constructor
  · exact ((claim_C7_polling "gen1"
      (fun j => if j < 2 then .ok { status := some "pending" }
        else .ok { status := some "failed", error := some "remote broke" })
      (fun j => if j < 2 then .ok { status := some "pending" }
        else .ok { status := some "failed", error := some "remote broke" })
      { status := some "failed", error := some "remote broke" } 2
      (fun j => if j = 0 then .processing else .failed)).1
      (by decide) (by decide) (by decide) rfl).1
  · exact (claim_C7_polling "gen1"
      (fun _ => .ok {}) (fun _ => .ok {}) {} 1
      (fun j => if j = 0 then .processing else .failed)).2.2.2.2.1
      (by decide) (by decide) (by decide)

/-! ## Toolkit: the job table -/

lemma lookupJob_id {jobs : List Job} {i : Nat} {j : Job}
    (h : lookupJob jobs i = some j) : j.id = i ∧ j ∈ jobs := by
  refine ⟨?_, List.mem_of_find?_eq_some h⟩
  have := List.find?_some h
  simpa using this

lemma updateJob_cons_eq {f : Job → Job} {j0 : Job} {js : List Job} {i : Nat}
    (h : j0.id = i) :
    updateJob (j0 :: js) i f = f j0 :: updateJob js i f := by
  simp [updateJob, h]

lemma updateJob_cons_ne {f : Job → Job} {j0 : Job} {js : List Job} {i : Nat}
    (h : ¬ j0.id = i) :
    updateJob (j0 :: js) i f = j0 :: updateJob js i f := by
  simp [updateJob, h]

lemma lookupJob_updateJob_self {f : Job → Job} (hf : ∀ j, (f j).id = j.id)
    (jobs : List Job) (i : Nat) :
    lookupJob (updateJob jobs i f) i = (lookupJob jobs i).map f := by
  induction jobs with
  | nil => rfl
  | cons j0 js ih =>
    by_cases h0 : j0.id = i
    · rw [updateJob_cons_eq h0]
      simp only [lookupJob] at *
      rw [List.find?_cons_of_pos _ (by simp [hf, h0]),
        List.find?_cons_of_pos _ (by simp [h0])]
      rfl
    · rw [updateJob_cons_ne h0]
      simp only [lookupJob] at *
      rw [List.find?_cons_of_neg _ (by simpa using h0),
        List.find?_cons_of_neg _ (by simpa using h0)]
      exact ih

lemma lookupJob_updateJob_ne {f : Job → Job} (hf : ∀ j, (f j).id = j.id)
    (jobs : List Job) {i i' : Nat} (h : i' ≠ i) :
    lookupJob (updateJob jobs i f) i' = lookupJob jobs i' := by
  induction jobs with
  | nil => rfl
  | cons j0 js ih =>
    by_cases h0 : j0.id = i
    · rw [updateJob_cons_eq h0]
      simp only [lookupJob] at *
      rw [List.find?_cons_of_neg _ (by simp [hf, h0]; omega),
        List.find?_cons_of_neg _ (by simp [h0]; omega)]
      exact ih
    · rw [updateJob_cons_ne h0]
      by_cases h2 : j0.id = i'
      · simp only [lookupJob] at *
        rw [List.find?_cons_of_pos _ (by simp [h2]),
          List.find?_cons_of_pos _ (by simp [h2])]
      · simp only [lookupJob] at *
        rw [List.find?_cons_of_neg _ (by simpa using h2),
          List.find?_cons_of_neg _ (by simpa using h2)]
        exact ih

lemma updateJob_map_id {f : Job → Job} (hf : ∀ j, (f j).id = j.id)
    (jobs : List Job) (i : Nat) :
    (updateJob jobs i f).map Job.id = jobs.map Job.id := by
  induction jobs with
  | nil => rfl
  | cons j0 js ih =>
    by_cases h : j0.id = i
    · rw [updateJob_cons_eq h, List.map_cons, List.map_cons, hf j0, ih]
    · rw [updateJob_cons_ne h, List.map_cons, List.map_cons, ih]

lemma lookupJob_append_left {jobs more : List Job} {i : Nat} {j : Job}
    (h : lookupJob jobs i = some j) :
    lookupJob (jobs ++ more) i = some j := by
  induction jobs with
  | nil => simp [lookupJob] at h
  | cons j0 js ih =>
    simp only [lookupJob, List.find?, List.cons_append] at *
    by_cases h0 : j0.id == i
    · rw [h0] at h ⊢
      exact h
    · simp only [Bool.not_eq_true] at h0
      rw [h0] at h ⊢
      exact ih h

lemma lookupJob_append_none {jobs more : List Job} {i : Nat}
    (h : lookupJob jobs i = none) :
    lookupJob (jobs ++ more) i = lookupJob more i := by
  induction jobs with
  | nil => rfl
  | cons j0 js ih =>
    simp only [lookupJob, List.find?, List.cons_append] at *
    by_cases h0 : j0.id == i
    · rw [h0] at h
      exact absurd h (by simp)
    · simp only [Bool.not_eq_true] at h0
      rw [h0] at h ⊢
      exact ih h

lemma lookupJob_none_of_ge {jobs : List Job} {n i : Nat}
    (hids : ∀ x ∈ jobs.map Job.id, x < n) (h : n ≤ i) :
    lookupJob jobs i = none := by
  refine List.find?_eq_none.mpr fun j hj => ?_
  have := hids j.id (List.mem_map_of_mem Job.id hj)
  simp only [beq_iff_eq]
  omega

lemma lookupJob_of_mem {jobs : List Job} {j : Job}
    (hnodup : (jobs.map Job.id).Nodup) (hj : j ∈ jobs) :
    lookupJob jobs j.id = some j := by
  induction jobs with
  | nil => cases hj
  | cons j0 js ih =>
    rcases List.mem_cons.mp hj with rfl | hj
    · simp [lookupJob, List.find?]
    · have h0 : j0.id ≠ j.id := by
        intro he
        have : j0.id ∈ js.map Job.id := he ▸ List.mem_map_of_mem Job.id hj
        exact (List.nodup_cons.mp hnodup).1 this
      simp only [lookupJob, List.find?]
      rw [show (j0.id == j.id) = false by simpa using h0]
      exact ih (List.nodup_cons.mp hnodup).2 hj

/-! ## Toolkit: tasks -/

lemma findTask_some {tasks : List Task} {i : Nat} {t : Task}
    (h : tasks.find? (fun u => u.jobId == i) = some t) :
    t ∈ tasks ∧ t.jobId = i := by
  refine ⟨List.mem_of_find?_eq_some h, ?_⟩
  have := List.find?_some h
  simpa using this

lemma mem_removeTasks {tasks : List Task} {i : Nat} {u : Task} :
    u ∈ removeTasks tasks i ↔ u ∈ tasks ∧ u.jobId ≠ i := by
  simp [removeTasks, List.mem_filter]

lemma nodup_removeTasks {tasks : List Task} {i : Nat}
    (h : (tasks.map Task.jobId).Nodup) :
    ((removeTasks tasks i).map Task.jobId).Nodup := by
  induction tasks with
  | nil => simp [removeTasks]
  | cons t0 ts ih =>
    rcases List.nodup_cons.mp h with ⟨h0, hts⟩
    by_cases hb : t0.jobId == i
    · simp only [removeTasks, List.filter_cons, hb]
      simpa [removeTasks] using ih hts
    · simp only [removeTasks, List.filter_cons, hb]
      simp only [Bool.not_false, if_pos, List.map_cons, List.nodup_cons]
      refine ⟨fun hmem => ?_, by simpa [removeTasks] using ih hts⟩
      have : t0.jobId ∈ ts.map Task.jobId := by
        rcases List.mem_map.mp hmem with ⟨u, hu, he⟩
        exact he ▸ List.mem_map_of_mem Task.jobId (mem_removeTasks.mp hu).1
      exact h0 this

lemma filter_jobId_eq {tasks : List Task} {t : Task}
    (hnodup : (tasks.map Task.jobId).Nodup) (ht : t ∈ tasks) :
    tasks.filter (fun u => u.jobId == t.jobId) = [t] := by
  induction tasks with
  | nil => cases ht
  | cons t0 ts ih =>
    rcases List.nodup_cons.mp hnodup with ⟨h0, hts⟩
    rcases List.mem_cons.mp ht with rfl | ht
    · simp only [List.filter_cons, beq_self_eq_true, if_pos]
      have : ts.filter (fun u => u.jobId == t.jobId) = [] := by
        refine List.filter_eq_nil_iff.mpr fun u hu => ?_
        intro hb
        exact h0 (by
          have : u.jobId = t.jobId := by simpa using hb
          exact this ▸ List.mem_map_of_mem Task.jobId hu)
      simp [this]
    · have hne : t0.jobId ≠ t.jobId := by
        intro he
        exact h0 (he ▸ List.mem_map_of_mem Task.jobId ht)
      simp only [List.filter_cons]
      rw [show (t0.jobId == t.jobId) = false by simpa using hne]
      exact ih hts ht

lemma workerCount_append (a b : List Task) :
    workerCount (a ++ b) = workerCount a + workerCount b := by
  simp [workerCount, List.filter_append]

lemma workerCount_perm {a b : List Task} (h : List.Perm a b) :
    workerCount a = workerCount b :=
  (h.filter _).length_eq

lemma workerCount_remove {tasks : List Task} {t : Task}
    (hnodup : (tasks.map Task.jobId).Nodup) (ht : t ∈ tasks) :
    workerCount tasks
      = workerCount (removeTasks tasks t.jobId)
        + (if isParentPhase t.phase then 0 else 1) := by
  have hperm : List.Perm
      (tasks.filter (fun u => u.jobId == t.jobId)
        ++ tasks.filter (fun u => !(u.jobId == t.jobId)))
      tasks := List.filter_append_perm _ tasks
  have := workerCount_perm hperm
  rw [workerCount_append, filter_jobId_eq hnodup ht] at this
  rw [← this]
  have : workerCount [t] = if isParentPhase t.phase then 0 else 1 := by
    by_cases hp : isParentPhase t.phase <;> simp [workerCount, hp]
  rw [this]
  simp [removeTasks]
  omega

/-! ## Toolkit: `lookupAll` and `completedCount` -/

lemma lookupAll_congr {jobs jobs' : List Job} {ids : List Nat}
    (h : ∀ i ∈ ids, lookupJob jobs' i = lookupJob jobs i) :
    lookupAll jobs' ids = lookupAll jobs ids := by
  induction ids with
  | nil => rfl
  | cons i is ih =>
    simp only [lookupAll]
    rw [h i (by simp), ih fun x hx => h x (by simp [hx])]

lemma lookupAll_mem {jobs : List Job} {ids : List Nat} {children : List Job}
    (h : lookupAll jobs ids = some children) :
    ∀ i ∈ ids, ∃ c ∈ children, lookupJob jobs i = some c := by
  induction ids generalizing children with
  | nil => simp
  | cons i0 is ih =>
    simp only [lookupAll] at h
    rcases h0 : lookupJob jobs i0 with _ | c0 <;> rw [h0] at h
    · cases h
    · rcases hrest : lookupAll jobs is with _ | cs <;> rw [hrest] at h
      · cases h
      · cases h
        intro i hi
        rcases List.mem_cons.mp hi with rfl | hi
        · exact ⟨c0, by simp, h0⟩
        · rcases ih hrest i hi with ⟨c, hc, hl⟩
          exact ⟨c, by simp [hc], hl⟩

lemma lookupAll_mem_rev {jobs : List Job} {ids : List Nat} {children : List Job}
    (h : lookupAll jobs ids = some children) :
    ∀ c ∈ children, ∃ i ∈ ids, lookupJob jobs i = some c := by
  induction ids generalizing children with
  | nil =>
    simp only [lookupAll] at h
    cases h
    simp
  | cons i0 is ih =>
    simp only [lookupAll] at h
    rcases h0 : lookupJob jobs i0 with _ | c0 <;> rw [h0] at h
    · cases h
    · rcases hrest : lookupAll jobs is with _ | cs <;> rw [hrest] at h
      · cases h
      · cases h
        intro c hc
        rcases List.mem_cons.mp hc with rfl | hc
        · exact ⟨i0, by simp, h0⟩
        · rcases ih hrest c hc with ⟨i, hi, hl⟩
          exact ⟨i, by simp [hi], hl⟩

lemma lookupAll_of_forall {jobs : List Job} {ids : List Nat}
    (h : ∀ i ∈ ids, ∃ c, lookupJob jobs i = some c) :
    ∃ children, lookupAll jobs ids = some children := by
  induction ids with
  | nil => exact ⟨[], rfl⟩
  | cons i0 is ih =>
    rcases h i0 (by simp) with ⟨c0, hc0⟩
    rcases ih (fun i hi => h i (by simp [hi])) with ⟨cs, hcs⟩
    exact ⟨c0 :: cs, by simp [lookupAll, hc0, hcs]⟩

lemma filterMap_lookup_of_lookupAll {jobs : List Job} {ids : List Nat}
    {children : List Job} (h : lookupAll jobs ids = some children) :
    ids.filterMap (lookupJob jobs) = children := by
  induction ids generalizing children with
  | nil =>
    simp only [lookupAll] at h
    cases h
    rfl
  | cons i0 is ih =>
    simp only [lookupAll] at h
    rcases h0 : lookupJob jobs i0 with _ | c0 <;> rw [h0] at h
    · cases h
    · rcases hrest : lookupAll jobs is with _ | cs <;> rw [hrest] at h
      · cases h
      · cases h
        simp [List.filterMap_cons, h0, ih hrest]

lemma completedCount_eq_of_lookupAll {jobs : List Job} {ids : List Nat}
    {children : List Job} (h : lookupAll jobs ids = some children) :
    completedCount jobs ids
      = (children.filter fun c => c.status == .completed).length := by
  rw [completedCount, filterMap_lookup_of_lookupAll h]

lemma completedCount_congr {jobs jobs' : List Job} {ids : List Nat}
    (h : ∀ i ∈ ids, lookupJob jobs' i = lookupJob jobs i) :
    completedCount jobs' ids = completedCount jobs ids := by
  unfold completedCount
  congr 1
  congr 1
  induction ids with
  | nil => rfl
  | cons i0 is ih =>
    simp only [List.filterMap_cons]
    rw [h i0 (by simp), ih fun x hx => h x (by simp [hx])]

lemma completedCount_le_update {jobs : List Job} {ids : List Nat} {k : Nat}
    {f : Job → Job} (hf : ∀ j, (f j).id = j.id)
    (hold : ∀ c, lookupJob jobs k = some c → c.status ≠ .completed) :
    completedCount jobs ids ≤ completedCount (updateJob jobs k f) ids := by
  unfold completedCount
  induction ids with
  | nil => simp
  | cons i0 is ih =>
    simp only [List.filterMap_cons]
    by_cases hk : i0 = k
    · subst hk
      rcases h0 : lookupJob jobs i0 with _ | c0
      · have h1 : lookupJob (updateJob jobs i0 f) i0 = none := by
          rw [lookupJob_updateJob_self hf, h0]
          rfl
        rw [h1]
        exact ih
      · have h1 : lookupJob (updateJob jobs i0 f) i0 = some (f c0) := by
          rw [lookupJob_updateJob_self hf, h0]
          rfl
        rw [h1]
        have hc0 : ¬ ((c0.status == JobStatus.completed) = true) := by
          simpa using hold c0 h0
        simp only [List.filter_cons, if_neg hc0]
        by_cases hb : ((f c0).status == JobStatus.completed) = true
        · simp only [if_pos hb, List.length_cons]
          exact le_trans ih (Nat.le_succ _)
        · simp only [if_neg hb]
          exact ih
    · rw [lookupJob_updateJob_ne hf _ hk]
      rcases h0 : lookupJob jobs i0 with _ | c0
      · exact ih
      · simp only [List.filter_cons]
        by_cases hb : (c0.status == JobStatus.completed) = true
        · simp only [if_pos hb, List.length_cons]
          exact Nat.succ_le_succ ih
        · simp only [if_neg hb]
          exact ih

/-! ## Toolkit: phases, structure-preserving mutators, frames -/

lemma isActive_not_terminal {st : JobStatus} (h : st.isActive = true) :
    st ≠ .completed ∧ st ≠ .failed ∧ st ≠ .queued := by
  cases st <;> simp_all [JobStatus.isActive]

lemma phaseOk_workerActive {o : Oracle} {jobs : List Job} {j : Job}
    {ph : TaskPhase} (hw : isParentPhase ph = false)
    (h : phaseOk o jobs j ph) :
    j.status.isActive = true ∧ j.mode ≠ .mergeParent := by
  cases ph with
  | indDownload => exact ⟨by rw [h.2.1]; rfl, by simp [h.1]⟩
  | indTranscribe => exact ⟨by rw [h.2.1]; rfl, by simp [h.1]⟩
  | indCleanupOk tr => exact ⟨by rw [h.2.1]; rfl, by simp [h.1]⟩
  | indCleanupErr m => exact ⟨h.2, by simp [h.1]⟩
  | indCleanupTwice m => exact ⟨h.2, by simp [h.1]⟩
  | indGenerate tr => exact ⟨by rw [h.2.1]; rfl, by simp [h.1]⟩
  | chDownload => exact ⟨by rw [h.2.1]; rfl, by simp [h.1]⟩
  | chTranscribe => exact ⟨by rw [h.2.1]; rfl, by simp [h.1]⟩
  | chCleanupOk tr => exact ⟨by rw [h.2.1]; rfl, by simp [h.1]⟩
  | chCleanupErr m => exact ⟨h.2, by simp [h.1]⟩
  | chCleanupTwice m => exact ⟨h.2, by simp [h.1]⟩
  | parentGenerate c => simp [isParentPhase] at hw

lemma lookupAll_transfer {jobs jobs' : List Job} {ids : List Nat}
    {children : List Job} (h : lookupAll jobs ids = some children)
    (hpt : ∀ i c, lookupJob jobs i = some c → c ∈ children →
      lookupJob jobs' i = some c) :
    lookupAll jobs' ids = some children := by
  induction ids generalizing children with
  | nil =>
    simp only [lookupAll] at h
    cases h
    rfl
  | cons i0 is ih =>
    simp only [lookupAll] at h ⊢
    rcases h0 : lookupJob jobs i0 with _ | c0 <;> rw [h0] at h
    · cases h
    · rcases hrest : lookupAll jobs is with _ | cs <;> rw [hrest] at h
      · cases h
      · cases h
        rw [hpt i0 c0 h0 (by simp)]
        rw [ih hrest fun i c hl hm => hpt i c hl (by simp [hm])]

lemma phaseOk_jobs_congr {o : Oracle} {jobs jobs' : List Job} {j : Job}
    {ph : TaskPhase}
    (hcomp : ∀ i c, lookupJob jobs i = some c → c.status = .completed →
      lookupJob jobs' i = some c)
    (h : phaseOk o jobs j ph) : phaseOk o jobs' j ph := by
  cases ph with
  | parentGenerate combined =>
    obtain ⟨h1, h2, h3, ids, children, hids, hall, hcs, hcomb⟩ := h
    refine ⟨h1, h2, h3, ids, children, hids, ?_, hcs, hcomb⟩
    exact lookupAll_transfer hall fun i c hl hm => hcomp i c hl (hcs c hm).1
  | indDownload => exact h
  | indTranscribe => exact h
  | indCleanupOk tr => exact h
  | indCleanupErr m => exact h
  | indCleanupTwice m => exact h
  | indGenerate tr => exact h
  | chDownload => exact h
  | chTranscribe => exact h
  | chCleanupOk tr => exact h
  | chCleanupErr m => exact h
  | chCleanupTwice m => exact h

lemma StructPres.id_eq {f : Job → Job} (h : StructPres f) :
    ∀ j, (f j).id = j.id := fun j => (h j).1

lemma structPres_updStatus (st : JobStatus) (p : Nat) (m : String) :
    StructPres (updStatus st p m) := fun _ => ⟨rfl, rfl, rfl, rfl, rfl, rfl, rfl⟩

lemma structPres_indDispatch : StructPres indDispatch :=
  fun _ => ⟨rfl, rfl, rfl, rfl, rfl, rfl, rfl⟩

lemma structPres_indDownloadDone : StructPres indDownloadDone :=
  fun _ => ⟨rfl, rfl, rfl, rfl, rfl, rfl, rfl⟩

lemma structPres_indTranscribeDone : StructPres indTranscribeDone :=
  fun _ => ⟨rfl, rfl, rfl, rfl, rfl, rfl, rfl⟩

lemma structPres_indGenerateStart : StructPres indGenerateStart :=
  fun _ => ⟨rfl, rfl, rfl, rfl, rfl, rfl, rfl⟩

lemma structPres_indComplete (t url : String) : StructPres (indComplete t url) :=
  fun _ => ⟨rfl, rfl, rfl, rfl, rfl, rfl, rfl⟩

lemma structPres_failIndividual (e : String) : StructPres (failIndividual e) :=
  fun _ => ⟨rfl, rfl, rfl, rfl, rfl, rfl, rfl⟩

lemma structPres_chDispatch : StructPres chDispatch :=
  fun _ => ⟨rfl, rfl, rfl, rfl, rfl, rfl, rfl⟩

lemma structPres_chDownloadDone : StructPres chDownloadDone :=
  fun _ => ⟨rfl, rfl, rfl, rfl, rfl, rfl, rfl⟩

lemma structPres_chTranscribeDone : StructPres chTranscribeDone :=
  fun _ => ⟨rfl, rfl, rfl, rfl, rfl, rfl, rfl⟩

lemma structPres_chComplete (t : String) : StructPres (chComplete t) :=
  fun _ => ⟨rfl, rfl, rfl, rfl, rfl, rfl, rfl⟩

lemma structPres_failChild (e : String) : StructPres (failChild e) :=
  fun _ => ⟨rfl, rfl, rfl, rfl, rfl, rfl, rfl⟩

lemma structPres_parentComplete (c url : String) : StructPres (parentComplete c url) :=
  fun _ => ⟨rfl, rfl, rfl, rfl, rfl, rfl, rfl⟩

lemma structPres_parentFail (e : String) : StructPres (parentFail e) :=
  fun _ => ⟨rfl, rfl, rfl, rfl, rfl, rfl, rfl⟩

lemma frameJob_refl (j : Job) : FrameJob j j :=
  ⟨rfl, rfl, rfl, rfl, rfl, rfl, rfl, le_refl _, fun _ => rfl, fun h => h⟩

lemma frameJob_trans {a b c : Job} (h1 : FrameJob a b) (h2 : FrameJob b c) :
    FrameJob a c := by
  obtain ⟨i1, u1, k1, m1, p1, c1, d1, pr1, co1, fa1⟩ := h1
  obtain ⟨i2, u2, k2, m2, p2, c2, d2, pr2, co2, fa2⟩ := h2
  refine ⟨i2.trans i1, u2.trans u1, k2.trans k1, m2.trans m1, p2.trans p1,
    c2.trans c1, d2.trans d1, le_trans pr1 pr2, ?_, ?_⟩
  · intro hc
    rw [co2 (by rw [co1 hc]; exact hc), co1 hc]
  · intro hf
    exact fa2 (fa1 hf)

lemma stepFrame_refl (s : StoreState) : StepFrame s s :=
  fun i j h => ⟨j, h, frameJob_refl j⟩

lemma stepFrame_trans {a b c : StoreState} (h1 : StepFrame a b)
    (h2 : StepFrame b c) : StepFrame a c := by
  intro i j hl
  obtain ⟨j', hl', hf'⟩ := h1 i j hl
  obtain ⟨j'', hl'', hf''⟩ := h2 i j' hl'
  exact ⟨j'', hl'', frameJob_trans hf' hf''⟩

/-- The frame hypothesis `phaseOk_jobs_congr` needs, produced by any
step whose only table mutation is at a job that was not `completed`. -/
lemma completedFrame_of_update {jobs : List Job} {k : Nat} {f : Job → Job}
    (hf : StructPres f)
    (hold : ∀ c, lookupJob jobs k = some c → c.status ≠ .completed) :
    ∀ i c, lookupJob jobs i = some c → c.status = .completed →
      lookupJob (updateJob jobs k f) i = some c := by
  intro i c hl hc
  by_cases hik : i = k
  · subst hik
    exact absurd hc (hold c hl)
  · rw [lookupJob_updateJob_ne hf.id_eq _ hik]
    exact hl

lemma lookupJob_updateJob_of_eq {jobs : List Job} {k : Nat} {f : Job → Job}
    {j : Job} (hf : StructPres f) (h : lookupJob jobs k = some j) :
    lookupJob (updateJob jobs k f) k = some (f j) := by
  rw [lookupJob_updateJob_self hf.id_eq, h]
  rfl

/-- `childOk` is preserved by any structure-preserving in-place update. -/
lemma childOk_update {jobs : List Job} {k : Nat} {f : Job → Job}
    (hf : StructPres f)
    (h : ∀ i j, lookupJob jobs i = some j → j.mode = .mergeChild →
      ∃ p parent ids, j.parentJobId = some p ∧ lookupJob jobs p = some parent
        ∧ parent.mode = .mergeParent ∧ parent.childJobIds = some ids ∧ i ∈ ids) :
    ∀ i j', lookupJob (updateJob jobs k f) i = some j' → j'.mode = .mergeChild →
      ∃ p parent ids, j'.parentJobId = some p
        ∧ lookupJob (updateJob jobs k f) p = some parent
        ∧ parent.mode = .mergeParent ∧ parent.childJobIds = some ids ∧ i ∈ ids := by
  intro i j' hl hm
  by_cases hik : i = k
  · subst hik
    rw [lookupJob_updateJob_self hf.id_eq] at hl
    rcases h0 : lookupJob jobs i with _ | j <;> rw [h0] at hl
    · cases hl
    · have hfj : f j = j' := by simpa using hl
      have hm0 : j.mode = .mergeChild := by rw [← (hf j).2.2.2.1, hfj]; exact hm
      obtain ⟨p, parent, ids, hp, hpar, hpm, hpc, hmem⟩ := h i j h0 hm0
      have hpk : p ≠ i := by
        intro he
        subst he
        rw [h0] at hpar
        cases hpar
        rw [hpm] at hm0
        cases hm0
      refine ⟨p, parent, ids, ?_, ?_, hpm, hpc, hmem⟩
      · rw [← hfj, (hf j).2.2.2.2.1]
        exact hp
      · rw [lookupJob_updateJob_ne hf.id_eq _ hpk]
        exact hpar
  · rw [lookupJob_updateJob_ne hf.id_eq _ hik] at hl
    obtain ⟨p, parent, ids, hp, hpar, hpm, hpc, hmem⟩ := h i j' hl hm
    by_cases hpk : p = k
    · subst hpk
      refine ⟨p, f parent, ids, hp, lookupJob_updateJob_of_eq hf hpar, ?_, ?_, hmem⟩
      · rw [(hf parent).2.2.2.1]
        exact hpm
      · rw [(hf parent).2.2.2.2.2.1]
        exact hpc
    · exact ⟨p, parent, ids, hp,
        by rw [lookupJob_updateJob_ne hf.id_eq _ hpk]; exact hpar, hpm, hpc, hmem⟩

/-- `parentOk` is preserved by any structure-preserving in-place update. -/
lemma parentOk_update {jobs : List Job} {k : Nat} {f : Job → Job}
    (hf : StructPres f)
    (h : ∀ p parent, lookupJob jobs p = some parent → parent.mode = .mergeParent →
      ∃ ids, parent.childJobIds = some ids ∧ ids.Nodup
        ∧ ∀ i ∈ ids, ∃ c, lookupJob jobs i = some c
          ∧ c.mode = .mergeChild ∧ c.parentJobId = some p) :
    ∀ p parent', lookupJob (updateJob jobs k f) p = some parent' →
      parent'.mode = .mergeParent →
      ∃ ids, parent'.childJobIds = some ids ∧ ids.Nodup
        ∧ ∀ i ∈ ids, ∃ c, lookupJob (updateJob jobs k f) i = some c
          ∧ c.mode = .mergeChild ∧ c.parentJobId = some p := by
  intro p parent' hl hm
  have step : ∀ (ids : List Nat),
      (∀ i ∈ ids, ∃ c, lookupJob jobs i = some c
        ∧ c.mode = .mergeChild ∧ c.parentJobId = some p) →
      ∀ i ∈ ids, ∃ c, lookupJob (updateJob jobs k f) i = some c
        ∧ c.mode = .mergeChild ∧ c.parentJobId = some p := by
    intro ids hall i hi
    obtain ⟨c, hc, hcm, hcp⟩ := hall i hi
    by_cases hik : i = k
    · subst hik
      refine ⟨f c, lookupJob_updateJob_of_eq hf hc, ?_, ?_⟩
      · rw [(hf c).2.2.2.1]
        exact hcm
      · rw [(hf c).2.2.2.2.1]
        exact hcp
    · exact ⟨c, by rw [lookupJob_updateJob_ne hf.id_eq _ hik]; exact hc, hcm, hcp⟩
  by_cases hpk : p = k
  · subst hpk
    rw [lookupJob_updateJob_self hf.id_eq] at hl
    rcases h0 : lookupJob jobs p with _ | parent <;> rw [h0] at hl
    · cases hl
    · have hfp : f parent = parent' := by simpa using hl
      have hm0 : parent.mode = .mergeParent := by
        rw [← (hf parent).2.2.2.1, hfp]
        exact hm
      obtain ⟨ids, hpc, hnd, hall⟩ := h p parent h0 hm0
      exact ⟨ids, by rw [← hfp, (hf parent).2.2.2.2.2.1]; exact hpc, hnd,
        step ids hall⟩
  · rw [lookupJob_updateJob_ne hf.id_eq _ hpk] at hl
    obtain ⟨ids, hpc, hnd, hall⟩ := h p parent' hl hm
    exact ⟨ids, hpc, hnd, step ids hall⟩

/-! ## Preservation: resuming a worker task that stays suspended -/

/-- Resuming a worker task whose next atomic block mutates only its own
job (keeping it in flight) and suspends again preserves the invariant,
with the standard per-job frame. -/
lemma inv_continue {o : Oracle} {s : StoreState} {t : Task} {f : Job → Job}
    {ph' : TaskPhase}
    (hInv : Inv o s) (ht : t ∈ s.tasks)
    (hf : StructPres f)
    (hwOld : isParentPhase t.phase = false)
    (hwNew : isParentPhase ph' = false)
    (hok : ∀ j, lookupJob s.jobs t.jobId = some j → phaseOk o s.jobs j t.phase →
      phaseOk o (updateJob s.jobs t.jobId f) (f j) ph'
      ∧ (f j).status.isActive = true ∧ j.progress ≤ (f j).progress) :
    Inv o ⟨updateJob s.jobs t.jobId f, s.queue, s.activeCount,
      removeTasks s.tasks t.jobId ++ [⟨t.jobId, ph'⟩], s.nextId⟩
    ∧ StepFrame s ⟨updateJob s.jobs t.jobId f, s.queue, s.activeCount,
      removeTasks s.tasks t.jobId ++ [⟨t.jobId, ph'⟩], s.nextId⟩ := by
  obtain ⟨hInv0, hcfp⟩ := hInv
  obtain ⟨j, hj, hophase⟩ := hInv0.taskOk t ht
  obtain ⟨hact, hmode⟩ := phaseOk_workerActive hwOld hophase
  have hnotc : ∀ c, lookupJob s.jobs t.jobId = some c → c.status ≠ .completed := by
    intro c hc
    rw [hj] at hc
    cases hc
    exact (isActive_not_terminal hact).1
  have hcomp := @completedFrame_of_update s.jobs t.jobId f hf hnotc
  obtain ⟨hok1, hok2, hok3⟩ := hok j hj hophase
  have hne_parent : ∀ p parent, lookupJob s.jobs p = some parent →
      parent.mode = .mergeParent → p ≠ t.jobId := by
    intro p parent hl hm he
    subst he
    rw [hj] at hl
    cases hl
    exact hmode hm
  have hne_done : ∀ i c, lookupJob s.jobs i = some c →
      c.status = .completed ∨ c.status = .failed → i ≠ t.jobId := by
    intro i c hl hst he
    subst he
    rw [hj] at hl
    cases hl
    rcases hst with hst | hst
    · exact (isActive_not_terminal hact).1 hst
    · exact (isActive_not_terminal hact).2.1 hst
  refine And.intro (And.intro (Inv0.mk ?_ ?_ ?_ ?_ ?_ ?_ ?_ ?_ ?_ ?_ ?_ ?_ ?_ ?_ ?_ ?_ ?_) ?_) ?_
  · -- activeEq
    show s.activeCount = workerCount (removeTasks s.tasks t.jobId ++ [(⟨t.jobId, ph'⟩ : Task)])
    rw [workerCount_append]
    have h1 := workerCount_remove hInv0.taskNodup ht
    rw [hwOld, if_neg (by simp)] at h1
    have h2 : workerCount [(⟨t.jobId, ph'⟩ : Task)] = 1 := by
      simp [workerCount, hwNew]
    rw [h2, hInv0.activeEq, h1]
  · -- taskNodup
    show ((removeTasks s.tasks t.jobId ++ [(⟨t.jobId, ph'⟩ : Task)]).map Task.jobId).Nodup
    rw [List.map_append]
    rw [List.nodup_append]
    refine ⟨nodup_removeTasks hInv0.taskNodup, by simp, ?_⟩
    intro x hx
    rcases List.mem_map.mp hx with ⟨u, hu, he⟩
    have := (mem_removeTasks.mp hu).2
    simp only [List.map_cons, List.map_nil, List.mem_singleton]
    intro hc
    exact this (he.trans hc)
  · -- jobNodup
    show ((updateJob s.jobs t.jobId f).map Job.id).Nodup
    rw [updateJob_map_id hf.id_eq]
    exact hInv0.jobNodup
  · -- idsLt
    show ∀ x ∈ (updateJob s.jobs t.jobId f).map Job.id, x < s.nextId
    rw [updateJob_map_id hf.id_eq]
    exact hInv0.idsLt
  · -- queueNodup
    exact hInv0.queueNodup
  · -- queueOk
    intro q hq
    obtain ⟨jq, hjq, hq1, hq2, hq3⟩ := hInv0.queueOk q hq
    have hqne : q ≠ t.jobId := by
      intro he
      subst he
      rw [hj] at hjq
      cases hjq
      exact (isActive_not_terminal hact).2.2 hq1
    exact ⟨jq, by rw [lookupJob_updateJob_ne hf.id_eq _ hqne]; exact hjq,
      hq1, hq2, hq3⟩
  · -- taskOk
    intro u hu
    rcases List.mem_append.mp hu with hu | hu
    · obtain ⟨hu1, hu2⟩ := mem_removeTasks.mp hu
      obtain ⟨ju, hju, hop⟩ := hInv0.taskOk u hu1
      exact ⟨ju, by rw [lookupJob_updateJob_ne hf.id_eq _ hu2]; exact hju,
        phaseOk_jobs_congr hcomp hop⟩
    · rcases List.mem_singleton.mp hu with rfl
      exact ⟨f j, lookupJob_updateJob_of_eq hf hj, hok1⟩
  · -- flightTask
    intro i' j' hl' hact' hmode'
    by_cases hik : i' = t.jobId
    · subst hik
      exact ⟨⟨t.jobId, ph'⟩, List.mem_append_right _ (by simp), rfl, hwNew⟩
    · rw [lookupJob_updateJob_ne hf.id_eq _ hik] at hl'
      obtain ⟨u, hu, hui, hup⟩ := hInv0.flightTask i' j' hl' hact' hmode'
      refine ⟨u, List.mem_append_left _ (mem_removeTasks.mpr ⟨hu, ?_⟩), hui, hup⟩
      rw [hui]
      exact hik
  · -- childOk
    exact childOk_update hf hInv0.childOk
  · -- parentOk
    exact parentOk_update hf hInv0.parentOk
  · -- parentStatus
    intro p parent hl hm
    have hpk : p ≠ t.jobId := by
      intro he
      subst he
      rw [lookupJob_updateJob_of_eq hf hj] at hl
      cases hl
      exact hmode (by rw [← (hf j).2.2.2.1]; exact hm)
    rw [lookupJob_updateJob_ne hf.id_eq _ hpk] at hl
    exact hInv0.parentStatus p parent hl hm
  · -- parentAdvanced
    intro p parent hl hm hst ids hids i' hi'
    have hpk : p ≠ t.jobId := by
      intro he
      subst he
      rw [lookupJob_updateJob_of_eq hf hj] at hl
      cases hl
      exact hmode (by rw [← (hf j).2.2.2.1]; exact hm)
    rw [lookupJob_updateJob_ne hf.id_eq _ hpk] at hl
    obtain ⟨c, hc, hcst⟩ := hInv0.parentAdvanced p parent hl hm hst ids hids i' hi'
    have : i' ≠ t.jobId := hne_done i' c hc (Or.inl hcst)
    exact ⟨c, by rw [lookupJob_updateJob_ne hf.id_eq _ this]; exact hc, hcst⟩
  · -- parentFailedReason
    intro p parent hl hm hst ids hids
    have hpk : p ≠ t.jobId := by
      intro he
      subst he
      rw [lookupJob_updateJob_of_eq hf hj] at hl
      cases hl
      exact hmode (by rw [← (hf j).2.2.2.1]; exact hm)
    rw [lookupJob_updateJob_ne hf.id_eq _ hpk] at hl
    rcases hInv0.parentFailedReason p parent hl hm hst ids hids with
      ⟨i', hi', c, hc, hcst⟩ | hall
    · have : i' ≠ t.jobId := hne_done i' c hc (Or.inr hcst)
      exact Or.inl ⟨i', hi', c,
        by rw [lookupJob_updateJob_ne hf.id_eq _ this]; exact hc, hcst⟩
    · refine Or.inr fun i' hi' => ?_
      obtain ⟨c, hc, hcst⟩ := hall i' hi'
      have : i' ≠ t.jobId := hne_done i' c hc (Or.inl hcst)
      exact ⟨c, by rw [lookupJob_updateJob_ne hf.id_eq _ this]; exact hc, hcst⟩
  · -- parentProgressBound
    intro p parent hl hm hst ids hids
    have hpk : p ≠ t.jobId := by
      intro he
      subst he
      rw [lookupJob_updateJob_of_eq hf hj] at hl
      cases hl
      exact hmode (by rw [← (hf j).2.2.2.1]; exact hm)
    rw [lookupJob_updateJob_ne hf.id_eq _ hpk] at hl
    calc parent.progress
        ≤ roundDiv (completedCount s.jobs ids * 70) ids.length :=
          hInv0.parentProgressBound p parent hl hm hst ids hids
      _ ≤ roundDiv (completedCount (updateJob s.jobs t.jobId f) ids * 70)
            ids.length :=
          roundDiv_le_roundDiv
            (Nat.mul_le_mul_right 70 (completedCount_le_update hf.id_eq hnotc))
  · -- childCompleted
    intro i' j' hl' hm' hst'
    by_cases hik : i' = t.jobId
    · subst hik
      rw [lookupJob_updateJob_of_eq hf hj] at hl'
      cases hl'
      exact absurd hst' (isActive_not_terminal hok2).1
    · rw [lookupJob_updateJob_ne hf.id_eq _ hik] at hl'
      exact hInv0.childCompleted i' j' hl' hm' hst'
  · -- completedP
    intro i' j' hl' hst'
    by_cases hik : i' = t.jobId
    · subst hik
      rw [lookupJob_updateJob_of_eq hf hj] at hl'
      cases hl'
      exact absurd hst' (isActive_not_terminal hok2).1
    · rw [lookupJob_updateJob_ne hf.id_eq _ hik] at hl'
      exact hInv0.completedP i' j' hl' hst'
  · -- activeLe
    exact hInv0.activeLe
  · -- ChildFailCoupling
    intro i' j' hl' hm' hst' p hp
    by_cases hik : i' = t.jobId
    · subst hik
      rw [lookupJob_updateJob_of_eq hf hj] at hl'
      cases hl'
      exact absurd hst' (isActive_not_terminal hok2).2.1
    · rw [lookupJob_updateJob_ne hf.id_eq _ hik] at hl'
      obtain ⟨parent, hpar, hpst, ids, hids, i'', hi'', c, hc, hcst, herr⟩ :=
        hcfp i' j' hl' hm' hst' p hp
      have hpk : p ≠ t.jobId := by
        intro he
        subst he
        rw [hj] at hpar
        cases hpar
        exact (isActive_not_terminal hact).2.1 hpst
      have hck : i'' ≠ t.jobId := hne_done i'' c hc (Or.inr hcst)
      exact ⟨parent, by rw [lookupJob_updateJob_ne hf.id_eq _ hpk]; exact hpar,
        hpst, ids, hids, i'', hi'', c,
        by rw [lookupJob_updateJob_ne hf.id_eq _ hck]; exact hc, hcst, herr⟩
  · -- StepFrame
    intro i' j' hl'
    by_cases hik : i' = t.jobId
    · subst hik
      rw [hj] at hl'
      cases hl'
      refine ⟨f j, lookupJob_updateJob_of_eq hf hj, (hf j).1, (hf j).2.1,
        (hf j).2.2.1, (hf j).2.2.2.1, (hf j).2.2.2.2.1,
        (hf j).2.2.2.2.2.1, (hf j).2.2.2.2.2.2, hok3, ?_, ?_⟩
      · intro hc
        exact absurd hc (isActive_not_terminal hact).1
      · intro hfl
        exact absurd hfl (isActive_not_terminal hact).2.1
    · exact ⟨j', by rw [lookupJob_updateJob_ne hf.id_eq _ hik]; exact hl',
        frameJob_refl j'⟩

/-! ## Preservation: updating a merge parent in place -/

lemma phaseOk_active {o : Oracle} {jobs : List Job} {j : Job} {ph : TaskPhase}
    (h : phaseOk o jobs j ph) : j.status.isActive = true := by
  by_cases hw : isParentPhase ph = true
  · cases ph with
    | parentGenerate c => rw [h.2.1]; rfl
    | indDownload => rw [h.2.1]; rfl
    | indTranscribe => rw [h.2.1]; rfl
    | indCleanupOk tr => rw [h.2.1]; rfl
    | indCleanupErr m => exact h.2
    | indCleanupTwice m => exact h.2
    | indGenerate tr => rw [h.2.1]; rfl
    | chDownload => rw [h.2.1]; rfl
    | chTranscribe => rw [h.2.1]; rfl
    | chCleanupOk tr => rw [h.2.1]; rfl
    | chCleanupErr m => exact h.2
    | chCleanupTwice m => exact h.2
  · exact (phaseOk_workerActive (by simpa using hw) h).1

/-- A job that is not in flight has no suspended task. -/
lemma no_task_of_not_active {o : Oracle} {s : StoreState}
    (hInv0 : Inv0 o s) {i : Nat} {j : Job}
    (hj : lookupJob s.jobs i = some j) (hna : ¬ j.status.isActive = true) :
    ∀ u ∈ s.tasks, u.jobId ≠ i := by
  intro u hu he
  obtain ⟨j', hj', hop⟩ := hInv0.taskOk u hu
  rw [he, hj] at hj'
  cases hj'
  exact hna (phaseOk_active hop)

lemma lookupAll_length {jobs : List Job} {ids : List Nat} {children : List Job}
    (h : lookupAll jobs ids = some children) : children.length = ids.length := by
  induction ids generalizing children with
  | nil =>
    simp only [lookupAll] at h
    cases h
    rfl
  | cons i0 is ih =>
    simp only [lookupAll] at h
    rcases h0 : lookupJob jobs i0 with _ | c0 <;> rw [h0] at h
    · cases h
    · rcases hrest : lookupAll jobs is with _ | cs <;> rw [hrest] at h
      · cases h
      · cases h
        simp [ih hrest]

lemma completedCount_le_length (jobs : List Job) (ids : List Nat) :
    completedCount jobs ids ≤ ids.length :=
  le_trans (List.length_filter_le _ _) (List.length_filterMap_le _ _)

lemma roundDiv_le_75 {k n : Nat} (h : k ≤ n) : roundDiv (k * 70) n ≤ 75 := by
  rcases Nat.eq_zero_or_pos n with rfl | hn
  · interval_cases k
    simp [roundDiv]
  · exact le_trans (roundDiv_70_le h hn) (by omega)

/-- Mutating the parent job at `p` in place (its pre-state status neither
`completed` nor in flight), optionally suspending parent-phase tasks for
it, preserves the invariant bundle provided the new parent record
re-satisfies each parent-status field. -/
lemma inv_parent_update {o : Oracle} {s : StoreState} {p : Nat} {parent : Job}
    {f : Job → Job} {ts : List Task}
    (hInv0 : Inv0 o s)
    (hp : lookupJob s.jobs p = some parent)
    (hf : StructPres f)
    (hmode : parent.mode = .mergeParent)
    (hnc : parent.status ≠ .completed)
    (hnotask : ∀ u ∈ s.tasks, u.jobId ≠ p)
    (hprog : parent.progress ≤ (f parent).progress)
    (hstat : (f parent).status = .queued ∨ (f parent).status = .generating
      ∨ (f parent).status = .completed ∨ (f parent).status = .failed)
    (hfailkeep : parent.status = .failed → (f parent).status = .failed)
    (hcomp100 : (f parent).status = .completed → (f parent).progress = 100)
    (hadv : ((f parent).status = .generating ∨ (f parent).status = .completed) →
      ∀ ids, parent.childJobIds = some ids →
      ∀ i ∈ ids, ∃ c, lookupJob s.jobs i = some c ∧ c.status = .completed)
    (hfailreason : (f parent).status = .failed →
      ∀ ids, parent.childJobIds = some ids →
      (∃ i ∈ ids, ∃ c, lookupJob s.jobs i = some c ∧ c.status = .failed)
      ∨ (∀ i ∈ ids, ∃ c, lookupJob s.jobs i = some c ∧ c.status = .completed))
    (hqbound : (f parent).status = .queued →
      ∀ ids, parent.childJobIds = some ids →
      (f parent).progress ≤ roundDiv (completedCount s.jobs ids * 70) ids.length)
    (hts : ∀ u ∈ ts, isParentPhase u.phase = true ∧ u.jobId = p)
    (htsOk : ∀ u ∈ ts, phaseOk o (updateJob s.jobs p f) (f parent) u.phase)
    (htsLen : ts.length ≤ 1) :
    Inv0 o ⟨updateJob s.jobs p f, s.queue, s.activeCount, s.tasks ++ ts, s.nextId⟩
    ∧ StepFrame s ⟨updateJob s.jobs p f, s.queue, s.activeCount,
        s.tasks ++ ts, s.nextId⟩ := by
  have hcomp := @completedFrame_of_update s.jobs p f hf
    (fun c hc => by rw [hp] at hc; cases hc; exact hnc)
  have hchild_ne : ∀ p' parent' ids, lookupJob s.jobs p' = some parent' →
      parent'.mode = .mergeParent → parent'.childJobIds = some ids →
      ∀ i ∈ ids, i ≠ p := by
    intro p' parent' ids hl hm hids i hi he
    obtain ⟨ids', hids', _, hres⟩ := hInv0.parentOk p' parent' hl hm
    rw [hids] at hids'
    cases hids'
    obtain ⟨c, hc, hcm, _⟩ := hres i hi
    rw [he, hp] at hc
    cases hc
    rw [hmode] at hcm
    cases hcm
  have hlu_ne : ∀ {i : Nat}, i ≠ p →
      lookupJob (updateJob s.jobs p f) i = lookupJob s.jobs i :=
    fun h => lookupJob_updateJob_ne hf.id_eq _ h
  have hlu_p : lookupJob (updateJob s.jobs p f) p = some (f parent) :=
    lookupJob_updateJob_of_eq hf hp
  refine ⟨Inv0.mk ?_ ?_ ?_ ?_ ?_ ?_ ?_ ?_ ?_ ?_ ?_ ?_ ?_ ?_ ?_ ?_ ?_, ?_⟩
  · -- activeEq
    show s.activeCount = workerCount (s.tasks ++ ts)
    rw [workerCount_append, hInv0.activeEq]
    have : workerCount ts = 0 := by
      simp only [workerCount, List.length_eq_zero]
      refine List.filter_eq_nil_iff.mpr fun u hu => ?_
      simp [(hts u hu).1]
    omega
  · -- taskNodup
    show ((s.tasks ++ ts).map Task.jobId).Nodup
    rw [List.map_append, List.nodup_append]
    refine ⟨hInv0.taskNodup, ?_, ?_⟩
    · rcases ts with _ | ⟨u, ts'⟩
      · simp
      · have : ts' = [] := by
          have := htsLen
          simp only [List.length_cons] at this
          exact List.length_eq_zero.mp (by omega)
        subst this
        simp
    · intro x hx
      rcases List.mem_map.mp hx with ⟨u, hu, he⟩
      intro hcmem
      rcases List.mem_map.mp hcmem with ⟨v, hv, hev⟩
      exact hnotask u hu (by rw [he, ← hev, (hts v hv).2])
  · -- jobNodup
    show ((updateJob s.jobs p f).map Job.id).Nodup
    rw [updateJob_map_id hf.id_eq]
    exact hInv0.jobNodup
  · -- idsLt
    show ∀ x ∈ (updateJob s.jobs p f).map Job.id, x < s.nextId
    rw [updateJob_map_id hf.id_eq]
    exact hInv0.idsLt
  · exact hInv0.queueNodup
  · -- queueOk
    intro q hq
    obtain ⟨jq, hjq, hq1, hq2, hq3⟩ := hInv0.queueOk q hq
    have hqne : q ≠ p := by
      intro he
      rw [he, hp] at hjq
      cases hjq
      exact hq3 hmode
    exact ⟨jq, by rw [hlu_ne hqne]; exact hjq, hq1, hq2, hq3⟩
  · -- taskOk
    intro u hu
    rcases List.mem_append.mp hu with hu | hu
    · obtain ⟨ju, hju, hop⟩ := hInv0.taskOk u hu
      exact ⟨ju, by rw [hlu_ne (hnotask u hu)]; exact hju,
        phaseOk_jobs_congr hcomp hop⟩
    · exact ⟨f parent, by rw [(hts u hu).2]; exact hlu_p, htsOk u hu⟩
  · -- flightTask
    intro i' j' hl' hact' hmode'
    by_cases hik : i' = p
    · subst hik
      rw [hlu_p] at hl'
      cases hl'
      exact absurd (by rw [(hf parent).2.2.2.1]; exact hmode) hmode'
    · rw [hlu_ne hik] at hl'
      obtain ⟨u, hu, hui, hup⟩ := hInv0.flightTask i' j' hl' hact' hmode'
      exact ⟨u, List.mem_append_left _ hu, hui, hup⟩
  · exact childOk_update hf hInv0.childOk
  · exact parentOk_update hf hInv0.parentOk
  · -- parentStatus
    intro p' parent' hl hm
    by_cases hik : p' = p
    · subst hik
      rw [hlu_p] at hl
      cases hl
      exact hstat
    · rw [hlu_ne hik] at hl
      exact hInv0.parentStatus p' parent' hl hm
  · -- parentAdvanced
    intro p' parent' hl hm hst ids hids i' hi'
    by_cases hik : p = p'
    · subst hik
      rw [hlu_p] at hl
      cases hl
      obtain ⟨c, hc, hcst⟩ := hadv hst ids
        (by rw [← (hf parent).2.2.2.2.2.1]; exact hids) i' hi'
      have hne : i' ≠ p := hchild_ne p parent ids hp hmode
        (by rw [← (hf parent).2.2.2.2.2.1]; exact hids) i' hi'
      exact ⟨c, by rw [hlu_ne hne]; exact hc, hcst⟩
    · rw [hlu_ne (Ne.symm hik)] at hl
      obtain ⟨c, hc, hcst⟩ := hInv0.parentAdvanced p' parent' hl hm hst ids hids i' hi'
      have hne : i' ≠ p := hchild_ne p' parent' ids hl hm hids i' hi'
      exact ⟨c, by rw [hlu_ne hne]; exact hc, hcst⟩
  · -- parentFailedReason
    intro p' parent' hl hm hst ids hids
    by_cases hik : p = p'
    · subst hik
      rw [hlu_p] at hl
      cases hl
      have hids0 : parent.childJobIds = some ids := by
        rw [← (hf parent).2.2.2.2.2.1]
        exact hids
      rcases hfailreason hst ids hids0 with ⟨i', hi', c, hc, hcst⟩ | hall
      · exact Or.inl ⟨i', hi', c,
          by rw [hlu_ne (hchild_ne p parent ids hp hmode hids0 i' hi')]; exact hc,
          hcst⟩
      · refine Or.inr fun i' hi' => ?_
        obtain ⟨c, hc, hcst⟩ := hall i' hi'
        exact ⟨c,
          by rw [hlu_ne (hchild_ne p parent ids hp hmode hids0 i' hi')]; exact hc,
          hcst⟩
    · rw [hlu_ne (Ne.symm hik)] at hl
      rcases hInv0.parentFailedReason p' parent' hl hm hst ids hids with
        ⟨i', hi', c, hc, hcst⟩ | hall
      · exact Or.inl ⟨i', hi', c,
          by rw [hlu_ne (hchild_ne p' parent' ids hl hm hids i' hi')]; exact hc,
          hcst⟩
      · refine Or.inr fun i' hi' => ?_
        obtain ⟨c, hc, hcst⟩ := hall i' hi'
        exact ⟨c,
          by rw [hlu_ne (hchild_ne p' parent' ids hl hm hids i' hi')]; exact hc,
          hcst⟩
  · -- parentProgressBound
    intro p' parent' hl hm hst ids hids
    by_cases hik : p = p'
    · subst hik
      rw [hlu_p] at hl
      cases hl
      have hids0 : parent.childJobIds = some ids := by
        rw [← (hf parent).2.2.2.2.2.1]
        exact hids
      calc (f parent).progress
          ≤ roundDiv (completedCount s.jobs ids * 70) ids.length :=
            hqbound hst ids hids0
        _ = roundDiv (completedCount (updateJob s.jobs p f) ids * 70) ids.length := by
            rw [completedCount_congr fun i hi =>
              hlu_ne (hchild_ne p parent ids hp hmode hids0 i hi)]
    · rw [hlu_ne (Ne.symm hik)] at hl
      calc parent'.progress
          ≤ roundDiv (completedCount s.jobs ids * 70) ids.length :=
            hInv0.parentProgressBound p' parent' hl hm hst ids hids
        _ = roundDiv (completedCount (updateJob s.jobs p f) ids * 70) ids.length := by
            rw [completedCount_congr fun i hi =>
              hlu_ne (hchild_ne p' parent' ids hl hm hids i hi)]
  · -- childCompleted
    intro i' j' hl' hm' hst'
    by_cases hik : i' = p
    · subst hik
      rw [hlu_p] at hl'
      cases hl'
      rw [(hf parent).2.2.2.1, hmode] at hm'
      cases hm'
    · rw [hlu_ne hik] at hl'
      exact hInv0.childCompleted i' j' hl' hm' hst'
  · -- completedP
    intro i' j' hl' hst'
    by_cases hik : i' = p
    · subst hik
      rw [hlu_p] at hl'
      cases hl'
      exact hcomp100 hst'
    · rw [hlu_ne hik] at hl'
      exact hInv0.completedP i' j' hl' hst'
  · -- activeLe
    exact hInv0.activeLe
  · -- StepFrame
    intro i' j' hl'
    by_cases hik : i' = p
    · subst hik
      rw [hp] at hl'
      cases hl'
      refine ⟨f parent, hlu_p, (hf parent).1, (hf parent).2.1, (hf parent).2.2.1,
        (hf parent).2.2.2.1, (hf parent).2.2.2.2.1, (hf parent).2.2.2.2.2.1,
        (hf parent).2.2.2.2.2.2, hprog, fun hc => absurd hc hnc, hfailkeep⟩
    · exact ⟨j', by rw [hlu_ne hik]; exact hl', frameJob_refl j'⟩

/-! ## Evaluation lemmas for `checkMergeCompletion` -/

lemma checkMC_missing {s : StoreState} {p : Nat}
    (hp : lookupJob s.jobs p = none) : checkMergeCompletion s p = s := by
  simp only [checkMergeCompletion, hp]

lemma checkMC_noChildIds {s : StoreState} {p : Nat} {parent : Job}
    (hp : lookupJob s.jobs p = some parent)
    (hc : parent.childJobIds = none) : checkMergeCompletion s p = s := by
  simp only [checkMergeCompletion, hp, hc]

lemma checkMC_badLookup {s : StoreState} {p : Nat} {parent : Job}
    {ids : List Nat}
    (hp : lookupJob s.jobs p = some parent)
    (hc : parent.childJobIds = some ids)
    (hall : lookupAll s.jobs ids = none) : checkMergeCompletion s p = s := by
  simp only [checkMergeCompletion, hp, hc, hall]

lemma checkMC_failed {s : StoreState} {p : Nat} {parent : Job}
    {ids : List Nat} {children : List Job} {fc : Job}
    (hp : lookupJob s.jobs p = some parent)
    (hc : parent.childJobIds = some ids)
    (hall : lookupAll s.jobs ids = some children)
    (hfind : children.find? (fun c => c.status == .failed) = some fc) :
    checkMergeCompletion s p = setJob s p fun q =>
      { q with
        status := .failed
        error := some (childFailMsg fc)
        message := childFailMsg fc } := by
  simp only [checkMergeCompletion, hp, hc, hall, hfind]

lemma checkMC_notAllDone {s : StoreState} {p : Nat} {parent : Job}
    {ids : List Nat} {children : List Job}
    (hp : lookupJob s.jobs p = some parent)
    (hc : parent.childJobIds = some ids)
    (hall : lookupAll s.jobs ids = some children)
    (hfind : children.find? (fun c => c.status == .failed) = none)
    (hdone : (children.all fun c => c.status == .completed) = false) :
    checkMergeCompletion s p = setJob s p fun q =>
      { q with
        progress := roundDiv
          ((children.filter fun c => c.status == .completed).length * 70)
          children.length
        message := "Transkription "
          ++ toString (children.filter fun c => c.status == .completed).length
          ++ "/" ++ toString children.length ++ " fertig..." } := by
  simp only [checkMergeCompletion, hp, hc, hall, hfind, hdone, Bool.not_false,
    if_true]

lemma checkMC_done {s : StoreState} {p : Nat} {parent : Job}
    {ids : List Nat} {children : List Job}
    (hp : lookupJob s.jobs p = some parent)
    (hc : parent.childJobIds = some ids)
    (hall : lookupAll s.jobs ids = some children)
    (hfind : children.find? (fun c => c.status == .failed) = none)
    (hdone : (children.all fun c => c.status == .completed) = true) :
    checkMergeCompletion s p =
      { setJob s p (fun q =>
          { q with
            status := .generating
            progress := 75
            message := "Erstelle Präsentation aus allen Transkripten..." }) with
        tasks := s.tasks ++ [⟨p, .parentGenerate (combinedTranscript children)⟩] } := by
  simp only [checkMergeCompletion, hp, hc, hall, hfind, hdone, Bool.not_true,
    Bool.false_eq_true, if_false]
  rfl

/-! ## Preservation: the merge-completion check -/

lemma cfp_congr {s1 s2 : StoreState} (h : s1.jobs = s2.jobs)
    (hc : ChildFailCoupling s1) : ChildFailCoupling s2 := by
  intro i j hl hm hst p hpj
  obtain ⟨parent, hpar, hpst, ids, hids, i', hi', c, hcl, hcst, herr⟩ :=
    hc i j (by rw [h]; exact hl) hm hst p hpj
  exact ⟨parent, by rw [← h]; exact hpar, hpst, ids, hids, i', hi', c,
    by rw [← h]; exact hcl, hcst, herr⟩

/-- After an in-place update of the parent `p`, the fail-fast coupling
holds throughout, given it held for every child of other parents and
either it holds at `p` in the new table or `p` is a queued parent with no
failed child. -/
lemma cfp_after_parent_update {o : Oracle} {s : StoreState} {p : Nat}
    {parent : Job} {ids : List Nat} {children : List Job} {f : Job → Job}
    (hInv0 : Inv0 o s)
    (hp : lookupJob s.jobs p = some parent)
    (hpm : parent.mode = .mergeParent)
    (hc : parent.childJobIds = some ids)
    (hall : lookupAll s.jobs ids = some children)
    (hf : StructPres f)
    (hweak : ∀ i j, lookupJob s.jobs i = some j → j.mode = .mergeChild →
      j.status = .failed → ∀ p', j.parentJobId = some p' → p' = p ∨ CFPAt s p')
    (hpcase : CFPAt (setJob s p f) p
      ∨ (parent.status = .queued ∧ ∀ c ∈ children, ¬ c.status = .failed)) :
    ChildFailCoupling (setJob s p f) := by
  have hlu_p : lookupJob (updateJob s.jobs p f) p = some (f parent) :=
    lookupJob_updateJob_of_eq hf hp
  intro i j hl' hm' hst' p' hpj
  have hl2 : lookupJob (updateJob s.jobs p f) i = some j := hl'
  have hip : i ≠ p := by
    intro he
    rw [he, hlu_p] at hl2
    cases hl2
    rw [(hf parent).2.2.2.1, hpm] at hm'
    cases hm'
  have hlold : lookupJob s.jobs i = some j := by
    rw [← lookupJob_updateJob_ne hf.id_eq s.jobs hip]
    exact hl2
  obtain ⟨p2, parent2, ids2, hpj2, hpar2, hpm2, hcids2, hmem2⟩ :=
    hInv0.childOk i j hlold hm'
  rw [hpj] at hpj2
  cases hpj2
  rcases hweak i j hlold hm' hst' p' hpj with rfl | hfull
  · rcases hpcase with hcfp | ⟨hqueued, hnf⟩
    · exact hcfp
    · exfalso
      rw [hp] at hpar2
      cases hpar2
      rw [hc] at hcids2
      cases hcids2
      obtain ⟨c, hcm, hlc⟩ := lookupAll_mem hall i hmem2
      rw [hlold] at hlc
      cases hlc
      exact hnf j hcm hst'
  · by_cases hpe : p' = p
    · subst hpe
      rcases hpcase with hcfp | ⟨hqueued, hnf⟩
      · exact hcfp
      · exfalso
        obtain ⟨parentx, hparx, hpstx, _⟩ := hfull
        rw [hp] at hparx
        cases hparx
        rw [hqueued] at hpstx
        cases hpstx
    · obtain ⟨parent', hpar', hpst', ids', hids', i'', hi'', c, hcl, hcst, herr⟩ :=
        hfull
      rw [hpar2] at hpar'
      cases hpar'
      obtain ⟨idsx, hidsx, _, hresx⟩ := hInv0.parentOk p' parent2 hpar2 hpm2
      rw [hids'] at hidsx
      cases hidsx
      have hi''p : i'' ≠ p := by
        intro he
        obtain ⟨cx, hcx, hcmx, _⟩ := hresx i'' hi''
        rw [hcl] at hcx
        cases hcx
        rw [he, hp] at hcl
        cases hcl
        rw [hpm] at hcmx
        cases hcmx
      refine ⟨parent2, ?_, hpst', ids', hids', i'', hi'', c, ?_, hcst, herr⟩
      · show lookupJob (updateJob s.jobs p f) p' = some parent2
        rw [lookupJob_updateJob_ne hf.id_eq s.jobs hpe]
        exact hpar2
      · show lookupJob (updateJob s.jobs p f) i'' = some c
        rw [lookupJob_updateJob_ne hf.id_eq s.jobs hi''p]
        exact hcl

/-- `checkMergeCompletion` restores the full invariant from a state
where only the children of `p` may lack their fail-fast coupling,
provided `p`'s parent (when it exists) is `queued` or already `failed`
with a failed child present — exactly the states in which the store
invokes it. -/
lemma inv_check {o : Oracle} {s : StoreState} {p : Nat}
    (hInv0 : Inv0 o s)
    (hweak : ∀ i j, lookupJob s.jobs i = some j → j.mode = .mergeChild →
      j.status = .failed → ∀ p', j.parentJobId = some p' → p' = p ∨ CFPAt s p')
    (hpstat : ∀ parent, lookupJob s.jobs p = some parent →
      parent.mode = .mergeParent
      ∧ (parent.status = .queued ∨ (parent.status = .failed
        ∧ ∃ ids, parent.childJobIds = some ids
          ∧ ∃ i ∈ ids, ∃ c, lookupJob s.jobs i = some c ∧ c.status = .failed))) :
    Inv o (checkMergeCompletion s p) ∧ StepFrame s (checkMergeCompletion s p) := by
  have cfp_whole_of_missing :
      (∀ parent2, lookupJob s.jobs p ≠ some parent2) → ChildFailCoupling s := by
    intro hmiss i j hl hm hst p' hpj
    rcases hweak i j hl hm hst p' hpj with rfl | hfull
    · obtain ⟨p2, parent2, ids2, hpj2, hpar2, _, _, _⟩ := hInv0.childOk i j hl hm
      rw [hpj] at hpj2
      cases hpj2
      exact absurd hpar2 (hmiss parent2)
    · exact hfull
  rcases hp : lookupJob s.jobs p with _ | parent
  · rw [checkMC_missing hp]
    exact ⟨⟨hInv0, cfp_whole_of_missing fun parent2 hcon => by
      rw [hp] at hcon; cases hcon⟩, stepFrame_refl s⟩
  · obtain ⟨hpm, hpst⟩ := hpstat parent hp
    have hnact : ¬ parent.status.isActive = true := by
      rcases hpst with h | ⟨h, _⟩ <;> rw [h] <;> simp [JobStatus.isActive]
    have hnc : parent.status ≠ .completed := by
      rcases hpst with h | ⟨h, _⟩ <;> rw [h] <;> simp
    rcases hc : parent.childJobIds with _ | ids
    · obtain ⟨ids0, hcs0, hndids, hres⟩ := hInv0.parentOk p parent hp hpm
      rw [hc] at hcs0
      cases hcs0
    · obtain ⟨ids0, hcs0, hndids, hres⟩ := hInv0.parentOk p parent hp hpm
      rw [hc] at hcs0
      cases hcs0
      rcases hall : lookupAll s.jobs ids with _ | children
      · exfalso
        obtain ⟨children', hsome⟩ :=
          @lookupAll_of_forall s.jobs ids fun i hi => by
            obtain ⟨c, hc', _, _⟩ := hres i hi
            exact ⟨c, hc'⟩
        rw [hall] at hsome
        cases hsome
      · have hchild_ne_p : ∀ i ∈ ids, i ≠ p := by
          intro i hi he
          obtain ⟨c, hc', hcm, _⟩ := hres i hi
          rw [he, hp] at hc'
          cases hc'
          rw [hpm] at hcm
          cases hcm
        have hlen : children.length = ids.length := lookupAll_length hall
        have hchildren_lookup : ∀ c ∈ children, ∃ i ∈ ids,
            lookupJob s.jobs i = some c := lookupAll_mem_rev hall
        rcases hfind : children.find? (fun c => c.status == .failed) with _ | fc
        · -- no failed child of p
          have hnofail : ∀ c ∈ children, ¬ c.status = .failed := by
            intro c hcm hfst
            have := List.find?_eq_none.mp hfind c hcm
            simp [hfst] at this
          have hqueued : parent.status = .queued := by
            rcases hpst with h | ⟨_, ids2, hids2, i2, hi2, c2, hc2, hcf2⟩
            · exact h
            · exfalso
              rw [hc] at hids2
              cases hids2
              obtain ⟨c', hc'm, hl'⟩ := lookupAll_mem hall i2 hi2
              rw [hc2] at hl'
              cases hl'
              exact hnofail c2 hc'm hcf2
          rcases hdone : (children.all fun c => c.status == .completed) with _ | _
          · -- not all completed: progress/message update only
            rw [checkMC_notAllDone hp hc hall hfind hdone]
            have H := @inv_parent_update o s p parent
              (fun q => { q with
                progress := roundDiv
                  ((children.filter fun c => c.status == .completed).length * 70)
                  children.length
                message := "Transkription "
                  ++ toString (children.filter fun c => c.status == .completed).length
                  ++ "/" ++ toString children.length ++ " fertig..." })
              [] hInv0 hp
              (fun _ => ⟨rfl, rfl, rfl, rfl, rfl, rfl, rfl⟩) hpm hnc (no_task_of_not_active hInv0 hp hnact)
              (by
                have hb := hInv0.parentProgressBound p parent hp hpm hqueued ids hc
                rw [completedCount_eq_of_lookupAll hall, ← hlen] at hb
                exact hb)
              (Or.inl hqueued)
              (fun hfst => by exfalso; rw [hqueued] at hfst; cases hfst)
              (fun hcst => by
                exfalso
                have h2 : parent.status = JobStatus.completed := hcst
                rw [hqueued] at h2
                cases h2)
              (fun hst => by
                exfalso
                have h2 : parent.status = JobStatus.generating
                    ∨ parent.status = JobStatus.completed := hst
                rcases h2 with h2 | h2 <;> rw [hqueued] at h2 <;> cases h2)
              (fun hfst => by
                exfalso
                have h2 : parent.status = JobStatus.failed := hfst
                rw [hqueued] at h2
                cases h2)
              (fun _ ids2 hids2 => by
                rw [hc] at hids2
                cases hids2
                rw [completedCount_eq_of_lookupAll hall, ← hlen])
              (fun u hu => by cases hu) (fun u hu => by cases hu) (by simp)
            rw [List.append_nil] at H
            refine ⟨⟨H.1, ?_⟩, H.2⟩
            exact cfp_after_parent_update hInv0 hp hpm hc hall
              (fun _ => ⟨rfl, rfl, rfl, rfl, rfl, rfl, rfl⟩) hweak
              (Or.inr ⟨hqueued, hnofail⟩)
          · -- all completed: start the synthesis stage
            rw [checkMC_done hp hc hall hfind hdone]
            have hallc : ∀ c ∈ children, c.status = .completed := by
              intro c hcm
              have := List.all_eq_true.mp hdone c hcm
              simpa using this
            have hids_lookup_ne : ∀ i ∈ ids,
                lookupJob (updateJob s.jobs p (fun q => { q with
                  status := JobStatus.generating
                  progress := 75
                  message := "Erstelle Präsentation aus allen Transkripten..." })) i
                = lookupJob s.jobs i := by
              intro i hi
              exact lookupJob_updateJob_ne (by intro q; rfl) s.jobs (hchild_ne_p i hi)
            have H := @inv_parent_update o s p parent
              (fun q => { q with
                status := JobStatus.generating
                progress := 75
                message := "Erstelle Präsentation aus allen Transkripten..." })
              [⟨p, .parentGenerate (combinedTranscript children)⟩]
              hInv0 hp
              (fun _ => ⟨rfl, rfl, rfl, rfl, rfl, rfl, rfl⟩) hpm hnc (no_task_of_not_active hInv0 hp hnact)
              (by
                have hb := hInv0.parentProgressBound p parent hp hpm hqueued ids hc
                calc parent.progress
                    ≤ roundDiv (completedCount s.jobs ids * 70) ids.length := hb
                  _ ≤ 75 := roundDiv_le_75 (completedCount_le_length _ _))
              (Or.inr (Or.inl rfl))
              (fun hfst => by exfalso; rw [hqueued] at hfst; cases hfst)
              (fun hcst => by exfalso; cases hcst)
              (fun _ ids2 hids2 => by
                rw [hc] at hids2
                cases hids2
                intro i hi
                obtain ⟨c, hcm, hlc⟩ := lookupAll_mem hall i hi
                exact ⟨c, hlc, hallc c hcm⟩)
              (fun hfst => by exfalso; cases hfst)
              (fun hqst => by exfalso; cases hqst)
              (fun u hu => by
                rcases List.mem_singleton.mp hu with rfl
                exact ⟨rfl, rfl⟩)
              (fun u hu => by
                rcases List.mem_singleton.mp hu with rfl
                refine ⟨hpm, rfl, rfl, ids, children, hc, ?_, ?_, rfl⟩
                · rw [lookupAll_congr hids_lookup_ne]
                  exact hall
                · intro c hcm
                  refine ⟨hallc c hcm, ?_⟩
                  obtain ⟨i, hi, hlc⟩ := hchildren_lookup c hcm
                  obtain ⟨cx, hcx, hcmx, _⟩ := hres i hi
                  rw [hlc] at hcx
                  cases hcx
                  have := hInv0.childCompleted i c hlc hcmx (hallc c hcm)
                  rw [(lookupJob_id hlc).1]
                  exact this.1)
              (by simp)
            refine ⟨⟨H.1, ?_⟩, H.2⟩
            have hcfp := cfp_after_parent_update hInv0 hp hpm hc hall
              (f := fun q => { q with
                status := JobStatus.generating
                progress := 75
                message := "Erstelle Präsentation aus allen Transkripten..." })
              (fun _ => ⟨rfl, rfl, rfl, rfl, rfl, rfl, rfl⟩) hweak
              (Or.inr ⟨hqueued, hnofail⟩)
            exact cfp_congr rfl hcfp
        · -- a failed child: fail the parent
          rw [checkMC_failed hp hc hall hfind]
          have hfc_mem : fc ∈ children := List.mem_of_find?_eq_some hfind
          have hfc_failed : fc.status = .failed := by
            have := List.find?_some hfind
            simpa using this
          obtain ⟨ifc, hifc, hlfc⟩ := hchildren_lookup fc hfc_mem
          have H := @inv_parent_update o s p parent
            (fun q => { q with
              status := JobStatus.failed
              error := some (childFailMsg fc)
              message := childFailMsg fc })
            [] hInv0 hp
            (fun _ => ⟨rfl, rfl, rfl, rfl, rfl, rfl, rfl⟩) hpm hnc (no_task_of_not_active hInv0 hp hnact)
            (le_refl _)
            (Or.inr (Or.inr (Or.inr rfl)))
            (fun _ => rfl)
            (fun hcst => by exfalso; cases hcst)
            (fun hst => by exfalso; rcases hst with hst | hst <;> cases hst)
            (fun _ ids2 hids2 => by
              rw [hc] at hids2
              cases hids2
              exact Or.inl ⟨ifc, hifc, fc, hlfc, hfc_failed⟩)
            (fun hqst => by exfalso; cases hqst)
            (fun u hu => by cases hu) (fun u hu => by cases hu) (by simp)
          rw [List.append_nil] at H
          refine ⟨⟨H.1, ?_⟩, H.2⟩
          refine cfp_after_parent_update hInv0 hp hpm hc hall
            (fun _ => ⟨rfl, rfl, rfl, rfl, rfl, rfl, rfl⟩) hweak (Or.inl ?_)
          refine ⟨_, lookupJob_updateJob_of_eq
            (fun _ => ⟨rfl, rfl, rfl, rfl, rfl, rfl, rfl⟩) hp, rfl, ids, hc, ifc,
            hifc, fc, ?_, hfc_failed, rfl⟩
          show lookupJob (updateJob s.jobs p _) ifc = some fc
          rw [lookupJob_updateJob_ne (by intro q; rfl) s.jobs (hchild_ne_p ifc hifc)]
          exact hlfc

/-! ## Preservation: the dispatch loop -/

lemma processQueueGo_nil (s : StoreState) : processQueueGo [] s = s := rfl

lemma processQueueGo_stop {s : StoreState} {i : Nat} {rest : List Nat}
    (h : ¬ s.activeCount < MAX_CONCURRENT) :
    processQueueGo (i :: rest) s = s := by
  simp [processQueueGo, h]

lemma processQueueGo_missing {s : StoreState} {i : Nat} {rest : List Nat}
    (ha : s.activeCount < MAX_CONCURRENT)
    (hl : lookupJob s.jobs i = none) :
    processQueueGo (i :: rest) s = processQueueGo rest { s with queue := rest } := by
  simp [processQueueGo, ha, hl]

lemma processQueueGo_skipParent {s : StoreState} {i : Nat} {rest : List Nat}
    {job : Job} (ha : s.activeCount < MAX_CONCURRENT)
    (hl : lookupJob s.jobs i = some job) (hm : job.mode = .mergeParent) :
    processQueueGo (i :: rest) s = processQueueGo rest { s with queue := rest } := by
  simp [processQueueGo, ha, hl, hm]

lemma processQueueGo_dispatch {s : StoreState} {i : Nat} {rest : List Nat}
    {job : Job} (ha : s.activeCount < MAX_CONCURRENT)
    (hl : lookupJob s.jobs i = some job) (hm : ¬ job.mode = .mergeParent) :
    processQueueGo (i :: rest) s
      = processQueueGo rest (dispatchJob { s with queue := rest } job) := by
  simp [processQueueGo, ha, hl, hm]

lemma dispatchJob_eq (s : StoreState) (j : Job) :
    dispatchJob s j =
      ⟨updateJob s.jobs j.id
          (if j.mode = .mergeChild then chDispatch else indDispatch),
        s.queue, s.activeCount + 1,
        s.tasks ++
          [⟨j.id, if j.mode = .mergeChild then .chDownload else .indDownload⟩],
        s.nextId⟩ := rfl

/-- Dropping the queue head preserves the invariant. -/
lemma inv_queue_tail {o : Oracle} {s : StoreState} {i : Nat} {rest : List Nat}
    (hq : s.queue = i :: rest) (hInv : Inv o s) :
    Inv o { s with queue := rest } := by
  obtain ⟨hInv0, hcfp⟩ := hInv
  refine ⟨Inv0.mk hInv0.activeEq hInv0.taskNodup hInv0.jobNodup hInv0.idsLt
    ?_ ?_ hInv0.taskOk hInv0.flightTask hInv0.childOk hInv0.parentOk
    hInv0.parentStatus hInv0.parentAdvanced hInv0.parentFailedReason
    hInv0.parentProgressBound hInv0.childCompleted hInv0.completedP
    hInv0.activeLe, hcfp⟩
  · have := hInv0.queueNodup
    rw [hq] at this
    exact (List.nodup_cons.mp this).2
  · intro x hx
    exact hInv0.queueOk x (by rw [hq]; exact List.mem_cons_of_mem i hx)

/-- Starting the runner for a popped queued job preserves the invariant. -/
lemma inv_dispatch {o : Oracle} {s : StoreState} {job : Job}
    (hInv : Inv o s)
    (hj : lookupJob s.jobs job.id = some job)
    (hq : job.status = .queued) (hp0 : job.progress = 0)
    (hmode : job.mode ≠ .mergeParent)
    (hnotin : ∀ x ∈ s.queue, x ≠ job.id)
    (hcap : s.activeCount < MAX_CONCURRENT) :
    Inv o (dispatchJob s job) ∧ StepFrame s (dispatchJob s job) := by
  obtain ⟨hInv0, hcfp⟩ := hInv
  set f : Job → Job :=
    if job.mode = .mergeChild then chDispatch else indDispatch with hfdef
  have hf : StructPres f := by
    by_cases h : job.mode = .mergeChild <;>
      simp only [hfdef, h, if_pos, if_neg, if_true, if_false] <;>
      first
        | exact structPres_chDispatch
        | exact structPres_indDispatch
  have hfj_status : (f job).status = .downloading := by
    by_cases h : job.mode = .mergeChild <;> simp [hfdef, h, chDispatch, indDispatch, updStatus]
  have hfj_prog : (f job).progress = 0 := by
    by_cases h : job.mode = .mergeChild <;>
      simp [hfdef, h, chDispatch, indDispatch, updStatus, stageProgress, roundDiv]
  have hnotc : ∀ c, lookupJob s.jobs job.id = some c → c.status ≠ .completed := by
    intro c hc
    rw [hj] at hc
    cases hc
    rw [hq]
    simp
  have hcomp := @completedFrame_of_update s.jobs job.id f hf hnotc
  have hnotask : ∀ u ∈ s.tasks, u.jobId ≠ job.id :=
    no_task_of_not_active hInv0 hj (by rw [hq]; simp [JobStatus.isActive])
  have hne_done : ∀ i c, lookupJob s.jobs i = some c →
      c.status = .completed ∨ c.status = .failed → i ≠ job.id := by
    intro i c hl hst he
    subst he
    rw [hj] at hl
    cases hl
    rcases hst with hst | hst <;> rw [hq] at hst <;> cases hst
  have hlu_ne : ∀ {i : Nat}, i ≠ job.id →
      lookupJob (updateJob s.jobs job.id f) i = lookupJob s.jobs i :=
    fun h => lookupJob_updateJob_ne hf.id_eq _ h
  have hlu_self : lookupJob (updateJob s.jobs job.id f) job.id = some (f job) :=
    lookupJob_updateJob_of_eq hf hj
  rw [dispatchJob_eq, ← hfdef]
  refine ⟨⟨Inv0.mk ?_ ?_ ?_ ?_ ?_ ?_ ?_ ?_ ?_ ?_ ?_ ?_ ?_ ?_ ?_ ?_ ?_, ?_⟩, ?_⟩
  · -- activeEq
    show s.activeCount + 1 = workerCount (s.tasks ++ [⟨job.id, _⟩])
    rw [workerCount_append, hInv0.activeEq]
    congr 1
    by_cases h : job.mode = .mergeChild <;> simp [h, workerCount, isParentPhase]
  · -- taskNodup
    show ((s.tasks ++ [(⟨job.id, _⟩ : Task)]).map Task.jobId).Nodup
    rw [List.map_append, List.nodup_append]
    refine ⟨hInv0.taskNodup, by simp, ?_⟩
    intro x hx
    rcases List.mem_map.mp hx with ⟨u, hu, he⟩
    simp only [List.map_cons, List.map_nil, List.mem_singleton]
    intro hc
    exact hnotask u hu (he.trans hc)
  · show ((updateJob s.jobs job.id f).map Job.id).Nodup
    rw [updateJob_map_id hf.id_eq]
    exact hInv0.jobNodup
  · show ∀ x ∈ (updateJob s.jobs job.id f).map Job.id, x < s.nextId
    rw [updateJob_map_id hf.id_eq]
    exact hInv0.idsLt
  · exact hInv0.queueNodup
  · -- queueOk
    intro x hx
    obtain ⟨jx, hjx, hx1, hx2, hx3⟩ := hInv0.queueOk x hx
    exact ⟨jx, by rw [hlu_ne (hnotin x hx)]; exact hjx, hx1, hx2, hx3⟩
  · -- taskOk
    intro u hu
    rcases List.mem_append.mp hu with hu | hu
    · obtain ⟨ju, hju, hop⟩ := hInv0.taskOk u hu
      exact ⟨ju, by rw [hlu_ne (hnotask u hu)]; exact hju,
        phaseOk_jobs_congr hcomp hop⟩
    · rcases List.mem_singleton.mp hu with rfl
      refine ⟨f job, hlu_self, ?_⟩
      by_cases h : job.mode = .mergeChild
      · simp only [h, if_pos, if_true]
        exact ⟨by rw [(hf job).2.2.2.1]; exact h, hfj_status, hfj_prog⟩
      · have hmi : job.mode = .individual := by
          cases hm : job.mode
          · rfl
          · exact absurd hm hmode
          · exact absurd hm h
        simp only [h, if_neg, if_false, Bool.false_eq_true]
        exact ⟨by rw [(hf job).2.2.2.1]; exact hmi, hfj_status, hfj_prog⟩
  · -- flightTask
    intro i' j' hl' hact' hmode'
    by_cases hik : i' = job.id
    · subst hik
      refine ⟨⟨job.id,
          if job.mode = .mergeChild then .chDownload else .indDownload⟩,
        List.mem_append_right _ (by simp), rfl, ?_⟩
      by_cases h : job.mode = .mergeChild <;> simp [h, isParentPhase]
    · rw [hlu_ne hik] at hl'
      obtain ⟨u, hu, hui, hup⟩ := hInv0.flightTask i' j' hl' hact' hmode'
      exact ⟨u, List.mem_append_left _ hu, hui, hup⟩
  · exact childOk_update hf hInv0.childOk
  · exact parentOk_update hf hInv0.parentOk
  · -- parentStatus
    intro p' parent' hl hm
    by_cases hik : p' = job.id
    · subst hik
      rw [hlu_self] at hl
      cases hl
      rw [(hf job).2.2.2.1] at hm
      exact absurd hm hmode
    · rw [hlu_ne hik] at hl
      exact hInv0.parentStatus p' parent' hl hm
  · -- parentAdvanced
    intro p' parent' hl hm hst ids hids i' hi'
    by_cases hik : p' = job.id
    · subst hik
      rw [hlu_self] at hl
      cases hl
      rw [(hf job).2.2.2.1] at hm
      exact absurd hm hmode
    · rw [hlu_ne hik] at hl
      obtain ⟨c, hc2, hcst⟩ := hInv0.parentAdvanced p' parent' hl hm hst ids hids i' hi'
      exact ⟨c, by rw [hlu_ne (hne_done i' c hc2 (Or.inl hcst))]; exact hc2, hcst⟩
  · -- parentFailedReason
    intro p' parent' hl hm hst ids hids
    by_cases hik : p' = job.id
    · subst hik
      rw [hlu_self] at hl
      cases hl
      rw [(hf job).2.2.2.1] at hm
      exact absurd hm hmode
    · rw [hlu_ne hik] at hl
      rcases hInv0.parentFailedReason p' parent' hl hm hst ids hids with
        ⟨i', hi', c, hc2, hcst⟩ | hall
      · exact Or.inl ⟨i', hi', c,
          by rw [hlu_ne (hne_done i' c hc2 (Or.inr hcst))]; exact hc2, hcst⟩
      · refine Or.inr fun i' hi' => ?_
        obtain ⟨c, hc2, hcst⟩ := hall i' hi'
        exact ⟨c, by rw [hlu_ne (hne_done i' c hc2 (Or.inl hcst))]; exact hc2, hcst⟩
  · -- parentProgressBound
    intro p' parent' hl hm hst ids hids
    by_cases hik : p' = job.id
    · subst hik
      rw [hlu_self] at hl
      cases hl
      rw [(hf job).2.2.2.1] at hm
      exact absurd hm hmode
    · rw [hlu_ne hik] at hl
      calc parent'.progress
          ≤ roundDiv (completedCount s.jobs ids * 70) ids.length :=
            hInv0.parentProgressBound p' parent' hl hm hst ids hids
        _ ≤ roundDiv (completedCount (updateJob s.jobs job.id f) ids * 70)
              ids.length :=
            roundDiv_le_roundDiv
              (Nat.mul_le_mul_right 70 (completedCount_le_update hf.id_eq hnotc))
  · -- childCompleted
    intro i' j' hl' hm' hst'
    by_cases hik : i' = job.id
    · subst hik
      rw [hlu_self] at hl'
      cases hl'
      rw [hfj_status] at hst'
      cases hst'
    · rw [hlu_ne hik] at hl'
      exact hInv0.childCompleted i' j' hl' hm' hst'
  · -- completedP
    intro i' j' hl' hst'
    by_cases hik : i' = job.id
    · subst hik
      rw [hlu_self] at hl'
      cases hl'
      rw [hfj_status] at hst'
      cases hst'
    · rw [hlu_ne hik] at hl'
      exact hInv0.completedP i' j' hl' hst'
  · -- activeLe
    show s.activeCount + 1 ≤ MAX_CONCURRENT
    omega
  · -- ChildFailCoupling
    intro i' j' hl' hm' hst' p' hpj
    by_cases hik : i' = job.id
    · subst hik
      rw [hlu_self] at hl'
      cases hl'
      rw [hfj_status] at hst'
      cases hst'
    · rw [hlu_ne hik] at hl'
      obtain ⟨parent, hpar, hpst, ids, hids, i'', hi'', c, hc2, hcst, herr⟩ :=
        hcfp i' j' hl' hm' hst' p' hpj
      have hpk : p' ≠ job.id := hne_done p' parent hpar (Or.inr hpst)
      have hck : i'' ≠ job.id := hne_done i'' c hc2 (Or.inr hcst)
      exact ⟨parent, by rw [hlu_ne hpk]; exact hpar, hpst, ids, hids, i'', hi'',
        c, by rw [hlu_ne hck]; exact hc2, hcst, herr⟩
  · -- StepFrame
    intro i' j' hl'
    by_cases hik : i' = job.id
    · subst hik
      rw [hj] at hl'
      cases hl'
      refine ⟨f job, hlu_self, (hf job).1, (hf job).2.1, (hf job).2.2.1,
        (hf job).2.2.2.1, (hf job).2.2.2.2.1, (hf job).2.2.2.2.2.1,
        (hf job).2.2.2.2.2.2, ?_, ?_, ?_⟩
      · rw [hp0, hfj_prog]
      · intro hcst
        rw [hq] at hcst
        cases hcst
      · intro hcst
        rw [hq] at hcst
        cases hcst
    · exact ⟨j', by rw [hlu_ne hik]; exact hl', frameJob_refl j'⟩

/-- The dispatch loop preserves the invariant. -/
lemma inv_processQueueGo {o : Oracle} :
    ∀ (q : List Nat) (s : StoreState), s.queue = q → Inv o s →
      Inv o (processQueueGo q s) ∧ StepFrame s (processQueueGo q s) := by
  intro q
  induction q with
  | nil => exact fun s _ hInv => ⟨hInv, stepFrame_refl s⟩
  | cons i rest ih =>
    intro s hq hInv
    by_cases ha : s.activeCount < MAX_CONCURRENT
    · have hInv1 : Inv o { s with queue := rest } := inv_queue_tail hq hInv
      have hframe1 : StepFrame s { s with queue := rest } :=
        fun i' j' hl => ⟨j', hl, frameJob_refl j'⟩
      rcases hl : lookupJob s.jobs i with _ | job
      · rw [processQueueGo_missing ha hl]
        obtain ⟨hI, hF⟩ := ih { s with queue := rest } rfl hInv1
        exact ⟨hI, stepFrame_trans hframe1 hF⟩
      · obtain ⟨job', hjob', hq1, hq2, hq3⟩ := hInv.1.queueOk i (by rw [hq]; simp)
        rw [hl] at hjob'
        cases hjob'
        rw [processQueueGo_dispatch ha hl hq3]
        have hid : job.id = i := (lookupJob_id hl).1
        have hnotin : ∀ x ∈ ({ s with queue := rest } : StoreState).queue,
            x ≠ job.id := by
          intro x hx
          have hnd := hInv.1.queueNodup
          rw [hq] at hnd
          rw [hid]
          intro he
          subst he
          exact (List.nodup_cons.mp hnd).1 hx
        obtain ⟨hI2, hF2⟩ := inv_dispatch hInv1
          (by rw [hid]; exact hl) hq1 hq2 hq3 hnotin ha
        obtain ⟨hI3, hF3⟩ := ih (dispatchJob { s with queue := rest } job) rfl hI2
        exact ⟨hI3, stepFrame_trans hframe1 (stepFrame_trans hF2 hF3)⟩
    · rw [processQueueGo_stop ha]
      exact ⟨hInv, stepFrame_refl s⟩

lemma inv_processQueue {o : Oracle} {s : StoreState} (hInv : Inv o s) :
    Inv o (processQueue s) ∧ StepFrame s (processQueue s) :=
  inv_processQueueGo s.queue s rfl hInv

/-! ## Preservation: a worker reaching its `finally` -/

lemma updateJob_id (jobs : List Job) (i : Nat) :
    updateJob jobs i (fun j => j) = jobs := by
  unfold updateJob
  induction jobs with
  | nil => rfl
  | cons j0 js ih =>
    simp only [List.map_cons, ih]
    by_cases h : j0.id = i <;> simp [h]

/-- The state right after a worker's terminal job mutation and
`activeCount--`, before the merge check / dispatch loop: the invariant
holds except that a newly failed merge child's parent may not yet be
failed. -/
lemma inv_finish_mid {o : Oracle} {s : StoreState} {t : Task} {f : Job → Job}
    (hInv : Inv o s) (ht : t ∈ s.tasks)
    (hw : isParentPhase t.phase = false)
    (hf : StructPres f)
    (hterm : ∀ j, lookupJob s.jobs t.jobId = some j → phaseOk o s.jobs j t.phase →
      ((f j).status = .completed ∨ (f j).status = .failed)
      ∧ j.progress ≤ (f j).progress
      ∧ ((f j).status = .completed → (f j).progress = 100
          ∧ (j.mode = .mergeChild →
              (f j).result = some ⟨oracleTranscript o t.jobId, ""⟩))) :
    Inv0 o ⟨updateJob s.jobs t.jobId f, s.queue, s.activeCount - 1,
        removeTasks s.tasks t.jobId, s.nextId⟩
    ∧ StepFrame s ⟨updateJob s.jobs t.jobId f, s.queue, s.activeCount - 1,
        removeTasks s.tasks t.jobId, s.nextId⟩
    ∧ (∀ i' j', lookupJob (updateJob s.jobs t.jobId f) i' = some j' →
        j'.mode = .mergeChild → j'.status = .failed →
        ∀ p', j'.parentJobId = some p' → i' = t.jobId
          ∨ CFPAt ⟨updateJob s.jobs t.jobId f, s.queue, s.activeCount - 1,
              removeTasks s.tasks t.jobId, s.nextId⟩ p') := by
  obtain ⟨hInv0, hcfp⟩ := hInv
  obtain ⟨j, hj, hophase⟩ := hInv0.taskOk t ht
  obtain ⟨hact, hmodej⟩ := phaseOk_workerActive hw hophase
  obtain ⟨hterm1, hterm2, hterm3⟩ := hterm j hj hophase
  have hnotc : ∀ c, lookupJob s.jobs t.jobId = some c →
      c.status ≠ .completed := by
    intro c hc
    rw [hj] at hc
    cases hc
    exact (isActive_not_terminal hact).1
  have hcomp := @completedFrame_of_update s.jobs t.jobId f hf hnotc
  have hne_done : ∀ i c, lookupJob s.jobs i = some c →
      c.status = .completed ∨ c.status = .failed → i ≠ t.jobId := by
    intro i c hl hst he
    subst he
    rw [hj] at hl
    cases hl
    rcases hst with hst | hst
    · exact (isActive_not_terminal hact).1 hst
    · exact (isActive_not_terminal hact).2.1 hst
  have hlu_ne : ∀ {i : Nat}, i ≠ t.jobId →
      lookupJob (updateJob s.jobs t.jobId f) i = lookupJob s.jobs i :=
    fun h => lookupJob_updateJob_ne hf.id_eq _ h
  have hlu_self :
      lookupJob (updateJob s.jobs t.jobId f) t.jobId = some (f j) :=
    lookupJob_updateJob_of_eq hf hj
  have hqne : ∀ x ∈ s.queue, x ≠ t.jobId := by
    intro x hx he
    obtain ⟨jx, hjx, hx1, _, _⟩ := hInv0.queueOk x hx
    subst he
    rw [hj] at hjx
    cases hjx
    exact (isActive_not_terminal hact).2.2 hx1
  refine ⟨Inv0.mk ?_ ?_ ?_ ?_ ?_ ?_ ?_ ?_ ?_ ?_ ?_ ?_ ?_ ?_ ?_ ?_ ?_, ?_, ?_⟩
  · -- activeEq
    show s.activeCount - 1 = workerCount (removeTasks s.tasks t.jobId)
    have h := workerCount_remove hInv0.taskNodup ht
    rw [hw] at h
    simp only [Bool.false_eq_true, if_false] at h
    rw [hInv0.activeEq]
    omega
  · exact nodup_removeTasks hInv0.taskNodup
  · show ((updateJob s.jobs t.jobId f).map Job.id).Nodup
    rw [updateJob_map_id hf.id_eq]
    exact hInv0.jobNodup
  · show ∀ x ∈ (updateJob s.jobs t.jobId f).map Job.id, x < s.nextId
    rw [updateJob_map_id hf.id_eq]
    exact hInv0.idsLt
  · exact hInv0.queueNodup
  · -- queueOk
    intro x hx
    obtain ⟨jx, hjx, hx1, hx2, hx3⟩ := hInv0.queueOk x hx
    exact ⟨jx, by rw [hlu_ne (hqne x hx)]; exact hjx, hx1, hx2, hx3⟩
  · -- taskOk
    intro u hu
    obtain ⟨hu, hune⟩ := mem_removeTasks.mp hu
    obtain ⟨ju, hju, hop⟩ := hInv0.taskOk u hu
    exact ⟨ju, by rw [hlu_ne hune]; exact hju, phaseOk_jobs_congr hcomp hop⟩
  · -- flightTask
    intro i' j' hl' hact' hmode'
    by_cases hik : i' = t.jobId
    · subst hik
      rw [hlu_self] at hl'
      cases hl'
      rcases hterm1 with h | h <;> rw [h] at hact' <;>
        simp [JobStatus.isActive] at hact'
    · rw [hlu_ne hik] at hl'
      obtain ⟨u, hu, hui, hup⟩ := hInv0.flightTask i' j' hl' hact' hmode'
      exact ⟨u, mem_removeTasks.mpr ⟨hu, by rw [hui]; exact hik⟩, hui, hup⟩
  · exact childOk_update hf hInv0.childOk
  · exact parentOk_update hf hInv0.parentOk
  · -- parentStatus
    intro p' parent' hl hm
    by_cases hik : p' = t.jobId
    · subst hik
      rw [hlu_self] at hl
      cases hl
      rw [(hf j).2.2.2.1] at hm
      exact absurd hm hmodej
    · rw [hlu_ne hik] at hl
      exact hInv0.parentStatus p' parent' hl hm
  · -- parentAdvanced
    intro p' parent' hl hm hst ids hids i' hi'
    by_cases hik : p' = t.jobId
    · subst hik
      rw [hlu_self] at hl
      cases hl
      rw [(hf j).2.2.2.1] at hm
      exact absurd hm hmodej
    · rw [hlu_ne hik] at hl
      obtain ⟨c, hc2, hcst⟩ := hInv0.parentAdvanced p' parent' hl hm hst ids hids i' hi'
      exact ⟨c, by rw [hlu_ne (hne_done i' c hc2 (Or.inl hcst))]; exact hc2, hcst⟩
  · -- parentFailedReason
    intro p' parent' hl hm hst ids hids
    by_cases hik : p' = t.jobId
    · subst hik
      rw [hlu_self] at hl
      cases hl
      rw [(hf j).2.2.2.1] at hm
      exact absurd hm hmodej
    · rw [hlu_ne hik] at hl
      rcases hInv0.parentFailedReason p' parent' hl hm hst ids hids with
        ⟨i', hi', c, hc2, hcst⟩ | hall
      · exact Or.inl ⟨i', hi', c,
          by rw [hlu_ne (hne_done i' c hc2 (Or.inr hcst))]; exact hc2, hcst⟩
      · refine Or.inr fun i' hi' => ?_
        obtain ⟨c, hc2, hcst⟩ := hall i' hi'
        exact ⟨c, by rw [hlu_ne (hne_done i' c hc2 (Or.inl hcst))]; exact hc2, hcst⟩
  · -- parentProgressBound
    intro p' parent' hl hm hst ids hids
    by_cases hik : p' = t.jobId
    · subst hik
      rw [hlu_self] at hl
      cases hl
      rw [(hf j).2.2.2.1] at hm
      exact absurd hm hmodej
    · rw [hlu_ne hik] at hl
      calc parent'.progress
          ≤ roundDiv (completedCount s.jobs ids * 70) ids.length :=
            hInv0.parentProgressBound p' parent' hl hm hst ids hids
        _ ≤ roundDiv (completedCount (updateJob s.jobs t.jobId f) ids * 70)
              ids.length :=
            roundDiv_le_roundDiv
              (Nat.mul_le_mul_right 70 (completedCount_le_update hf.id_eq hnotc))
  · -- childCompleted
    intro i' j' hl' hm' hst'
    by_cases hik : i' = t.jobId
    · subst hik
      rw [hlu_self] at hl'
      cases hl'
      obtain ⟨h100, hres⟩ := hterm3 hst'
      rw [(hf j).2.2.2.1] at hm'
      exact ⟨hres hm', h100⟩
    · rw [hlu_ne hik] at hl'
      exact hInv0.childCompleted i' j' hl' hm' hst'
  · -- completedP
    intro i' j' hl' hst'
    by_cases hik : i' = t.jobId
    · subst hik
      rw [hlu_self] at hl'
      cases hl'
      exact (hterm3 hst').1
    · rw [hlu_ne hik] at hl'
      exact hInv0.completedP i' j' hl' hst'
  · -- activeLe
    show s.activeCount - 1 ≤ MAX_CONCURRENT
    have := hInv0.activeLe
    omega
  · -- StepFrame
    intro i' j' hl'
    by_cases hik : i' = t.jobId
    · subst hik
      rw [hj] at hl'
      cases hl'
      refine ⟨f j, hlu_self, (hf j).1, (hf j).2.1, (hf j).2.2.1,
        (hf j).2.2.2.1, (hf j).2.2.2.2.1, (hf j).2.2.2.2.2.1,
        (hf j).2.2.2.2.2.2, hterm2, ?_, ?_⟩
      · intro hcst
        exact absurd hcst (isActive_not_terminal hact).1
      · intro hcst
        exact absurd hcst (isActive_not_terminal hact).2.1
    · exact ⟨j', by rw [hlu_ne hik]; exact hl', frameJob_refl j'⟩
  · -- weak coupling
    intro i' j' hl' hm' hst' p' hpj
    by_cases hik : i' = t.jobId
    · exact Or.inl hik
    · refine Or.inr ?_
      rw [hlu_ne hik] at hl'
      obtain ⟨parent', hpar', hpst', ids', hids', i'', hi'', c, hcl, hcst, herr⟩ :=
        hcfp i' j' hl' hm' hst' p' hpj
      have hp'k : p' ≠ t.jobId := hne_done p' parent' hpar' (Or.inr hpst')
      have hi''k : i'' ≠ t.jobId := hne_done i'' c hcl (Or.inr hcst)
      exact ⟨parent', by
          show lookupJob (updateJob s.jobs t.jobId f) p' = some parent'
          rw [hlu_ne hp'k]
          exact hpar',
        hpst', ids', hids', i'', hi'', c, by
          show lookupJob (updateJob s.jobs t.jobId f) i'' = some c
          rw [hlu_ne hi''k]
          exact hcl,
        hcst, herr⟩

/-- `runJob`'s `finally` (terminal mutation, slot release, dispatch loop)
preserves the invariant. -/
lemma inv_finishIndividual {o : Oracle} {s : StoreState} {t : Task}
    {f : Job → Job}
    (hInv : Inv o s) (ht : t ∈ s.tasks)
    (hw : isParentPhase t.phase = false)
    (hf : StructPres f)
    (hind : ∀ j, lookupJob s.jobs t.jobId = some j →
      phaseOk o s.jobs j t.phase → j.mode = .individual)
    (hterm : ∀ j, lookupJob s.jobs t.jobId = some j → phaseOk o s.jobs j t.phase →
      ((f j).status = .completed ∨ (f j).status = .failed)
      ∧ j.progress ≤ (f j).progress
      ∧ ((f j).status = .completed → (f j).progress = 100
          ∧ (j.mode = .mergeChild →
              (f j).result = some ⟨oracleTranscript o t.jobId, ""⟩))) :
    Inv o (finishIndividual { s with tasks := removeTasks s.tasks t.jobId }
        t.jobId f)
    ∧ StepFrame s (finishIndividual { s with tasks := removeTasks s.tasks t.jobId }
        t.jobId f) := by
  obtain ⟨j, hj, hophase⟩ := hInv.1.taskOk t ht
  obtain ⟨hmid, hframe, hweakc⟩ := inv_finish_mid hInv ht hw hf hterm
  have hlu_self :
      lookupJob (updateJob s.jobs t.jobId f) t.jobId = some (f j) :=
    lookupJob_updateJob_of_eq hf hj
  have hcoupling : ChildFailCoupling ⟨updateJob s.jobs t.jobId f, s.queue,
      s.activeCount - 1, removeTasks s.tasks t.jobId, s.nextId⟩ := by
    intro i' j' hl' hm' hst' p' hpj
    rcases hweakc i' j' hl' hm' hst' p' hpj with rfl | h
    · rw [hlu_self] at hl'
      cases hl'
      rw [(hf j).2.2.2.1, hind j hj hophase] at hm'
      cases hm'
    · exact h
  have H := inv_processQueue (s := ⟨updateJob s.jobs t.jobId f, s.queue,
    s.activeCount - 1, removeTasks s.tasks t.jobId, s.nextId⟩) ⟨hmid, hcoupling⟩
  exact ⟨H.1, stepFrame_trans hframe H.2⟩

lemma finishMergeChild_eval {s : StoreState} {i : Nat} {f : Job → Job} {p : Nat}
    (h : (lookupJob (updateJob s.jobs i f) i).bind Job.parentJobId = some p) :
    finishMergeChild s i f =
      processQueue (checkMergeCompletion
        ⟨updateJob s.jobs i f, s.queue, s.activeCount - 1, s.tasks, s.nextId⟩ p) := by
  show processQueue
      (match (lookupJob (updateJob s.jobs i f) i).bind Job.parentJobId with
        | some q => checkMergeCompletion
            ⟨updateJob s.jobs i f, s.queue, s.activeCount - 1, s.tasks, s.nextId⟩ q
        | none =>
            ⟨updateJob s.jobs i f, s.queue, s.activeCount - 1, s.tasks, s.nextId⟩)
    = _
  rw [h]

/-- `runMergeChild`'s `finally` (terminal mutation, slot release, merge
check, dispatch loop) preserves the invariant. -/
lemma inv_finishMergeChild {o : Oracle} {s : StoreState} {t : Task}
    {f : Job → Job}
    (hInv : Inv o s) (ht : t ∈ s.tasks)
    (hw : isParentPhase t.phase = false)
    (hf : StructPres f)
    (hch : ∀ j, lookupJob s.jobs t.jobId = some j →
      phaseOk o s.jobs j t.phase → j.mode = .mergeChild)
    (hterm : ∀ j, lookupJob s.jobs t.jobId = some j → phaseOk o s.jobs j t.phase →
      ((f j).status = .completed ∨ (f j).status = .failed)
      ∧ j.progress ≤ (f j).progress
      ∧ ((f j).status = .completed → (f j).progress = 100
          ∧ (j.mode = .mergeChild →
              (f j).result = some ⟨oracleTranscript o t.jobId, ""⟩))) :
    Inv o (finishMergeChild { s with tasks := removeTasks s.tasks t.jobId }
        t.jobId f)
    ∧ StepFrame s (finishMergeChild { s with tasks := removeTasks s.tasks t.jobId }
        t.jobId f) := by
  obtain ⟨j, hj, hophase⟩ := hInv.1.taskOk t ht
  obtain ⟨hact, hmodej⟩ := phaseOk_workerActive hw hophase
  have hjmode : j.mode = .mergeChild := hch j hj hophase
  obtain ⟨p, parent, ids, hpj, hpar, hpm, hcids, hmem⟩ :=
    hInv.1.childOk t.jobId j hj hjmode
  obtain ⟨hmid, hframe, hweakc⟩ := inv_finish_mid hInv ht hw hf hterm
  have hpk : p ≠ t.jobId := by
    intro he
    rw [he, hj] at hpar
    cases hpar
    rw [hjmode] at hpm
    cases hpm
  have hlu_ne : ∀ {i : Nat}, i ≠ t.jobId →
      lookupJob (updateJob s.jobs t.jobId f) i = lookupJob s.jobs i :=
    fun h => lookupJob_updateJob_ne hf.id_eq _ h
  have hlu_self :
      lookupJob (updateJob s.jobs t.jobId f) t.jobId = some (f j) :=
    lookupJob_updateJob_of_eq hf hj
  set mid : StoreState := ⟨updateJob s.jobs t.jobId f, s.queue,
    s.activeCount - 1, removeTasks s.tasks t.jobId, s.nextId⟩ with hmiddef
  have hbind :
      (lookupJob (updateJob ({ s with tasks := removeTasks s.tasks t.jobId }
          : StoreState).jobs t.jobId f) t.jobId).bind Job.parentJobId = some p := by
    show (lookupJob (updateJob s.jobs t.jobId f) t.jobId).bind Job.parentJobId
      = some p
    rw [hlu_self]
    show (f j).parentJobId = some p
    rw [(hf j).2.2.2.2.1]
    exact hpj
  have heq : finishMergeChild { s with tasks := removeTasks s.tasks t.jobId }
      t.jobId f = processQueue (checkMergeCompletion mid p) :=
    finishMergeChild_eval hbind
  have hne_done : ∀ i c, lookupJob s.jobs i = some c →
      c.status = .completed ∨ c.status = .failed → i ≠ t.jobId := by
    intro i c hl hst he
    subst he
    rw [hj] at hl
    cases hl
    rcases hst with hst | hst
    · exact (isActive_not_terminal hact).1 hst
    · exact (isActive_not_terminal hact).2.1 hst
  have hweak2 : ∀ i' j', lookupJob mid.jobs i' = some j' →
      j'.mode = .mergeChild → j'.status = .failed →
      ∀ p', j'.parentJobId = some p' → p' = p ∨ CFPAt mid p' := by
    intro i' j' hl' hm' hst' p' hpj'
    rcases hweakc i' j' hl' hm' hst' p' hpj' with rfl | h
    · rw [hlu_self] at hl'
      cases hl'
      rw [(hf j).2.2.2.2.1, hpj] at hpj'
      cases hpj'
      exact Or.inl rfl
    · exact Or.inr h
  have hpstat : ∀ parent', lookupJob mid.jobs p = some parent' →
      parent'.mode = .mergeParent
      ∧ (parent'.status = .queued ∨ (parent'.status = .failed
        ∧ ∃ ids', parent'.childJobIds = some ids'
          ∧ ∃ i ∈ ids', ∃ c, lookupJob mid.jobs i = some c
            ∧ c.status = .failed)) := by
    intro parent' hl'
    have hl2 : lookupJob (updateJob s.jobs t.jobId f) p = some parent' := hl'
    rw [hlu_ne hpk, hpar] at hl2
    cases hl2
    refine ⟨hpm, ?_⟩
    have hnadv : ¬ (parent.status = .generating ∨ parent.status = .completed) := by
      intro hst
      obtain ⟨c, hc2, hcst⟩ :=
        hInv.1.parentAdvanced p parent hpar hpm hst ids hcids t.jobId hmem
      rw [hj] at hc2
      cases hc2
      exact (isActive_not_terminal hact).1 hcst
    rcases hInv.1.parentStatus p parent hpar hpm with h | h | h | h
    · exact Or.inl h
    · exact absurd (Or.inl h) hnadv
    · exact absurd (Or.inr h) hnadv
    · refine Or.inr ⟨h, ids, hcids, ?_⟩
      rcases hInv.1.parentFailedReason p parent hpar hpm h ids hcids with
        ⟨i'', hi'', c, hc2, hcst⟩ | hall
      · refine ⟨i'', hi'', c, ?_, hcst⟩
        show lookupJob (updateJob s.jobs t.jobId f) i'' = some c
        rw [hlu_ne (hne_done i'' c hc2 (Or.inr hcst))]
        exact hc2
      · obtain ⟨c, hc2, hcst⟩ := hall t.jobId hmem
        rw [hj] at hc2
        cases hc2
        exact absurd hcst (isActive_not_terminal hact).1
  have HC := inv_check (o := o) (s := mid) (p := p) hmid hweak2 hpstat
  have HQ := inv_processQueue HC.1
  rw [heq]
  exact ⟨HQ.1, stepFrame_trans hframe (stepFrame_trans HC.2 HQ.2)⟩

/-! ## Preservation: the parent synthesis resuming -/

/-- `createPresentation` settling for a suspended `parentGenerate` task:
the parent is set completed (progress 100) or failed in place. -/
lemma inv_parentGen_step {o : Oracle} {s : StoreState} {t : Task}
    {g : Job → Job} {combined : String}
    (hInv : Inv o s) (ht : t ∈ s.tasks)
    (hph : t.phase = .parentGenerate combined)
    (hg : StructPres g)
    (hgstat : ∀ q : Job, ((g q).status = .completed ∧ (g q).progress = 100)
      ∨ ((g q).status = .failed ∧ (g q).progress = q.progress)) :
    Inv o (setJob { s with tasks := removeTasks s.tasks t.jobId } t.jobId g)
    ∧ StepFrame s
        (setJob { s with tasks := removeTasks s.tasks t.jobId } t.jobId g) := by
  obtain ⟨hInv0, hcfp⟩ := hInv
  obtain ⟨j, hj, hophase⟩ := hInv0.taskOk t ht
  rw [hph] at hophase
  obtain ⟨hm, hstj, hprj, ids, children, hcids, hall, hallc, hcomb⟩ := hophase
  have hw : isParentPhase t.phase = true := by rw [hph]; rfl
  set sR : StoreState := { s with tasks := removeTasks s.tasks t.jobId }
    with hsRdef
  have hInv0R : Inv0 o sR := by
    refine Inv0.mk ?_ ?_ hInv0.jobNodup hInv0.idsLt hInv0.queueNodup
      hInv0.queueOk ?_ ?_ hInv0.childOk hInv0.parentOk hInv0.parentStatus
      hInv0.parentAdvanced hInv0.parentFailedReason hInv0.parentProgressBound
      hInv0.childCompleted hInv0.completedP hInv0.activeLe
    · show s.activeCount = workerCount (removeTasks s.tasks t.jobId)
      have h := workerCount_remove hInv0.taskNodup ht
      rw [hw] at h
      simp only [if_true] at h
      rw [hInv0.activeEq]
      omega
    · exact nodup_removeTasks hInv0.taskNodup
    · intro u hu
      exact hInv0.taskOk u (mem_removeTasks.mp hu).1
    · intro i' j' hl' hact' hmode'
      obtain ⟨u, hu, hui, hup⟩ := hInv0.flightTask i' j' hl' hact' hmode'
      refine ⟨u, mem_removeTasks.mpr ⟨hu, ?_⟩, hui, hup⟩
      rw [hui]
      intro he
      rw [he, hj] at hl'
      cases hl'
      exact hmode' hm
  have hnc : j.status ≠ .completed := by rw [hstj]; simp
  have hnotask : ∀ u ∈ sR.tasks, u.jobId ≠ t.jobId := by
    intro u hu
    exact (mem_removeTasks.mp hu).2
  have hchildren : ∀ i ∈ ids, ∃ c, lookupJob s.jobs i = some c
      ∧ c.status = .completed := by
    intro i hi
    obtain ⟨c, hcmem, hcl⟩ := lookupAll_mem hall i hi
    exact ⟨c, hcl, (hallc c hcmem).1⟩
  have H := @inv_parent_update o sR t.jobId j g [] hInv0R hj hg hm hnc hnotask
    (by
      rcases hgstat j with ⟨h1, h2⟩ | ⟨h1, h2⟩
      · rw [h2, hprj]
        omega
      · rw [h2])
    (by
      rcases hgstat j with ⟨h1, _⟩ | ⟨h1, _⟩
      · exact Or.inr (Or.inr (Or.inl h1))
      · exact Or.inr (Or.inr (Or.inr h1)))
    (by
      intro hfk
      rw [hstj] at hfk
      cases hfk)
    (by
      intro hcst
      rcases hgstat j with ⟨_, h2⟩ | ⟨h1, _⟩
      · exact h2
      · rw [h1] at hcst
        cases hcst)
    (by
      intro _ ids' hids'
      rw [hcids] at hids'
      cases hids'
      exact hchildren)
    (by
      intro _ ids' hids'
      rw [hcids] at hids'
      cases hids'
      exact Or.inr hchildren)
    (by
      intro hcst
      rcases hgstat j with ⟨h1, _⟩ | ⟨h1, _⟩ <;> rw [h1] at hcst <;> cases hcst)
    (fun u hu => absurd hu (List.not_mem_nil u))
    (fun u hu => absurd hu (List.not_mem_nil u))
    (by simp)
  rw [List.append_nil] at H
  obtain ⟨HI0, HF⟩ := H
  have hlu_ne : ∀ {i : Nat}, i ≠ t.jobId →
      lookupJob (updateJob s.jobs t.jobId g) i = lookupJob s.jobs i :=
    fun h => lookupJob_updateJob_ne hg.id_eq _ h
  have hlu_self :
      lookupJob (updateJob s.jobs t.jobId g) t.jobId = some (g j) :=
    lookupJob_updateJob_of_eq hg hj
  have hcfpF : ChildFailCoupling
      (setJob sR t.jobId g) := by
    intro i' j' hl' hm' hst' p' hpj'
    have hl2 : lookupJob (updateJob s.jobs t.jobId g) i' = some j' := hl'
    have hi'ne : i' ≠ t.jobId := by
      intro he
      rw [he, hlu_self] at hl2
      cases hl2
      rw [(hg j).2.2.2.1, hm] at hm'
      cases hm'
    rw [hlu_ne hi'ne] at hl2
    obtain ⟨parent', hpar', hpst', ids', hids', i'', hi'', c, hcl, hcst, herr⟩ :=
      hcfp i' j' hl2 hm' hst' p' hpj'
    have hp'ne : p' ≠ t.jobId := by
      intro he
      rw [he, hj] at hpar'
      cases hpar'
      rw [hstj] at hpst'
      cases hpst'
    have hi''ne : i'' ≠ t.jobId := by
      intro he
      rw [he, hj] at hcl
      cases hcl
      rw [hstj] at hcst
      cases hcst
    exact ⟨parent', by
        show lookupJob (updateJob s.jobs t.jobId g) p' = some parent'
        rw [hlu_ne hp'ne]
        exact hpar',
      hpst', ids', hids', i'', hi'', c, by
        show lookupJob (updateJob s.jobs t.jobId g) i'' = some c
        rw [hlu_ne hi''ne]
        exact hcl,
      hcst, herr⟩
  exact ⟨⟨HI0, hcfpF⟩, HF⟩

/-! ## Preservation: resuming any suspended task -/

lemma resumeTask_none {o : Oracle} {s : StoreState} {i : Nat}
    (h : s.tasks.find? (fun t => t.jobId == i) = none) :
    resumeTask o s i = s := by
  simp only [resumeTask, h]

lemma resumeTask_some {o : Oracle} {s : StoreState} {i : Nat} {t : Task}
    (h : s.tasks.find? (fun t => t.jobId == i) = some t) :
    resumeTask o s i
      = stepTask o { s with tasks := s.tasks.filter fun u => !(u.jobId == i) } t := by
  simp only [resumeTask, h]

lemma structPres_id : StructPres (fun j => j) :=
  fun _ => ⟨rfl, rfl, rfl, rfl, rfl, rfl, rfl⟩

set_option maxHeartbeats 2000000 in
/-- Resuming a task (any suspension point, any remote outcome) preserves
the invariant and the frame conditions. -/
lemma inv_resumeTask {o : Oracle} {s : StoreState} (i : Nat) (hInv : Inv o s) :
    Inv o (resumeTask o s i) ∧ StepFrame s (resumeTask o s i) := by
  rcases hfind : s.tasks.find? (fun t => t.jobId == i) with _ | ⟨tid, ph⟩
  · rw [resumeTask_none hfind]
    exact ⟨hInv, stepFrame_refl s⟩
  · obtain ⟨ht, hti⟩ := findTask_some hfind
    have hti' : tid = i := hti
    subst hti'
    rw [resumeTask_some hfind]
    cases ph with
    | indDownload =>
      rcases hdl : (o tid).download with e | v
      · simp only [stepTask, hdl]
        exact inv_finishIndividual hInv ht rfl (structPres_failIndividual e)
          (fun j hj hop => hop.1)
          (by
            intro j hj hop
            refine ⟨Or.inr rfl, le_refl _, ?_⟩
            intro hcst
            cases hcst)
      · simp only [stepTask, hdl]
        exact inv_continue hInv ht structPres_indDownloadDone rfl rfl
          (by
            intro j hj hop
            refine ⟨⟨hop.1, rfl, by show stageProgress 30 40 30 = 42; decide⟩,
              rfl, ?_⟩
            rw [hop.2.2]
            exact Nat.zero_le _)
    | indTranscribe =>
      rcases htr : (o tid).transcribe with e | tr
      · simp only [stepTask, htr]
        have H := @inv_continue o s ⟨tid, .indTranscribe⟩ (fun j => j)
          (.indCleanupErr e) hInv ht structPres_id rfl rfl
          (by
            intro j hj hop
            exact ⟨⟨hop.1, by rw [hop.2.1]; rfl⟩, by rw [hop.2.1]; rfl, le_refl _⟩)
        rw [updateJob_id] at H
        exact H
      · simp only [stepTask, htr]
        exact inv_continue hInv ht structPres_indTranscribeDone rfl rfl
          (by
            intro j hj hop
            refine ⟨⟨hop.1, rfl, by show stageProgress 30 40 100 = 70; decide,
              ?_⟩, rfl, ?_⟩
            · show tr = oracleTranscript o j.id
              rw [(lookupJob_id hj).1]
              unfold oracleTranscript
              rw [htr]
            · rw [hop.2.2]
              show (42 : Nat) ≤ stageProgress 30 40 100
              decide)
    | indCleanupOk tr =>
      rcases hcl : (o tid).cleanup with ce | v
      · simp only [stepTask, hcl]
        have H := @inv_continue o s ⟨tid, .indCleanupOk tr⟩ (fun j => j)
          (.indCleanupTwice ce)
          hInv ht structPres_id rfl rfl
          (by
            intro j hj hop
            exact ⟨⟨hop.1, by rw [hop.2.1]; rfl⟩, by rw [hop.2.1]; rfl, le_refl _⟩)
        rw [updateJob_id] at H
        exact H
      · simp only [stepTask, hcl]
        exact inv_continue hInv ht structPres_indGenerateStart rfl rfl
          (by
            intro j hj hop
            refine ⟨⟨hop.1, rfl, by show stageProgress 70 30 30 = 79; decide,
              ?_⟩, rfl, ?_⟩
            · show tr = oracleTranscript o j.id
              exact hop.2.2.2
            · rw [hop.2.2.1]
              show (70 : Nat) ≤ stageProgress 70 30 30
              decide)
    | indCleanupErr e =>
      simp only [stepTask]
      exact inv_finishIndividual hInv ht rfl (structPres_failIndividual e)
        (fun j hj hop => hop.1)
        (by
          intro j hj hop
          refine ⟨Or.inr rfl, le_refl _, ?_⟩
          intro hcst
          cases hcst)
    | indCleanupTwice e =>
      simp only [stepTask]
      exact inv_finishIndividual hInv ht rfl (structPres_failIndividual e)
        (fun j hj hop => hop.1)
        (by
          intro j hj hop
          refine ⟨Or.inr rfl, le_refl _, ?_⟩
          intro hcst
          cases hcst)
    | indGenerate tr =>
      rcases hgen : (o tid).generate with e | url
      · simp only [stepTask, hgen]
        have H := @inv_continue o s ⟨tid, .indGenerate tr⟩ (fun j => j)
          (.indCleanupErr e)
          hInv ht structPres_id rfl rfl
          (by
            intro j hj hop
            exact ⟨⟨hop.1, by rw [hop.2.1]; rfl⟩, by rw [hop.2.1]; rfl, le_refl _⟩)
        rw [updateJob_id] at H
        exact H
      · simp only [stepTask, hgen]
        exact inv_finishIndividual hInv ht rfl (structPres_indComplete tr url)
          (fun j hj hop => hop.1)
          (by
            intro j hj hop
            refine ⟨Or.inl rfl, ?_, fun _ => ⟨rfl, ?_⟩⟩
            · rw [hop.2.2.1]
              show (79 : Nat) ≤ 100
              decide
            · intro hmc
              rw [hop.1] at hmc
              cases hmc)
    | chDownload =>
      rcases hdl : (o tid).download with e | v
      · simp only [stepTask, hdl]
        exact inv_finishMergeChild hInv ht rfl (structPres_failChild e)
          (fun j hj hop => hop.1)
          (by
            intro j hj hop
            refine ⟨Or.inr rfl, le_refl _, ?_⟩
            intro hcst
            cases hcst)
      · simp only [stepTask, hdl]
        exact inv_continue hInv ht structPres_chDownloadDone rfl rfl
          (by
            intro j hj hop
            refine ⟨⟨hop.1, rfl, by show stageProgress 50 50 30 = 65; decide⟩,
              rfl, ?_⟩
            rw [hop.2.2]
            exact Nat.zero_le _)
    | chTranscribe =>
      rcases htr : (o tid).transcribe with e | tr
      · simp only [stepTask, htr]
        have H := @inv_continue o s ⟨tid, .chTranscribe⟩ (fun j => j)
          (.chCleanupErr e)
          hInv ht structPres_id rfl rfl
          (by
            intro j hj hop
            exact ⟨⟨hop.1, by rw [hop.2.1]; rfl⟩, by rw [hop.2.1]; rfl, le_refl _⟩)
        rw [updateJob_id] at H
        exact H
      · simp only [stepTask, htr]
        exact inv_continue hInv ht structPres_chTranscribeDone rfl rfl
          (by
            intro j hj hop
            refine ⟨⟨hop.1, rfl, by show stageProgress 50 50 100 = 100; decide,
              ?_⟩, rfl, ?_⟩
            · show tr = oracleTranscript o j.id
              rw [(lookupJob_id hj).1]
              unfold oracleTranscript
              rw [htr]
            · rw [hop.2.2]
              show (65 : Nat) ≤ stageProgress 50 50 100
              decide)
    | chCleanupOk tr =>
      rcases hcl : (o tid).cleanup with ce | v
      · simp only [stepTask, hcl]
        have H := @inv_continue o s ⟨tid, .chCleanupOk tr⟩ (fun j => j)
          (.chCleanupTwice ce)
          hInv ht structPres_id rfl rfl
          (by
            intro j hj hop
            exact ⟨⟨hop.1, by rw [hop.2.1]; rfl⟩, by rw [hop.2.1]; rfl, le_refl _⟩)
        rw [updateJob_id] at H
        exact H
      · simp only [stepTask, hcl]
        exact inv_finishMergeChild hInv ht rfl (structPres_chComplete tr)
          (fun j hj hop => hop.1)
          (by
            intro j hj hop
            refine ⟨Or.inl rfl, ?_, fun _ => ⟨rfl, fun _ => ?_⟩⟩
            · rw [hop.2.2.1]
              exact le_refl _
            · show (some ⟨tr, ""⟩ : Option JobResult)
                = some ⟨oracleTranscript o tid, ""⟩
              rw [hop.2.2.2, (lookupJob_id hj).1])
    | chCleanupErr e =>
      simp only [stepTask]
      exact inv_finishMergeChild hInv ht rfl (structPres_failChild e)
        (fun j hj hop => hop.1)
        (by
          intro j hj hop
          refine ⟨Or.inr rfl, le_refl _, ?_⟩
          intro hcst
          cases hcst)
    | chCleanupTwice e =>
      simp only [stepTask]
      exact inv_finishMergeChild hInv ht rfl (structPres_failChild e)
        (fun j hj hop => hop.1)
        (by
          intro j hj hop
          refine ⟨Or.inr rfl, le_refl _, ?_⟩
          intro hcst
          cases hcst)
    | parentGenerate combined =>
      rcases hgen : (o tid).generate with e | url
      · simp only [stepTask, hgen]
        exact inv_parentGen_step hInv ht rfl (structPres_parentFail e)
          (fun q => Or.inr ⟨rfl, rfl⟩)
      · simp only [stepTask, hgen]
        exact inv_parentGen_step hInv ht rfl
          (structPres_parentComplete combined url)
          (fun q => Or.inl ⟨rfl, rfl⟩)

/-! ## Preservation: submissions -/

lemma lookupJob_append_cases {jobs more : List Job} {i : Nat} {j : Job}
    (h : lookupJob (jobs ++ more) i = some j) :
    lookupJob jobs i = some j
    ∨ (lookupJob jobs i = none ∧ lookupJob more i = some j) := by
  rcases hl : lookupJob jobs i with _ | j0
  · rw [lookupJob_append_none hl] at h
    exact Or.inr ⟨rfl, h⟩
  · have h2 := (lookupJob_append_left hl).symm.trans h
    obtain rfl := Option.some.inj h2
    exact Or.inl rfl

/-- Adding one fresh queued `individual` job (one iteration of `submit`'s
loop) preserves the invariant. -/
lemma inv_submitOne {o : Oracle} {s : StoreState} {url : String}
    {keys : ApiKeys} (hInv : Inv o s) :
    Inv o ⟨s.jobs ++ [mkIndividualJob s.nextId url keys],
        s.queue ++ [s.nextId], s.activeCount, s.tasks, s.nextId + 1⟩
    ∧ StepFrame s ⟨s.jobs ++ [mkIndividualJob s.nextId url keys],
        s.queue ++ [s.nextId], s.activeCount, s.tasks, s.nextId + 1⟩ := by
  obtain ⟨hInv0, hcfp⟩ := hInv
  set N : Job := mkIndividualJob s.nextId url keys with hNdef
  have hold : ∀ {i : Nat} {c : Job}, lookupJob s.jobs i = some c →
      lookupJob (s.jobs ++ [N]) i = some c := fun h => lookupJob_append_left h
  have hN : lookupJob (s.jobs ++ [N]) s.nextId = some N := by
    rw [lookupJob_append_none (lookupJob_none_of_ge hInv0.idsLt (le_refl _))]
    simp [lookupJob, List.find?, hNdef, mkIndividualJob]
  have hcases : ∀ {i : Nat} {j : Job}, lookupJob (s.jobs ++ [N]) i = some j →
      lookupJob s.jobs i = some j ∨ (j = N ∧ i = s.nextId) := by
    intro i j h
    rcases lookupJob_append_cases h with h | ⟨_, h2⟩
    · exact Or.inl h
    · refine Or.inr ?_
      have hid := lookupJob_id h2
      rcases List.mem_singleton.mp hid.2 with rfl
      exact ⟨rfl, by rw [← hid.1]; rfl⟩
  have hqlt : ∀ x ∈ s.queue, x < s.nextId := by
    intro x hx
    obtain ⟨j, hj, _⟩ := hInv0.queueOk x hx
    have := lookupJob_id hj
    rw [← this.1]
    exact hInv0.idsLt j.id (List.mem_map_of_mem Job.id this.2)
  have hcomp : ∀ i c, lookupJob s.jobs i = some c → c.status = .completed →
      lookupJob (s.jobs ++ [N]) i = some c := fun i c h _ => hold h
  refine ⟨⟨Inv0.mk ?_ ?_ ?_ ?_ ?_ ?_ ?_ ?_ ?_ ?_ ?_ ?_ ?_ ?_ ?_ ?_ ?_, ?_⟩, ?_⟩
  · exact hInv0.activeEq
  · exact hInv0.taskNodup
  · -- jobNodup
    show ((s.jobs ++ [N]).map Job.id).Nodup
    rw [List.map_append]
    refine List.nodup_append.mpr ⟨hInv0.jobNodup, by simp, ?_⟩
    intro x hx
    have := hInv0.idsLt x hx
    simp only [List.map_cons, List.map_nil, List.mem_singleton]
    show x ≠ s.nextId
    omega
  · -- idsLt
    intro x hx
    show x < s.nextId + 1
    rw [List.map_append] at hx
    rcases List.mem_append.mp hx with hx | hx
    · have := hInv0.idsLt x hx
      omega
    · simp only [List.map_cons, List.map_nil, List.mem_singleton] at hx
      have hx2 : x = s.nextId := hx
      omega
  · -- queueNodup
    refine List.nodup_append.mpr ⟨hInv0.queueNodup, by simp, ?_⟩
    intro x hx
    have := hqlt x hx
    simp only [List.mem_singleton]
    omega
  · -- queueOk
    intro x hx
    rcases List.mem_append.mp hx with hx | hx
    · obtain ⟨j, hj, h1, h2, h3⟩ := hInv0.queueOk x hx
      exact ⟨j, hold hj, h1, h2, h3⟩
    · rcases List.mem_singleton.mp hx with rfl
      exact ⟨N, hN, rfl, rfl, by simp [hNdef, mkIndividualJob]⟩
  · -- taskOk
    intro u hu
    obtain ⟨j, hj, hop⟩ := hInv0.taskOk u hu
    exact ⟨j, hold hj, phaseOk_jobs_congr hcomp hop⟩
  · -- flightTask
    intro i' j' hl' hact' hmode'
    rcases hcases hl' with hl2 | ⟨rfl, rfl⟩
    · exact hInv0.flightTask i' j' hl2 hact' hmode'
    · simp [hNdef, mkIndividualJob, JobStatus.isActive] at hact'
  · -- childOk
    intro i' j' hl' hm'
    rcases hcases hl' with hl2 | ⟨rfl, rfl⟩
    · obtain ⟨p, parent, ids, h1, h2, h3, h4, h5⟩ := hInv0.childOk i' j' hl2 hm'
      exact ⟨p, parent, ids, h1, hold h2, h3, h4, h5⟩
    · simp [hNdef, mkIndividualJob] at hm'
  · -- parentOk
    intro p parent hl hm
    rcases hcases hl with hl2 | ⟨rfl, rfl⟩
    · obtain ⟨ids, h1, h2, h3⟩ := hInv0.parentOk p parent hl2 hm
      refine ⟨ids, h1, h2, fun i hi => ?_⟩
      obtain ⟨c, hc1, hc2, hc3⟩ := h3 i hi
      exact ⟨c, hold hc1, hc2, hc3⟩
    · simp [hNdef, mkIndividualJob] at hm
  · -- parentStatus
    intro p parent hl hm
    rcases hcases hl with hl2 | ⟨rfl, rfl⟩
    · exact hInv0.parentStatus p parent hl2 hm
    · simp [hNdef, mkIndividualJob] at hm
  · -- parentAdvanced
    intro p parent hl hm hst ids hids i' hi'
    rcases hcases hl with hl2 | ⟨rfl, rfl⟩
    · obtain ⟨c, hc1, hc2⟩ := hInv0.parentAdvanced p parent hl2 hm hst ids hids i' hi'
      exact ⟨c, hold hc1, hc2⟩
    · simp [hNdef, mkIndividualJob] at hm
  · -- parentFailedReason
    intro p parent hl hm hst ids hids
    rcases hcases hl with hl2 | ⟨rfl, rfl⟩
    · rcases hInv0.parentFailedReason p parent hl2 hm hst ids hids with
        ⟨i', hi', c, hc1, hc2⟩ | hall
      · exact Or.inl ⟨i', hi', c, hold hc1, hc2⟩
      · refine Or.inr fun i' hi' => ?_
        obtain ⟨c, hc1, hc2⟩ := hall i' hi'
        exact ⟨c, hold hc1, hc2⟩
    · simp [hNdef, mkIndividualJob] at hm
  · -- parentProgressBound
    intro p parent hl hm hst ids hids
    rcases hcases hl with hl2 | ⟨rfl, rfl⟩
    · obtain ⟨ids0, hids0, _, hres⟩ := hInv0.parentOk p parent hl2 hm
      rw [hids] at hids0
      cases hids0
      have hcc : completedCount (s.jobs ++ [N]) ids = completedCount s.jobs ids := by
        refine completedCount_congr fun i hi => ?_
        obtain ⟨c, hc1, _⟩ := hres i hi
        rw [hold hc1, hc1]
      rw [hcc]
      exact hInv0.parentProgressBound p parent hl2 hm hst ids hids
    · simp [hNdef, mkIndividualJob] at hm
  · -- childCompleted
    intro i' j' hl' hm' hst'
    rcases hcases hl' with hl2 | ⟨rfl, rfl⟩
    · exact hInv0.childCompleted i' j' hl2 hm' hst'
    · simp [hNdef, mkIndividualJob] at hm'
  · -- completedP
    intro i' j' hl' hst'
    rcases hcases hl' with hl2 | ⟨rfl, rfl⟩
    · exact hInv0.completedP i' j' hl2 hst'
    · simp [hNdef, mkIndividualJob] at hst'
  · -- activeLe
    exact hInv0.activeLe
  · -- coupling
    intro i' j' hl' hm' hst' p' hpj
    rcases hcases hl' with hl2 | ⟨rfl, rfl⟩
    · obtain ⟨parent, h1, h2, ids, h3, i'', h4, c, h5, h6, h7⟩ :=
        hcfp i' j' hl2 hm' hst' p' hpj
      exact ⟨parent, hold h1, h2, ids, h3, i'', h4, c, hold h5, h6, h7⟩
    · simp [hNdef, mkIndividualJob] at hm'
  · -- StepFrame
    intro i' j' hl'
    exact ⟨j', hold hl', frameJob_refl j'⟩

/-- `submit` preserves the invariant. -/
lemma inv_submit {o : Oracle} {s : StoreState} {urls : List String}
    {keys : ApiKeys} (hInv : Inv o s) :
    Inv o (submit s urls keys) ∧ StepFrame s (submit s urls keys) := by
  have hfold : ∀ (us : List String) (st : StoreState), Inv o st →
      Inv o (us.foldl (fun st url =>
        { st with
          jobs := st.jobs ++ [mkIndividualJob st.nextId url keys]
          queue := st.queue ++ [st.nextId]
          nextId := st.nextId + 1 }) st)
      ∧ StepFrame st (us.foldl (fun st url =>
        { st with
          jobs := st.jobs ++ [mkIndividualJob st.nextId url keys]
          queue := st.queue ++ [st.nextId]
          nextId := st.nextId + 1 }) st) := by
    intro us
    induction us with
    | nil => exact fun st h => ⟨h, stepFrame_refl st⟩
    | cons u rest ih =>
      intro st h
      have h1 := @inv_submitOne o st u keys h
      have h2 := ih _ h1.1
      exact ⟨h2.1, stepFrame_trans h1.2 h2.2⟩
  obtain ⟨h1, h2⟩ := hfold urls s hInv
  have H := inv_processQueue h1
  exact ⟨H.1, stepFrame_trans h2 H.2⟩

lemma mkChildren_mem {keys : ApiKeys} {P : Nat} :
    ∀ {idStart : Nat} {urls : List String} {c : Job},
      c ∈ mkChildren keys P idStart urls →
      c.mode = .mergeChild ∧ c.parentJobId = some P ∧ c.status = .queued
      ∧ c.progress = 0 ∧ idStart ≤ c.id ∧ c.id < idStart + urls.length := by
  intro idStart urls
  induction urls generalizing idStart with
  | nil => intro c hc; cases hc
  | cons u rest ih =>
    intro c hc
    rcases List.mem_cons.mp hc with rfl | hc
    · refine ⟨rfl, rfl, rfl, rfl, le_refl _, ?_⟩
      show idStart < idStart + (u :: rest).length
      simp only [List.length_cons]
      omega
    · obtain ⟨h1, h2, h3, h4, h5, h6⟩ := ih hc
      refine ⟨h1, h2, h3, h4, by omega, ?_⟩
      show c.id < idStart + (u :: rest).length
      simp only [List.length_cons]
      omega

lemma mkChildren_ids_nodup {keys : ApiKeys} {P : Nat} :
    ∀ (idStart : Nat) (urls : List String),
      ((mkChildren keys P idStart urls).map Job.id).Nodup := by
  intro idStart urls
  induction urls generalizing idStart with
  | nil => simp [mkChildren]
  | cons u rest ih =>
    simp only [mkChildren, List.map_cons]
    refine List.nodup_cons.mpr ⟨?_, ih (idStart + 1)⟩
    intro hmem
    rcases List.mem_map.mp hmem with ⟨c, hc, he⟩
    have hb := (mkChildren_mem hc).2.2.2.2.1
    have he2 : c.id = idStart := he
    omega

/-- `submitMerge` preserves the invariant. -/
lemma inv_submitMerge {o : Oracle} {s : StoreState} {urls : List String}
    {keys : ApiKeys} (hInv : Inv o s) :
    Inv o (submitMerge s urls keys) ∧ StepFrame s (submitMerge s urls keys) := by
  obtain ⟨hInv0, hcfp⟩ := hInv
  set P : Nat := s.nextId + urls.length with hPdef
  set children : List Job := mkChildren keys P s.nextId urls with hchdef
  set parent : Job := mkMergeParent P urls.length keys (children.map Job.id)
    with hpdef
  have hchm : ∀ c ∈ children, c.mode = .mergeChild ∧ c.parentJobId = some P
      ∧ c.status = .queued ∧ c.progress = 0 ∧ s.nextId ≤ c.id ∧ c.id < P := by
    intro c hc
    obtain ⟨h1, h2, h3, h4, h5, h6⟩ := mkChildren_mem (hchdef ▸ hc)
    exact ⟨h1, h2, h3, h4, h5, by rw [hPdef]; exact h6⟩
  have hchnodup : (children.map Job.id).Nodup := mkChildren_ids_nodup s.nextId urls
  have hchlt : ∀ x ∈ children.map Job.id, s.nextId ≤ x ∧ x < P := by
    intro x hx
    rcases List.mem_map.mp hx with ⟨c, hc, rfl⟩
    exact ⟨(hchm c hc).2.2.2.2.1, (hchm c hc).2.2.2.2.2⟩
  have hold : ∀ {i : Nat} {c : Job}, lookupJob s.jobs i = some c →
      lookupJob (s.jobs ++ children ++ [parent]) i = some c :=
    fun h => lookupJob_append_left (lookupJob_append_left h)
  have hchlook : ∀ x ∈ children.map Job.id, ∃ c ∈ children, c.id = x
      ∧ lookupJob (s.jobs ++ children ++ [parent]) x = some c := by
    intro x hx
    rcases List.mem_map.mp hx with ⟨c, hc, rfl⟩
    refine ⟨c, hc, rfl, ?_⟩
    refine lookupJob_append_left ?_
    rw [lookupJob_append_none
      (lookupJob_none_of_ge hInv0.idsLt (hchm c hc).2.2.2.2.1)]
    exact lookupJob_of_mem hchnodup hc
  have hplook : lookupJob (s.jobs ++ children ++ [parent]) P = some parent := by
    have hfront : ∀ y ∈ (s.jobs ++ children).map Job.id, y < P := by
      intro y hy
      rw [List.map_append] at hy
      rcases List.mem_append.mp hy with hy | hy
      · have := hInv0.idsLt y hy
        rw [hPdef]
        omega
      · exact (hchlt y hy).2
    rw [lookupJob_append_none (lookupJob_none_of_ge hfront (le_refl _))]
    simp [lookupJob, List.find?, hpdef, mkMergeParent]
  have hcases : ∀ {i : Nat} {j : Job},
      lookupJob (s.jobs ++ children ++ [parent]) i = some j →
      lookupJob s.jobs i = some j ∨ (j ∈ children ∧ j.id = i)
        ∨ (j = parent ∧ i = P) := by
    intro i j h
    rcases lookupJob_append_cases h with h | ⟨_, h2⟩
    · rcases lookupJob_append_cases h with h | ⟨_, h2⟩
      · exact Or.inl h
      · have hid := lookupJob_id h2
        exact Or.inr (Or.inl ⟨hid.2, hid.1⟩)
    · have hid := lookupJob_id h2
      rcases List.mem_singleton.mp hid.2 with rfl
      refine Or.inr (Or.inr ⟨rfl, ?_⟩)
      rw [← hid.1]
      rfl
  have hqlt : ∀ x ∈ s.queue, x < s.nextId := by
    intro x hx
    obtain ⟨j, hj, _⟩ := hInv0.queueOk x hx
    have := lookupJob_id hj
    rw [← this.1]
    exact hInv0.idsLt j.id (List.mem_map_of_mem Job.id this.2)
  have hcomp : ∀ i c, lookupJob s.jobs i = some c → c.status = .completed →
      lookupJob (s.jobs ++ children ++ [parent]) i = some c :=
    fun i c h _ => hold h
  have hpre : Inv o ⟨s.jobs ++ children ++ [parent],
      s.queue ++ children.map Job.id, s.activeCount, s.tasks,
      s.nextId + urls.length + 1⟩
      ∧ StepFrame s ⟨s.jobs ++ children ++ [parent],
        s.queue ++ children.map Job.id, s.activeCount, s.tasks,
        s.nextId + urls.length + 1⟩ := by
    refine ⟨⟨Inv0.mk ?_ ?_ ?_ ?_ ?_ ?_ ?_ ?_ ?_ ?_ ?_ ?_ ?_ ?_ ?_ ?_ ?_, ?_⟩, ?_⟩
    · exact hInv0.activeEq
    · exact hInv0.taskNodup
    · -- jobNodup
      show (((s.jobs ++ children) ++ [parent]).map Job.id).Nodup
      rw [List.map_append, List.map_append]
      refine List.nodup_append.mpr ⟨List.nodup_append.mpr
        ⟨hInv0.jobNodup, hchnodup, ?_⟩, by simp, ?_⟩
      · intro x hx
        have := hInv0.idsLt x hx
        intro hc
        have := (hchlt x hc).1
        omega
      · intro x hx
        simp only [List.map_cons, List.map_nil, List.mem_singleton]
        intro he
        have he2 : x = P := by
          rw [he]
          rfl
        rcases List.mem_append.mp hx with hx | hx
        · have := hInv0.idsLt x hx
          rw [hPdef] at he2
          omega
        · have := (hchlt x hx).2
          omega
    · -- idsLt
      intro x hx
      show x < s.nextId + urls.length + 1
      rw [List.map_append, List.map_append] at hx
      rcases List.mem_append.mp hx with hx | hx
      · rcases List.mem_append.mp hx with hx | hx
        · have := hInv0.idsLt x hx
          omega
        · have := (hchlt x hx).2
          rw [hPdef] at this
          omega
      · simp only [List.map_cons, List.map_nil, List.mem_singleton] at hx
        have hx2 : x = P := by
          rw [hx]
          rfl
        rw [hPdef] at hx2
        omega
    · -- queueNodup
      refine List.nodup_append.mpr ⟨hInv0.queueNodup, hchnodup, ?_⟩
      intro x hx hc
      have h1 := hqlt x hx
      have h2 := (hchlt x hc).1
      omega
    · -- queueOk
      intro x hx
      rcases List.mem_append.mp hx with hx | hx
      · obtain ⟨j, hj, h1, h2, h3⟩ := hInv0.queueOk x hx
        exact ⟨j, hold hj, h1, h2, h3⟩
      · obtain ⟨c, hc, rfl, hlc⟩ := hchlook x hx
        refine ⟨c, hlc, (hchm c hc).2.2.1, (hchm c hc).2.2.2.1, ?_⟩
        rw [(hchm c hc).1]
        intro h
        cases h
    · -- taskOk
      intro u hu
      obtain ⟨j, hj, hop⟩ := hInv0.taskOk u hu
      exact ⟨j, hold hj, phaseOk_jobs_congr hcomp hop⟩
    · -- flightTask
      intro i' j' hl' hact' hmode'
      rcases hcases hl' with hl2 | ⟨hc, rfl⟩ | ⟨rfl, rfl⟩
      · exact hInv0.flightTask i' j' hl2 hact' hmode'
      · rw [(hchm j' hc).2.2.1] at hact'
        simp [JobStatus.isActive] at hact'
      · exact absurd rfl hmode'
    · -- childOk
      intro i' j' hl' hm'
      rcases hcases hl' with hl2 | ⟨hc, rfl⟩ | ⟨rfl, rfl⟩
      · obtain ⟨p, par, ids, h1, h2, h3, h4, h5⟩ := hInv0.childOk i' j' hl2 hm'
        exact ⟨p, par, ids, h1, hold h2, h3, h4, h5⟩
      · exact ⟨P, parent, children.map Job.id, (hchm j' hc).2.1, hplook,
          rfl, rfl, List.mem_map_of_mem Job.id hc⟩
      · cases hm'
    · -- parentOk
      intro p par hl hm
      rcases hcases hl with hl2 | ⟨hc, rfl⟩ | ⟨rfl, rfl⟩
      · obtain ⟨ids, h1, h2, h3⟩ := hInv0.parentOk p par hl2 hm
        refine ⟨ids, h1, h2, fun i hi => ?_⟩
        obtain ⟨c, hc1, hc2, hc3⟩ := h3 i hi
        exact ⟨c, hold hc1, hc2, hc3⟩
      · rw [(hchm par hc).1] at hm
        cases hm
      · refine ⟨children.map Job.id, rfl, hchnodup, fun i hi => ?_⟩
        obtain ⟨c, hc, rfl, hlc⟩ := hchlook i hi
        exact ⟨c, hlc, (hchm c hc).1, (hchm c hc).2.1⟩
    · -- parentStatus
      intro p par hl hm
      rcases hcases hl with hl2 | ⟨hc, rfl⟩ | ⟨rfl, rfl⟩
      · exact hInv0.parentStatus p par hl2 hm
      · rw [(hchm par hc).1] at hm
        cases hm
      · exact Or.inl rfl
    · -- parentAdvanced
      intro p par hl hm hst ids hids i' hi'
      rcases hcases hl with hl2 | ⟨hc, rfl⟩ | ⟨rfl, rfl⟩
      · obtain ⟨c, hc1, hc2⟩ := hInv0.parentAdvanced p par hl2 hm hst ids hids i' hi'
        exact ⟨c, hold hc1, hc2⟩
      · rw [(hchm par hc).1] at hm
        cases hm
      · rcases hst with hst | hst <;> cases hst
    · -- parentFailedReason
      intro p par hl hm hst ids hids
      rcases hcases hl with hl2 | ⟨hc, rfl⟩ | ⟨rfl, rfl⟩
      · rcases hInv0.parentFailedReason p par hl2 hm hst ids hids with
          ⟨i', hi', c, hc1, hc2⟩ | hall
        · exact Or.inl ⟨i', hi', c, hold hc1, hc2⟩
        · refine Or.inr fun i' hi' => ?_
          obtain ⟨c, hc1, hc2⟩ := hall i' hi'
          exact ⟨c, hold hc1, hc2⟩
      · rw [(hchm par hc).1] at hm
        cases hm
      · cases hst
    · -- parentProgressBound
      intro p par hl hm hst ids hids
      rcases hcases hl with hl2 | ⟨hc, rfl⟩ | ⟨rfl, rfl⟩
      · obtain ⟨ids0, hids0, _, hres⟩ := hInv0.parentOk p par hl2 hm
        rw [hids] at hids0
        cases hids0
        have hcc : completedCount (s.jobs ++ children ++ [parent]) ids
            = completedCount s.jobs ids := by
          refine completedCount_congr fun i hi => ?_
          obtain ⟨c, hc1, _⟩ := hres i hi
          rw [hold hc1, hc1]
        rw [hcc]
        exact hInv0.parentProgressBound p par hl2 hm hst ids hids
      · rw [(hchm par hc).1] at hm
        cases hm
      · exact Nat.zero_le _
    · -- childCompleted
      intro i' j' hl' hm' hst'
      rcases hcases hl' with hl2 | ⟨hc, rfl⟩ | ⟨rfl, rfl⟩
      · exact hInv0.childCompleted i' j' hl2 hm' hst'
      · rw [(hchm j' hc).2.2.1] at hst'
        cases hst'
      · cases hm'
    · -- completedP
      intro i' j' hl' hst'
      rcases hcases hl' with hl2 | ⟨hc, rfl⟩ | ⟨rfl, rfl⟩
      · exact hInv0.completedP i' j' hl2 hst'
      · rw [(hchm j' hc).2.2.1] at hst'
        cases hst'
      · cases hst'
    · -- activeLe
      exact hInv0.activeLe
    · -- coupling
      intro i' j' hl' hm' hst' p' hpj
      rcases hcases hl' with hl2 | ⟨hc, rfl⟩ | ⟨rfl, rfl⟩
      · obtain ⟨par, h1, h2, ids, h3, i'', h4, c, h5, h6, h7⟩ :=
          hcfp i' j' hl2 hm' hst' p' hpj
        exact ⟨par, hold h1, h2, ids, h3, i'', h4, c, hold h5, h6, h7⟩
      · rw [(hchm j' hc).2.2.1] at hst'
        cases hst'
      · cases hst'
    · -- StepFrame
      intro i' j' hl'
      exact ⟨j', hold hl', frameJob_refl j'⟩
  have H := inv_processQueue hpre.1
  exact ⟨H.1, stepFrame_trans hpre.2 H.2⟩

/-! ## The reachability theorem -/

lemma inv_initState (o : Oracle) : Inv o initState := by
  refine ⟨Inv0.mk rfl (by simp [initState]) (by simp [initState])
    (by intro x hx; cases hx) (by simp [initState])
    (by intro x hx; cases hx) (by intro t ht; cases ht)
    (by intro i j h; cases h) (by intro i j h; cases h)
    (by intro p parent h; cases h) (by intro p parent h; cases h)
    (by intro p parent h; cases h) (by intro p parent h; cases h)
    (by intro p parent h; cases h) (by intro i j h; cases h)
    (by intro i j h; cases h) (by show 0 ≤ MAX_CONCURRENT; omega),
    by intro i j h; cases h⟩

lemma inv_applyAct {o : Oracle} {s : StoreState} (a : Act) (hInv : Inv o s) :
    Inv o (applyAct o s a) ∧ StepFrame s (applyAct o s a) := by
  cases a with
  | submit urls keys => exact inv_submit hInv
  | submitMerge urls keys => exact inv_submitMerge hInv
  | resume i => exact inv_resumeTask i hInv

/-- Every reachable store state satisfies the invariant bundle. -/
lemma inv_runStore (o : Oracle) (acts : List Act) : Inv o (runStore o acts) := by
  suffices h : ∀ (l : List Act) (s : StoreState), Inv o s →
      Inv o (l.foldl (applyAct o) s) by
    exact h acts initState (inv_initState o)
  intro l
  induction l with
  | nil => exact fun s h => h
  | cons a rest ih => exact fun s h => ih _ (inv_applyAct a h).1

/-- Extending an execution only moves every job record forward along the
frame order. -/
lemma stepFrame_runStore (o : Oracle) (l1 l2 : List Act) :
    StepFrame (runStore o l1) (runStore o (l1 ++ l2)) := by
  have happ : runStore o (l1 ++ l2) = l2.foldl (applyAct o) (runStore o l1) := by
    unfold runStore
    rw [List.foldl_append]
  rw [happ]
  have h : ∀ (l : List Act) (s : StoreState), Inv o s →
      StepFrame s (l.foldl (applyAct o) s) := by
    intro l
    induction l with
    | nil => exact fun s _ => stepFrame_refl s
    | cons a rest ih =>
      intro s hs
      obtain ⟨h1, h2⟩ := inv_applyAct a hs
      exact stepFrame_trans h2 (ih _ h1)
  exact h l2 _ (inv_runStore o l1)

/-- Every in-flight non-parent job is pinned to a distinct worker task,
so their number is bounded by `activeCount`. -/
lemma workersInFlight_le {o : Oracle} {s : StoreState} (hInv0 : Inv0 o s) :
    workersInFlight s.jobs ≤ s.activeCount := by
  have hsub : ((s.jobs.filter fun j =>
      j.status.isActive && !(j.mode == JobMode.mergeParent)).map Job.id)
      ⊆ ((s.tasks.filter fun t => !(isParentPhase t.phase)).map Task.jobId) := by
    intro x hx
    rcases List.mem_map.mp hx with ⟨j, hj, rfl⟩
    rcases List.mem_filter.mp hj with ⟨hjm, hpred⟩
    simp only [Bool.and_eq_true] at hpred
    have hact : j.status.isActive = true := hpred.1
    have hmode : j.mode ≠ .mergeParent := by
      have h2 := hpred.2
      intro he
      rw [he] at h2
      simp at h2
    obtain ⟨t, ht, hti, htw⟩ := hInv0.flightTask j.id j
      (lookupJob_of_mem hInv0.jobNodup hjm) hact hmode
    refine List.mem_map.mpr ⟨t, List.mem_filter.mpr ⟨ht, ?_⟩, hti⟩
    rw [htw]
    rfl
  have hnodup : ((s.jobs.filter fun j =>
      j.status.isActive && !(j.mode == JobMode.mergeParent)).map Job.id).Nodup :=
    hInv0.jobNodup.sublist (List.Sublist.map Job.id (List.filter_sublist s.jobs))
  have hlen := (hnodup.subperm hsub).length_le
  rw [List.length_map, List.length_map] at hlen
  calc workersInFlight s.jobs
      ≤ (s.tasks.filter fun t => !(isParentPhase t.phase)).length := hlen
    _ = s.activeCount := hInv0.activeEq.symm

lemma updateJob_eq_self {jobs : List Job} {i : Nat} {f : Job → Job}
    (h : ∀ j ∈ jobs, j.id = i → f j = j) : updateJob jobs i f = jobs := by
  unfold updateJob
  induction jobs with
  | nil => rfl
  | cons j0 js ih =>
    simp only [List.map_cons]
    congr 1
    · by_cases h0 : j0.id = i
      · rw [if_pos (by simp [h0])]
        exact h j0 (List.mem_cons_self j0 js) h0
      · rw [if_neg (by simp [h0])]
    · exact ih fun j hj hid => h j (List.mem_cons_of_mem j0 hj) hid

lemma mergeBlocks_eq (f : Nat → String) :
    ∀ (cs : List Job) (n : Nat),
      (∀ c ∈ cs, c.result = some ⟨f c.id, ""⟩) →
      (List.enumFrom n cs).map (fun p => mergeChildBlock p.1 p.2)
        = (List.enumFrom n (cs.map fun c => ((c.url, f c.id) : String × String))).map
            (fun p => "--- Video " ++ toString (p.1 + 1) ++ " ("
              ++ ((loomVideoId p.2.1).getD ("Video " ++ toString (p.1 + 1)))
              ++ ") ---\n" ++ p.2.2) := by
  intro cs
  induction cs with
  | nil => intro n _; rfl
  | cons c cs ih =>
    intro n h
    show mergeChildBlock n c :: _ = _ :: _
    congr 1
    · unfold mergeChildBlock childTranscript
      rw [h c (List.mem_cons_self c cs)]
      rfl
    · exact ih (n + 1) fun c' hc' => h c' (List.mem_cons_of_mem c hc')

/-- The combined document depends only on the children's locators and
transcripts, in list order. -/
lemma combinedTranscript_eq_pairs {children : List Job} {f : Nat → String}
    (h : ∀ c ∈ children, c.result = some ⟨f c.id, ""⟩) :
    combinedTranscript children
      = combinedOfPairs (children.map fun c => (c.url, f c.id)) := by
  show String.intercalate "\n\n"
      ((List.enumFrom 0 children).map fun p => mergeChildBlock p.1 p.2)
    = String.intercalate "\n\n"
      ((List.enumFrom 0 (children.map fun c => ((c.url, f c.id) : String × String))).map
        fun p => "--- Video " ++ toString (p.1 + 1) ++ " ("
          ++ ((loomVideoId p.2.1).getD ("Video " ++ toString (p.1 + 1)))
          ++ ") ---\n" ++ p.2.2)
  rw [mergeBlocks_eq f children 0 h]

/-! ## Claim C1: the concurrency ceiling -/

/-- Claim C1, counterexample: the spec says the number of in-flight jobs
(including a merge parent whose synthesis stage is running) never exceeds
`MAX_CONCURRENT = 2`. In the execution below — a one-video merge followed
by two individual submissions, with the merge child driven to completion —
the store reaches a state with three in-flight jobs: the merge check run
from the child's `finally` puts the parent into `generating` without
claiming a slot, and the subsequent `processQueue` still sees
`activeCount = 1`, dispatching a second individual job. -/
theorem claim_C1_cex :
    MAX_CONCURRENT < inFlightCount (runStore
      (fun _ => ⟨Except.ok (), Except.ok "T", Except.ok (), Except.ok "URL"⟩)
      [Act.submitMerge ["u1"] ⟨"g", "ga", none, none⟩,
        Act.submit ["u2", "u3"] ⟨"g", "ga", none, none⟩,
        Act.resume 0, Act.resume 0, Act.resume 0]).jobs := by
  decide

/-- Claim C1, amended: the ceiling does hold for the jobs a worker runner
is driving — in every reachable state at most `MAX_CONCURRENT = 2` jobs
are in flight excluding merge parents, and `activeCount` itself never
exceeds the ceiling; only a merge parent in its synthesis stage can push
the total in-flight count above it. -/
theorem claim_C1_bound (o : Oracle) (acts : List Act) :
    workersInFlight (runStore o acts).jobs ≤ MAX_CONCURRENT
    ∧ (runStore o acts).activeCount ≤ MAX_CONCURRENT :=
  ⟨le_trans (workersInFlight_le (inv_runStore o acts).1)
      (inv_runStore o acts).1.activeLe,
    (inv_runStore o acts).1.activeLe⟩

/-! ## Claim C2: idempotence of the merge-completion check -/

/-- Claim C2, counterexample: the spec says re-invoking
`checkMergeCompletion` after the parent is terminal is a no-op. In the
fully completed one-child merge below the parent is terminal
(`completed`), yet re-invoking the check mutates the store: the guardless
all-children-completed branch resets the parent to `generating` with
progress 75 and suspends a second synthesis task. -/
theorem claim_C2_cex :
    (lookupJob (runStore
        (fun _ => ⟨Except.ok (), Except.ok "T", Except.ok (), Except.ok "URL"⟩)
        [Act.submitMerge ["u1"] ⟨"g", "ga", none, none⟩,
          Act.resume 0, Act.resume 0, Act.resume 0, Act.resume 1]).jobs 1).map
        Job.status = some JobStatus.completed
    ∧ checkMergeCompletion (runStore
        (fun _ => ⟨Except.ok (), Except.ok "T", Except.ok (), Except.ok "URL"⟩)
        [Act.submitMerge ["u1"] ⟨"g", "ga", none, none⟩,
          Act.resume 0, Act.resume 0, Act.resume 0, Act.resume 1]) 1
      ≠ runStore
        (fun _ => ⟨Except.ok (), Except.ok "T", Except.ok (), Except.ok "URL"⟩)
        [Act.submitMerge ["u1"] ⟨"g", "ga", none, none⟩,
          Act.resume 0, Act.resume 0, Act.resume 0, Act.resume 1] := by
  exact ⟨by decide, by decide⟩

/-- Claim C2, amended: the check is a no-op on a terminal parent only in
the `failed` case — when the parent is already failed with the first
failed child's error recorded (as the fail-fast path leaves it), invoking
`checkMergeCompletion` again leaves the whole store unchanged; on a
`completed` parent it instead restarts the synthesis. -/
theorem claim_C2_noop (s : StoreState) (p : Nat) {parent fc : Job}
    {ids : List Nat} {children : List Job}
    (hnodup : (s.jobs.map Job.id).Nodup)
    (hp : lookupJob s.jobs p = some parent)
    (hc : parent.childJobIds = some ids)
    (hall : lookupAll s.jobs ids = some children)
    (hfind : children.find? (fun c => c.status == .failed) = some fc)
    (hst : parent.status = .failed)
    (herr : parent.error = some (childFailMsg fc))
    (hmsg : parent.message = childFailMsg fc) :
    checkMergeCompletion s p = s := by
  have hfix : ∀ j ∈ s.jobs, j.id = p →
      (fun q => ({ q with
        status := JobStatus.failed
        error := some (childFailMsg fc)
        message := childFailMsg fc } : Job)) j = j := by
    intro j hj hid
    have hjl : lookupJob s.jobs p = some j := by
      rw [← hid]
      exact lookupJob_of_mem hnodup hj
    rw [hp] at hjl
    cases hjl
    cases parent with
    | mk pid purl pkeys pmode ppj pcj pst ppr pmsg pres perr pca =>
      have hst' : pst = JobStatus.failed := hst
      have herr' : perr = some (childFailMsg fc) := herr
      have hmsg' : pmsg = childFailMsg fc := hmsg
      show Job.mk pid purl pkeys pmode ppj pcj JobStatus.failed ppr
          (childFailMsg fc) pres (some (childFailMsg fc)) pca
        = Job.mk pid purl pkeys pmode ppj pcj pst ppr pmsg pres perr pca
      rw [hst', herr', hmsg']
  rw [checkMC_failed hp hc hall hfind]
  show { s with jobs := updateJob s.jobs p _ } = s
  rw [updateJob_eq_self hfix]

/-- Claim C2, witness: in a two-child merge whose first child failed, the
parent is failed with that child's error, and re-invoking the check is a
no-op. -/
theorem claim_C2_noop_check :
    checkMergeCompletion (runStore
        (fun i => if i == 0
          then ⟨Except.ok (), Except.error "boom", Except.ok (), Except.ok "URL"⟩
          else ⟨Except.ok (), Except.ok "T", Except.ok (), Except.ok "URL"⟩)
        [Act.submitMerge ["u1", "u2"] ⟨"g", "ga", none, none⟩,
          Act.resume 0, Act.resume 0, Act.resume 0]) 2
      = runStore
        (fun i => if i == 0
          then ⟨Except.ok (), Except.error "boom", Except.ok (), Except.ok "URL"⟩
          else ⟨Except.ok (), Except.ok "T", Except.ok (), Except.ok "URL"⟩)
        [Act.submitMerge ["u1", "u2"] ⟨"g", "ga", none, none⟩,
          Act.resume 0, Act.resume 0, Act.resume 0] :=
  claim_C2_noop _ 2 (by decide) (by rfl) (by rfl) (by rfl) (by rfl) (by rfl)
    (by rfl) (by rfl)

/-! ## Claim C3: the parent progress values -/

/-- Claim C3, counterexample: the spec predicts parent progress 23, 46, 70
for a three-child merge as children complete one by one. `Math.round`
gives `round(2 * 70 / 3) = 47`, not 46 — below, after the second of three
children completes, the parent's progress is 47 — and the third
completion takes the all-done branch (`generating` at 75), so 70 is never
shown. -/
theorem claim_C3_cex :
    (lookupJob (runStore
        (fun _ => ⟨Except.ok (), Except.ok "T", Except.ok (), Except.ok "URL"⟩)
        [Act.submitMerge ["a", "b", "c"] ⟨"g", "ga", none, none⟩,
          Act.resume 0, Act.resume 0, Act.resume 0]).jobs 3).map
        Job.progress = some 23
    ∧ (lookupJob (runStore
        (fun _ => ⟨Except.ok (), Except.ok "T", Except.ok (), Except.ok "URL"⟩)
        [Act.submitMerge ["a", "b", "c"] ⟨"g", "ga", none, none⟩,
          Act.resume 0, Act.resume 0, Act.resume 0,
          Act.resume 1, Act.resume 1, Act.resume 1]).jobs 3).map
        Job.progress = some 47
    ∧ ¬ (lookupJob (runStore
        (fun _ => ⟨Except.ok (), Except.ok "T", Except.ok (), Except.ok "URL"⟩)
        [Act.submitMerge ["a", "b", "c"] ⟨"g", "ga", none, none⟩,
          Act.resume 0, Act.resume 0, Act.resume 0,
          Act.resume 1, Act.resume 1, Act.resume 1]).jobs 3).map
        Job.progress = some 46
    ∧ (lookupJob (runStore
        (fun _ => ⟨Except.ok (), Except.ok "T", Except.ok (), Except.ok "URL"⟩)
        [Act.submitMerge ["a", "b", "c"] ⟨"g", "ga", none, none⟩,
          Act.resume 0, Act.resume 0, Act.resume 0,
          Act.resume 1, Act.resume 1, Act.resume 1,
          Act.resume 2, Act.resume 2, Act.resume 2]).jobs 3).map
        (fun j => (j.status, j.progress)) = some (JobStatus.generating, 75) := by
  exact ⟨by decide, by decide, by decide, by decide⟩

/-- Claim C3, amended: each passing merge check with no failed child and
not all children completed sets the parent's progress to
`round(70 * completedCount / totalChildren)` (round half up) and leaves
its status unchanged; with all children completed it sets `generating` at
75. For n = 3 the partial values are `round(70/3) = 23` and
`round(140/3) = 47` (not 46), and 70 would only arise at `3/3`, which
instead takes the all-done branch. -/
theorem claim_C3_progress (s : StoreState) (p : Nat) {parent : Job}
    {ids : List Nat} {children : List Job}
    (hp : lookupJob s.jobs p = some parent)
    (hc : parent.childJobIds = some ids)
    (hall : lookupAll s.jobs ids = some children)
    (hfind : children.find? (fun c => c.status == .failed) = none) :
    ((children.all fun c => c.status == .completed) = false →
      (lookupJob (checkMergeCompletion s p).jobs p).map Job.progress
        = some (roundDiv
            ((children.filter fun c => c.status == .completed).length * 70)
            children.length)
      ∧ (lookupJob (checkMergeCompletion s p).jobs p).map Job.status
        = some parent.status)
    ∧ ((children.all fun c => c.status == .completed) = true →
      (lookupJob (checkMergeCompletion s p).jobs p).map Job.progress = some 75
      ∧ (lookupJob (checkMergeCompletion s p).jobs p).map Job.status
        = some JobStatus.generating)
    ∧ roundDiv (1 * 70) 3 = 23 ∧ roundDiv (2 * 70) 3 = 47
    ∧ roundDiv (3 * 70) 3 = 70 := by
  refine ⟨?_, ?_, by decide, by decide, by decide⟩
  · intro hdone
    rw [checkMC_notAllDone hp hc hall hfind hdone]
    have hl := lookupJob_updateJob_of_eq
      (f := fun q => { q with
        progress := roundDiv
          ((children.filter fun c => c.status == .completed).length * 70)
          children.length
        message := "Transkription "
          ++ toString (children.filter fun c => c.status == .completed).length
          ++ "/" ++ toString children.length ++ " fertig..." })
      (fun _ => ⟨rfl, rfl, rfl, rfl, rfl, rfl, rfl⟩) hp
    constructor
    · show (lookupJob (updateJob s.jobs p _) p).map Job.progress = _
      rw [hl]
      rfl
    · show (lookupJob (updateJob s.jobs p _) p).map Job.status = _
      rw [hl]
      rfl
  · intro hdone
    rw [checkMC_done hp hc hall hfind hdone]
    have hl := lookupJob_updateJob_of_eq
      (f := fun q => { q with
        status := JobStatus.generating
        progress := 75
        message := "Erstelle Präsentation aus allen Transkripten..." })
      (fun _ => ⟨rfl, rfl, rfl, rfl, rfl, rfl, rfl⟩) hp
    constructor
    · show (lookupJob (updateJob s.jobs p _) p).map Job.progress = _
      rw [hl]
      rfl
    · show (lookupJob (updateJob s.jobs p _) p).map Job.status = _
      rw [hl]
      rfl

/-- Claim C3, witness: re-running the check on the three-child merge with
one completed child yields progress `round(70/3) = 23`, status unchanged
(`queued`). -/
theorem claim_C3_progress_check :
    (lookupJob (checkMergeCompletion (runStore
        (fun _ => ⟨Except.ok (), Except.ok "T", Except.ok (), Except.ok "URL"⟩)
        [Act.submitMerge ["a", "b", "c"] ⟨"g", "ga", none, none⟩,
          Act.resume 0, Act.resume 0, Act.resume 0]) 3).jobs 3).map
        Job.progress = some 23
    ∧ (lookupJob (checkMergeCompletion (runStore
        (fun _ => ⟨Except.ok (), Except.ok "T", Except.ok (), Except.ok "URL"⟩)
        [Act.submitMerge ["a", "b", "c"] ⟨"g", "ga", none, none⟩,
          Act.resume 0, Act.resume 0, Act.resume 0]) 3).jobs 3).map
        Job.status = some JobStatus.queued := by
  have H := claim_C3_progress (runStore
      (fun _ => ⟨Except.ok (), Except.ok "T", Except.ok (), Except.ok "URL"⟩)
      [Act.submitMerge ["a", "b", "c"] ⟨"g", "ga", none, none⟩,
        Act.resume 0, Act.resume 0, Act.resume 0]) 3
    (by rfl) (by rfl) (by rfl) (by rfl)
  obtain ⟨h1, h2⟩ := H.1 (by rfl)
  exact ⟨h1.trans (by decide), h2.trans (by decide)⟩

/-! ## Claim C4: the fail-fast policy -/

/-- Claim C4, counterexample: the claim requires the parent's error to
identify WHICH child failed, but `checkMergeCompletion` emits only
`Video fehlgeschlagen: <child error>` with no child identifier. In the
two executions below a two-video merge is submitted with the same
locators and a different child fails (child 0 in the first, child 1 in
the second, each with error "boom"); the parent record ends up with the
identical error string in both, so the error cannot identify which child
failed. -/
theorem claim_C4_cex :
    (lookupJob (runStore
        (fun i => if i == 0
          then ⟨Except.ok (), Except.error "boom", Except.ok (), Except.ok "URL"⟩
          else ⟨Except.ok (), Except.ok "T", Except.ok (), Except.ok "URL"⟩)
        [Act.submitMerge ["u1", "u2"] ⟨"g", "ga", none, none⟩,
          Act.resume 0, Act.resume 0, Act.resume 0]).jobs 2).map Job.error
      = some (some "Video fehlgeschlagen: boom")
    ∧ (lookupJob (runStore
        (fun i => if i == 1
          then ⟨Except.ok (), Except.error "boom", Except.ok (), Except.ok "URL"⟩
          else ⟨Except.ok (), Except.ok "T", Except.ok (), Except.ok "URL"⟩)
        [Act.submitMerge ["u1", "u2"] ⟨"g", "ga", none, none⟩,
          Act.resume 1, Act.resume 1, Act.resume 1]).jobs 2).map Job.error
      = some (some "Video fehlgeschlagen: boom")
    ∧ (lookupJob (runStore
        (fun i => if i == 0
          then ⟨Except.ok (), Except.error "boom", Except.ok (), Except.ok "URL"⟩
          else ⟨Except.ok (), Except.ok "T", Except.ok (), Except.ok "URL"⟩)
        [Act.submitMerge ["u1", "u2"] ⟨"g", "ga", none, none⟩,
          Act.resume 0, Act.resume 0, Act.resume 0]).jobs 0).map
        (fun j => (j.status, j.url)) = some (JobStatus.failed, "u1")
    ∧ (lookupJob (runStore
        (fun i => if i == 0
          then ⟨Except.ok (), Except.error "boom", Except.ok (), Except.ok "URL"⟩
          else ⟨Except.ok (), Except.ok "T", Except.ok (), Except.ok "URL"⟩)
        [Act.submitMerge ["u1", "u2"] ⟨"g", "ga", none, none⟩,
          Act.resume 0, Act.resume 0, Act.resume 0]).jobs 1).map Job.status
      = some JobStatus.downloading
    ∧ (lookupJob (runStore
        (fun i => if i == 1
          then ⟨Except.ok (), Except.error "boom", Except.ok (), Except.ok "URL"⟩
          else ⟨Except.ok (), Except.ok "T", Except.ok (), Except.ok "URL"⟩)
        [Act.submitMerge ["u1", "u2"] ⟨"g", "ga", none, none⟩,
          Act.resume 1, Act.resume 1, Act.resume 1]).jobs 1).map
        (fun j => (j.status, j.url)) = some (JobStatus.failed, "u2")
    ∧ (lookupJob (runStore
        (fun i => if i == 1
          then ⟨Except.ok (), Except.error "boom", Except.ok (), Except.ok "URL"⟩
          else ⟨Except.ok (), Except.ok "T", Except.ok (), Except.ok "URL"⟩)
        [Act.submitMerge ["u1", "u2"] ⟨"g", "ga", none, none⟩,
          Act.resume 1, Act.resume 1, Act.resume 1]).jobs 0).map Job.status
      = some JobStatus.downloading := by
  exact ⟨by decide, by decide, by decide, by decide, by decide, by decide⟩

/-- Claim C4, amended: in every reachable state of every execution, a
failed merge child entails that its parent is already failed — its error
is `Video fehlgeschlagen: <error>` quoting a failed child's error message
but carrying no identifier of that child (that is what `CFPAt` says) —
so the parent did not wait for the remaining children; and in every
extension of the execution the parent is still failed and in particular
never `generating`, even after the remaining children complete. -/
theorem claim_C4_failfast (o : Oracle) (l1 l2 : List Act) (i p : Nat)
    (j : Job)
    (hl : lookupJob (runStore o l1).jobs i = some j)
    (hm : j.mode = .mergeChild) (hst : j.status = .failed)
    (hp : j.parentJobId = some p) :
    CFPAt (runStore o l1) p
    ∧ ∀ parent', lookupJob (runStore o (l1 ++ l2)).jobs p = some parent' →
        parent'.status = .failed ∧ parent'.status ≠ .generating := by
  have hInv := inv_runStore o l1
  have hcfp := hInv.2 i j hl hm hst p hp
  refine ⟨hcfp, ?_⟩
  obtain ⟨parent, hpar, hpst, -⟩ := hcfp
  intro parent' hl'
  obtain ⟨j2, hl2, hf⟩ := stepFrame_runStore o l1 l2 p parent hpar
  rw [hl'] at hl2
  cases hl2
  have hfailed : parent'.status = .failed :=
    hf.2.2.2.2.2.2.2.2.2 hpst
  refine ⟨hfailed, ?_⟩
  intro hg
  rw [hfailed] at hg
  cases hg

/-- Claim C4, witness: child 0 of a two-child merge fails transcription
with "boom"; the parent (job 2) is failed at once with
`Video fehlgeschlagen: boom`, and remains failed (never `generating`)
after the second child later completes. -/
theorem claim_C4_failfast_check :
    CFPAt (runStore
        (fun i => if i == 0
          then ⟨Except.ok (), Except.error "boom", Except.ok (), Except.ok "URL"⟩
          else ⟨Except.ok (), Except.ok "T", Except.ok (), Except.ok "URL"⟩)
        [Act.submitMerge ["u1", "u2"] ⟨"g", "ga", none, none⟩,
          Act.resume 0, Act.resume 0, Act.resume 0]) 2
    ∧ (lookupJob (runStore
        (fun i => if i == 0
          then ⟨Except.ok (), Except.error "boom", Except.ok (), Except.ok "URL"⟩
          else ⟨Except.ok (), Except.ok "T", Except.ok (), Except.ok "URL"⟩)
        ([Act.submitMerge ["u1", "u2"] ⟨"g", "ga", none, none⟩,
          Act.resume 0, Act.resume 0, Act.resume 0]
          ++ [Act.resume 1, Act.resume 1, Act.resume 1])).jobs 2).map
        Job.status = some JobStatus.failed := by
  have H := claim_C4_failfast
    (fun i => if i == 0
      then ⟨Except.ok (), Except.error "boom", Except.ok (), Except.ok "URL"⟩
      else ⟨Except.ok (), Except.ok "T", Except.ok (), Except.ok "URL"⟩)
    [Act.submitMerge ["u1", "u2"] ⟨"g", "ga", none, none⟩,
      Act.resume 0, Act.resume 0, Act.resume 0]
    [Act.resume 1, Act.resume 1, Act.resume 1]
    0 2 _ (by rfl) (by rfl) (by rfl) (by rfl)
  refine ⟨H.1, ?_⟩
  rcases hl : lookupJob (runStore
      (fun i => if i == 0
        then ⟨Except.ok (), Except.error "boom", Except.ok (), Except.ok "URL"⟩
        else ⟨Except.ok (), Except.ok "T", Except.ok (), Except.ok "URL"⟩)
      ([Act.submitMerge ["u1", "u2"] ⟨"g", "ga", none, none⟩,
        Act.resume 0, Act.resume 0, Act.resume 0]
        ++ [Act.resume 1, Act.resume 1, Act.resume 1])).jobs 2 with _ | parent'
  · exact absurd hl (by decide)
  · show some parent'.status = some JobStatus.failed
    rw [(H.2 parent' hl).1]

/-! ## Claim C6: the combined synthesis document -/

/-- Claim C6: whenever a synthesis task is suspended in any execution,
its combined document is `combinedTranscript children` — the children
resolved from `childJobIds` in creation order, each block labelled with
its position and Loom video id — all children are completed with exactly
the transcript the remote transcription assigned to them, and the
document equals a function (`combinedOfPairs`) of the children's locators
and remotely-fixed transcripts alone, independent of the order in which
the children completed. -/
theorem claim_C6_combined (o : Oracle) (acts : List Act) (p : Nat)
    (combined : String)
    (ht : (⟨p, .parentGenerate combined⟩ : Task) ∈ (runStore o acts).tasks) :
    ∃ parent ids children,
      lookupJob (runStore o acts).jobs p = some parent
      ∧ parent.childJobIds = some ids
      ∧ lookupAll (runStore o acts).jobs ids = some children
      ∧ combined = combinedTranscript children
      ∧ (∀ c ∈ children, c.status = .completed
          ∧ c.result = some ⟨oracleTranscript o c.id, ""⟩)
      ∧ combined = combinedOfPairs (children.map fun c =>
          (c.url, oracleTranscript o c.id)) := by
  obtain ⟨j, hj, hop⟩ :=
    (inv_runStore o acts).1.taskOk ⟨p, .parentGenerate combined⟩ ht
  obtain ⟨hm, hstj, hprj, ids, children, hcids, hall, hallc, hcomb⟩ := hop
  refine ⟨j, ids, children, hj, hcids, hall, hcomb, hallc, ?_⟩
  rw [hcomb]
  exact combinedTranscript_eq_pairs fun c hc => (hallc c hc).2

/-- Claim C6, witness: after both children of a two-video merge complete,
the suspended synthesis task carries the two labelled transcripts in
creation order, and the theorem resolves it against the job table. -/
theorem claim_C6_combined_check :
    ∃ parent ids children,
      lookupJob (runStore
          (fun _ => ⟨Except.ok (), Except.ok "T", Except.ok (), Except.ok "URL"⟩)
          [Act.submitMerge ["u1", "u2"] ⟨"g", "ga", none, none⟩,
            Act.resume 0, Act.resume 0, Act.resume 0,
            Act.resume 1, Act.resume 1, Act.resume 1]).jobs 2 = some parent
      ∧ parent.childJobIds = some ids
      ∧ lookupAll (runStore
          (fun _ => ⟨Except.ok (), Except.ok "T", Except.ok (), Except.ok "URL"⟩)
          [Act.submitMerge ["u1", "u2"] ⟨"g", "ga", none, none⟩,
            Act.resume 0, Act.resume 0, Act.resume 0,
            Act.resume 1, Act.resume 1, Act.resume 1]).jobs ids = some children
      ∧ "--- Video 1 (Video 1) ---\nT\n\n--- Video 2 (Video 2) ---\nT"
          = combinedTranscript children
      ∧ (∀ c ∈ children, c.status = .completed
          ∧ c.result = some ⟨oracleTranscript
              (fun _ => ⟨Except.ok (), Except.ok "T", Except.ok (), Except.ok "URL"⟩)
              c.id, ""⟩)
      ∧ "--- Video 1 (Video 1) ---\nT\n\n--- Video 2 (Video 2) ---\nT"
          = combinedOfPairs (children.map fun c =>
              (c.url, oracleTranscript
                (fun _ => ⟨Except.ok (), Except.ok "T", Except.ok (), Except.ok "URL"⟩)
                c.id)) :=
  claim_C6_combined
    (fun _ => ⟨Except.ok (), Except.ok "T", Except.ok (), Except.ok "URL"⟩)
    [Act.submitMerge ["u1", "u2"] ⟨"g", "ga", none, none⟩,
      Act.resume 0, Act.resume 0, Act.resume 0,
      Act.resume 1, Act.resume 1, Act.resume 1]
    2 "--- Video 1 (Video 1) ---\nT\n\n--- Video 2 (Video 2) ---\nT"
    (by decide)

/-! ## Claim C9: progress is monotone -/

/-- Claim C9: across any two observations of the same job — in an
execution and any extension of it — the progress value never decreases;
a completed job shows progress 100 and its whole record is frozen. -/
theorem claim_C9_monotone (o : Oracle) (l1 l2 : List Act) (i : Nat)
    (j j' : Job)
    (h1 : lookupJob (runStore o l1).jobs i = some j)
    (h2 : lookupJob (runStore o (l1 ++ l2)).jobs i = some j') :
    j.progress ≤ j'.progress
    ∧ (j'.status = .completed → j'.progress = 100)
    ∧ (j.status = .completed → j' = j) := by
  obtain ⟨j2, hl2, hf⟩ := stepFrame_runStore o l1 l2 i j h1
  rw [h2] at hl2
  cases hl2
  exact ⟨hf.2.2.2.2.2.2.2.1,
    fun hc => (inv_runStore o (l1 ++ l2)).1.completedP i j' h2 hc,
    hf.2.2.2.2.2.2.2.2.1⟩

/-- Claim C9, witness: the merge parent of a three-video merge shows
progress 23 after the first child completes and 47 after the second; the
theorem yields 23 ≤ 47. -/
theorem claim_C9_monotone_check :
    (lookupJob (runStore
        (fun _ => ⟨Except.ok (), Except.ok "T", Except.ok (), Except.ok "URL"⟩)
        [Act.submitMerge ["a", "b", "c"] ⟨"g", "ga", none, none⟩,
          Act.resume 0, Act.resume 0, Act.resume 0]).jobs 3).map
        Job.progress = some 23
    ∧ (lookupJob (runStore
        (fun _ => ⟨Except.ok (), Except.ok "T", Except.ok (), Except.ok "URL"⟩)
        ([Act.submitMerge ["a", "b", "c"] ⟨"g", "ga", none, none⟩,
          Act.resume 0, Act.resume 0, Act.resume 0]
          ++ [Act.resume 1, Act.resume 1, Act.resume 1])).jobs 3).map
        Job.progress = some 47
    ∧ 23 ≤ 47 := by
  refine ⟨by decide, by decide, ?_⟩
  have H := claim_C9_monotone
    (fun _ => ⟨Except.ok (), Except.ok "T", Except.ok (), Except.ok "URL"⟩)
    [Act.submitMerge ["a", "b", "c"] ⟨"g", "ga", none, none⟩,
      Act.resume 0, Act.resume 0, Act.resume 0]
    [Act.resume 1, Act.resume 1, Act.resume 1]
    3 _ _ (by rfl) (by rfl)
  exact H.1

/-! ## Claim C10: summaries expose only the artifact reference -/

/-- Claim C10: for every job of every reachable table, the summary's
result holds exactly the job's `presentationUrl` — the transcript is
never included, whatever the status — and for a completed merge child the
exposed `presentationUrl` is the empty string (`runMergeChild` stores
`presentationUrl: ''`). -/
theorem claim_C10_summary (o : Oracle) (acts : List Act) (i : Nat) (j : Job)
    (hl : lookupJob (runStore o acts).jobs i = some j) :
    (toSummary j).result = j.result.map JobResult.presentationUrl
    ∧ (j.mode = .mergeChild → j.status = .completed →
        (toSummary j).result = some "") := by
  refine ⟨rfl, fun hm hc => ?_⟩
  have h := (inv_runStore o acts).1.childCompleted i j hl hm hc
  show j.result.map JobResult.presentationUrl = some ""
  rw [h.1]
  rfl

/-- Claim C10, witness: the completed merge child of a one-video merge is
summarised with result `some ""` — the transcript `"T"` it holds is not
exposed. -/
theorem claim_C10_summary_check :
    lookupJob (runStore
        (fun _ => ⟨Except.ok (), Except.ok "T", Except.ok (), Except.ok "URL"⟩)
        [Act.submitMerge ["u1"] ⟨"g", "ga", none, none⟩,
          Act.resume 0, Act.resume 0, Act.resume 0]).jobs 0
      = some
        { id := 0
          url := "u1"
          keys := ⟨"g", "ga", none, none⟩
          mode := .mergeChild
          parentJobId := some 1
          childJobIds := none
          status := .completed
          progress := 100
          message := "Transkription abgeschlossen"
          result := some ⟨"T", ""⟩
          error := none
          createdAt := 0 }
    ∧ (toSummary
        { id := 0
          url := "u1"
          keys := ⟨"g", "ga", none, none⟩
          mode := .mergeChild
          parentJobId := some 1
          childJobIds := none
          status := .completed
          progress := 100
          message := "Transkription abgeschlossen"
          result := some ⟨"T", ""⟩
          error := none
          createdAt := 0 }).result = some "" := by
  refine ⟨by decide, ?_⟩
  have H := claim_C10_summary
    (fun _ => ⟨Except.ok (), Except.ok "T", Except.ok (), Except.ok "URL"⟩)
    [Act.submitMerge ["u1"] ⟨"g", "ga", none, none⟩,
      Act.resume 0, Act.resume 0, Act.resume 0]
    0
    { id := 0
      url := "u1"
      keys := ⟨"g", "ga", none, none⟩
      mode := .mergeChild
      parentJobId := some 1
      childJobIds := none
      status := .completed
      progress := 100
      message := "Transkription abgeschlossen"
      result := some ⟨"T", ""⟩
      error := none
      createdAt := 0 }
    (by decide)
  exact H.2 rfl rfl

end Loomify
